import Mathlib

/-!
# RAW F1 eSports Championship site: the CSV and standings pipeline of `script.js`

A shallow embedding of the data-shaping core of `src/script.js`
(`parseCsv`, `rowsToObjects`, `escapeHtml`, `toNumberSafe`, `sortByTotalDesc`,
the ranking and the podium, the race filter, and the control flow of loading)
together with theorems about it.

Modelling conventions.

* A JavaScript string is the list of its characters (`Str`).  The scanner only
  ever compares single characters with the double quote, the comma, LF and CR
  and tests lengths against zero, so nothing depends on how characters outside
  the Basic Multilingual Plane are split into code units.
* A JavaScript array is a list; `push` appends at the end.
* The `for` loop of `parseCsv` is run with an explicit index and fuel, and
  returns `none` when the fuel does not suffice.
* An object built by `rowsToObjects` is the list of its own properties; an
  absent property reads as `none` (`undefined`).
* A Number is a rational (a finite binary64 value), an infinity or NaN; the
  conversion of a decimal text and the subtraction round to the nearest
  binary64 value, ties to even.  The two zeros are one value: the code
  only tests Numbers for finiteness and for their sign.
* The case tables that `toLowerCase` reads are a parameter (`CaseTables`);
  `asciiCaseTables` is their restriction to ASCII, used for the examples.
* An `async` function is run to its end and returns the state it leaves with
  the reason of its rejection, if any; a promise that is neither awaited nor
  given a handler leaves its rejection in `PageState.unhandled`.
-/

namespace RawF1

/-- A JavaScript string, as the list of its characters. -/
abbrev Str := List Char

/-! ## `parseCsv` (script.js, lines 55-98) -/

/-- The four local variables of `parseCsv`: `rows`, `row`, `current`, `inQuotes`. -/
structure ScanState where
  rows : List (List Str)
  row : List Str
  current : Str
  inQuotes : Bool
deriving DecidableEq, Repr

/-- The values of the locals on entry to the loop (lines 56-59). -/
def ScanState.init : ScanState :=
  { rows := [], row := [], current := [], inQuotes := false }

/-- The statement `row.push(current); rows.push(row); row = []; current = ""`
of lines 81-84. -/
def ScanState.flushRow (s : ScanState) : ScanState :=
  { s with rows := s.rows ++ [s.row ++ [s.current]], row := [], current := [] }

/-- One pass through the body of the `for` loop (lines 62-89) at a character `c`
whose successor is `next` (`none` when `csvText[i + 1]` is `undefined`).
The Boolean tells whether the body executed its extra `i++`. -/
def loopBody (c : Char) (next : Option Char) (s : ScanState) : ScanState × Bool :=
  if c = '"' ∧ s.inQuotes = true ∧ next = some '"' then
    ({ s with current := s.current ++ ['"'] }, true)
  else if c = '"' then
    ({ s with inQuotes := !s.inQuotes }, false)
  else if c = ',' ∧ s.inQuotes = false then
    ({ s with row := s.row ++ [s.current], current := [] }, false)
  else if (c = '\n' ∨ c = '\r') ∧ s.inQuotes = false then
    let s1 := if s.current.length ≠ 0 ∨ s.row.length ≠ 0 then s.flushRow else s
    (s1, decide (c = '\r' ∧ next = some '\n'))
  else
    ({ s with current := s.current ++ [c] }, false)

/-- The `for` loop of lines 61-90, started at index `i` in state `s`.  Every
iteration uses one unit of fuel; `none` means the fuel ran out before the loop
condition `i < csvText.length` became false. -/
def parseLoop (csvText : Str) : Nat → Nat → ScanState → Option ScanState
  | 0, i, s =>
    match csvText[i]? with
    | none => some s
    | some _ => none
  | fuel + 1, i, s =>
    match csvText[i]? with
    | none => some s
    | some c =>
      let r := loopBody c csvText[i + 1]? s
      parseLoop csvText fuel (if r.2 then i + 2 else i + 1) r.1

/-- The final flush and `return rows` of lines 92-97. -/
def ScanState.finish (s : ScanState) : List (List Str) :=
  if s.current.length ≠ 0 ∨ s.row.length ≠ 0 then s.rows ++ [s.row ++ [s.current]]
  else s.rows

/-- The function `parseCsv`: the loop is given one unit of fuel per character
of the input. -/
def parseCsv (csvText : Str) : Option (List (List Str)) :=
  (parseLoop csvText csvText.length 0 ScanState.init).map ScanState.finish

/-- The loop of `parseCsv` as a recursion on the text that is still to be read:
the state reached from `s` after the loop has consumed the whole list. -/
def scan : ScanState → List Char → ScanState
  | s, [] => s
  | s, [c] => (loopBody c none s).1
  | s, c :: tl@(d :: rest) =>
    if (loopBody c (some d) s).2 then scan (loopBody c (some d) s).1 rest
    else scan (loopBody c (some d) s).1 tl

/-! ## `rowsToObjects` (script.js, lines 100-109) -/

/-- The characters `String.prototype.trim` removes: the WhiteSpace and
LineTerminator code points of ECMAScript. -/
def isWhiteSpace (c : Char) : Bool :=
  decide (c.toNat ∈ [0x9, 0xA, 0xB, 0xC, 0xD, 0x20, 0xA0, 0x1680, 0x2028, 0x2029, 0x202F,
    0x205F, 0x3000, 0xFEFF]) || (decide (0x2000 ≤ c.toNat) && decide (c.toNat ≤ 0x200A))

/-- `String.prototype.trim`: white space removed from both ends. -/
def trim (s : Str) : Str :=
  ((s.dropWhile isWhiteSpace).reverse.dropWhile isWhiteSpace).reverse

/-- An object created by `{}` whose property values are strings: its own
properties, listed in the order in which they were created.  (ECMAScript
enumerates names that are array indices first; no statement below depends on
the order of enumeration.) -/
abbrev Record := List (Str × Str)

/-- The own property names of an object (those `Object.keys` returns), in the
order of creation. -/
def Record.keys (o : Record) : List Str := o.map Prod.fst

/-- Reading an own property: `none` when the object has no such property. -/
def Record.get? (o : Record) (k : Str) : Option Str := o.lookup k

/-- The assignment `obj[k] = v` of a string `v` to an object created by `{}`.
An existing property keeps its place and takes the new value, a new one is
added at the end; the name `__proto__` designates the prototype accessor of
`Object.prototype`, whose setter ignores a value that is not an object, so
that this assignment creates no property. -/
def Record.set (o : Record) (k v : Str) : Record :=
  if k = "__proto__".toList then o
  else if o.any (fun kv => kv.1 == k) then o.map (fun kv => if kv.1 = k then (k, v) else kv)
  else o ++ [(k, v)]

/-- The call `headers.forEach((h, idx) => obj[h] = (r[idx] ?? "").trim())` of
line 106, from index `idx` on; `r[idx] ?? ""` is the empty string when the row
has no cell at `idx`. -/
def forEachHeader (r : List Str) : List Str → Nat → Record → Record
  | [], _, obj => obj
  | h :: hs, idx, obj => forEachHeader r hs (idx + 1) (obj.set h (trim (r[idx]?.getD [])))

/-- The callback of `map` (lines 104-108): the object built for the row `r`. -/
def rowToObject (headers : List Str) (r : List Str) : Record :=
  forEachHeader r headers 0 []

/-- The callback of `filter` (line 103): some cell is non-empty after trimming. -/
def hasContent (r : List Str) : Bool :=
  r.any fun cell => decide (trim cell ≠ [])

/-- The constant `headers` of line 101: `rows[0] || []` is the first row, or the
empty array when there is none; every cell is trimmed. -/
def headerCells (rows : List (List Str)) : List Str :=
  (rows.head?.getD []).map trim

/-- The function `rowsToObjects`; `rows.slice(1)` is the rows after the first. -/
def rowsToObjects (rows : List (List Str)) : List Record :=
  ((rows.drop 1).filter hasContent).map (rowToObject (headerCells rows))


/-! ## `toNumberSafe` (script.js, lines 153-156) -/

/-- A JavaScript Number: a finite value of the binary64 format, given by the
rational it denotes (the two zeros are not distinguished), an infinity, or NaN. -/
inductive JSNumber where
  | finite (q : ℚ)
  | posInf
  | negInf
  | nan
deriving DecidableEq

/-- The test `Number.isFinite`. -/
def JSNumber.isFinite : JSNumber → Bool
  | .finite _ => true
  | _ => false

/-- Rounding to the nearest integer, a tie going to the even one. -/
def roundHalfEven (q : ℚ) : ℤ :=
  if q - ⌊q⌋ < 1 / 2 then ⌊q⌋
  else if 1 / 2 < q - ⌊q⌋ then ⌊q⌋ + 1
  else if ⌊q⌋ % 2 = 0 then ⌊q⌋
  else ⌊q⌋ + 1

/-- The exponent of the spacing of the binary64 values around `q`: 53
significant bits, and never below the subnormal spacing `2 ^ (-1074)`. -/
def ulpExponent (q : ℚ) : ℤ :=
  max (Int.log 2 |q| - 52) (-1074)

/-- The Number value for a rational: the nearest binary64 value, ties to the
even significand, and an infinity from `2 ^ 1024` on. -/
def toDouble (q : ℚ) : JSNumber :=
  if (2 : ℚ) ^ 1024 ≤ (roundHalfEven (q / 2 ^ ulpExponent q) : ℚ) * 2 ^ ulpExponent q then
    .posInf
  else if (roundHalfEven (q / 2 ^ ulpExponent q) : ℚ) * 2 ^ ulpExponent q ≤ -(2 : ℚ) ^ 1024 then
    .negInf
  else .finite ((roundHalfEven (q / 2 ^ ulpExponent q) : ℚ) * 2 ^ ulpExponent q)

/-- The subtraction of two Numbers. -/
def JSNumber.sub : JSNumber → JSNumber → JSNumber
  | .finite a, .finite b => toDouble (a - b)
  | .finite _, .posInf => .negInf
  | .finite _, .negInf => .posInf
  | .posInf, .finite _ => .posInf
  | .posInf, .negInf => .posInf
  | .negInf, .finite _ => .negInf
  | .negInf, .posInf => .negInf
  | _, _ => .nan

/-- The test `v > 0` on a Number. -/
def JSNumber.isPositive : JSNumber → Bool
  | .finite q => decide (0 < q)
  | .posInf => true
  | _ => false

/-- The test `v < 0` on a Number. -/
def JSNumber.isNegative : JSNumber → Bool
  | .finite q => decide (q < 0)
  | .negInf => true
  | _ => false

/-- The replacement `.replace(/[^\d.-]/g, "")`: only the ASCII digits, the
periods and the minus signs are kept, in order. -/
def stripNonNumeric (s : Str) : Str :=
  s.filter fun c => c.isDigit || c == '.' || c == '-'

/-- The value of a run of decimal digits. -/
def digitsValue (ds : List Char) : ℕ :=
  ds.foldl (fun n c => 10 * n + (c.toNat - 48)) 0

/-- The mathematical value of an unsigned decimal literal made of digits and
periods (`DecimalDigits . DecimalDigits?`, `. DecimalDigits` or
`DecimalDigits`), `none` when the text is no such literal. -/
def unsignedValue (s : Str) : Option ℚ :=
  match s.dropWhile Char.isDigit with
  | [] =>
    if s = [] then none else some (digitsValue s)
  | c :: fp =>
    if c = '.' ∧ fp.all Char.isDigit = true ∧ (s.takeWhile Char.isDigit ≠ [] ∨ fp ≠ []) then
      some (digitsValue (s.takeWhile Char.isDigit) + (digitsValue fp : ℚ) / 10 ^ fp.length)
    else none

/-- The mathematical value that `Number` reads from a text made of digits,
periods and minus signs only (the texts that `toNumberSafe` hands to it):
the empty text stands for zero, a leading minus sign negates, and `none` is a
text that is no numeric literal (the Number is then NaN). -/
def mathValue (s : Str) : Option ℚ :=
  if s = [] then some 0
  else if s.head? = some '-' then (unsignedValue s.tail).map fun q => -q
  else unsignedValue s

/-- The conversion `Number(s)` on a text made of digits, periods and minus
signs: NaN for a text that is no numeric literal, else the mathematical value
rounded to binary64 (correctly rounded, as the engines in use do for literals
of any length). -/
def stringToNumber (s : Str) : JSNumber :=
  match mathValue s with
  | none => .nan
  | some q => toDouble q

/-- The function `toNumberSafe`; `String(v ?? "")` is the empty string for an
absent (`undefined` or `null`) value, here `none`. -/
def toNumberSafe (v : Option Str) : JSNumber :=
  if (stringToNumber (stripNonNumeric (v.getD []))).isFinite then
    stringToNumber (stripNonNumeric (v.getD []))
  else .finite 0

/-- A rational that is a finite value of the binary64 format: an integer of
magnitude below `2 ^ 53` times a power of two between `2 ^ (-1074)` and
`2 ^ 971`. -/
def IsDouble (q : ℚ) : Prop :=
  ∃ m e : ℤ, |m| < 2 ^ 53 ∧ -1074 ≤ e ∧ e ≤ 971 ∧ q = m * 2 ^ e

/-- A text that forms a decimal numeral as `Number` reads one: an optional
leading minus sign, then digits with at most one period among them, with at
least one digit before or after the period. -/
def IsNumeral (s : Str) : Prop :=
  ∃ sign ip fp : List Char, (sign = [] ∨ sign = ['-']) ∧
    (∀ c ∈ ip, c.isDigit = true) ∧ (∀ c ∈ fp, c.isDigit = true) ∧
    ((s = sign ++ ip ∧ ip ≠ []) ∨ (s = sign ++ ip ++ '.' :: fp ∧ (ip ≠ [] ∨ fp ≠ [])))

/-- The value of the numeral with the given sign, integer digits `ip` and
fraction digits `fp` (no fraction part when `fp` is empty). -/
def numeralValue (neg : Bool) (ip fp : List Char) : ℚ :=
  (if neg then -1 else 1) * ((digitsValue ip : ℚ) + (digitsValue fp : ℚ) / 10 ^ fp.length)

/-- The text of the numeral with the given sign, integer digits and fraction
digits: an optional minus sign, the digits, and a period followed by the
fraction digits when there are any. -/
def numeralText (neg : Bool) (ip fp : List Char) : Str :=
  (if neg then ['-'] else []) ++ ip ++ (if fp = [] then [] else '.' :: fp)

/-- The rational denoted by a finite Number (zero for the others). -/
def JSNumber.value : JSNumber → ℚ
  | .finite q => q
  | _ => 0

/-! ## `sortByTotalDesc` (script.js, lines 158-160) -/

/-- One insertion step of the sort: `a`, which stood before the elements of
the list, moves past exactly the leading elements `b` with `cmp(a, b) > 0`. -/
def sortInsert {α : Type} (cmp : α → α → JSNumber) (a : α) : List α → List α
  | [] => [a]
  | b :: l => if (cmp a b).isPositive = true then b :: sortInsert cmp a l else a :: b :: l

/-- The contents of an array after `Array.prototype.sort(cmp)`.  ECMAScript
requires the sort to be stable and, for a comparator that orders the elements
consistently, to leave no element before one it compares greater than; this
determines the result, computed here by insertion from the right. -/
def arraySort {α : Type} (cmp : α → α → JSNumber) : List α → List α
  | [] => []
  | a :: l => sortInsert cmp a (arraySort cmp l)

/-- The comparator `(a, b) => toNumberSafe(b[totalKey]) - toNumberSafe(a[totalKey])`;
reading a property the Record does not have gives `undefined`, here `none`.
(A name found on `Object.prototype` only reads as a function or an object,
whose text holds no digit, period or minus sign: `toNumberSafe` gives zero for
it as for `undefined`.) -/
def totalComparator (totalKey : Str) (a b : Record) : JSNumber :=
  (toNumberSafe (b.get? totalKey)).sub (toNumberSafe (a.get? totalKey))

/-- The contents of the array returned by `sortByTotalDesc(rows, totalKey)`
for an array `rows` with the given contents. -/
def sortByTotalDesc (rows : List Record) (totalKey : Str) : List Record :=
  arraySort (totalComparator totalKey) rows

/-- The arrays of Records that exist, each at its address (its position). -/
abbrev Heap := List (List Record)

/-- The call `sortByTotalDesc(rows, totalKey)` on references: the spread
`[...rows]` creates a new array with the contents of the array at `rows`,
`sort` rearranges that new array in place, and its address is returned. -/
def sortByTotalDescAt (heap : Heap) (rows : Nat) (totalKey : Str) : Heap × Nat :=
  let copy := heap.length
  let heap1 := heap ++ [heap.getD rows []]
  (heap1.set copy (arraySort (totalComparator totalKey) (heap1.getD copy [])), copy)

/-! ## The naive splitter (the reference of the quote-free refinement) -/

/-- A line-break character: LF or CR. -/
def isLineBreak (c : Char) : Bool := c == '\n' || c == '\r'

/-- The comma. -/
def isComma (c : Char) : Bool := c == ','

/-- The rows of a list of lines: the empty lines are discarded and every
other line is split at each comma. -/
def lineRows (pieces : List Str) : List (List Str) :=
  (pieces.filter fun piece => decide (piece ≠ [])).map fun piece => piece.splitOnP isComma

/-- The naive splitter: the text is cut at every CR and every LF, the empty
pieces are discarded, and each remaining piece is split at every comma. -/
def naiveSplit (text : Str) : List (List Str) :=
  lineRows (text.splitOnP isLineBreak)

/-- The fields of a line whose first field continues the text `cur` read so far. -/
def joinPending (cur : Str) : List Str → List Str
  | [] => [cur]
  | f0 :: fs => (cur ++ f0) :: fs

/-- A line as a row, unless it is a single empty field. -/
def keepLine (fields : List Str) : List (List Str) :=
  if fields = [[]] then [] else [fields]

/-- The rows still to come when the fields `row` and the text `cur` of the
current line have been read and `pieces` are the lines of the remaining text,
the first of them continuing the current line. -/
def pendingRows (row : List Str) (cur : Str) : List Str → List (List Str)
  | [] => []
  | p0 :: ps => keepLine (row ++ joinPending cur (p0.splitOnP isComma)) ++ lineRows ps

/-! ## `escapeHtml` (script.js, lines 120-127) -/

/-- The call `s.replaceAll(c, rep)` for a pattern of one character and a
replacement text without `$`: every occurrence of `c` becomes `rep`. -/
def replaceAllChar (c : Char) (rep : Str) (s : Str) : Str :=
  s.flatMap fun x => if x = c then rep else [x]

/-- The function `escapeHtml`: the five replacements in the order of the
source, the ampersand first and the single quote (code point 39) last. -/
def escapeHtml (str : Str) : Str :=
  replaceAllChar (Char.ofNat 39) "&#039;".toList
    (replaceAllChar '"' "&quot;".toList
      (replaceAllChar '>' "&gt;".toList
        (replaceAllChar '<' "&lt;".toList
          (replaceAllChar '&' "&amp;".toList str))))

/-- The text that stands for one character after `escapeHtml`. -/
def escapeChar (c : Char) : Str :=
  if c = '&' then "&amp;".toList
  else if c = '<' then "&lt;".toList
  else if c = '>' then "&gt;".toList
  else if c = '"' then "&quot;".toList
  else if c = Char.ofNat 39 then "&#039;".toList
  else [c]

/-- The five entities that `escapeHtml` writes. -/
def htmlEntities : List Str :=
  ["&amp;".toList, "&lt;".toList, "&gt;".toList, "&quot;".toList, "&#039;".toList]

/-- The entity at the head of a text, if there is one: the character it
stands for and the number of characters that follow its ampersand. -/
def entityAt (t : List Char) : Option (Char × Nat) :=
  if "&amp;".toList.isPrefixOf t then some ('&', 4)
  else if "&lt;".toList.isPrefixOf t then some ('<', 3)
  else if "&gt;".toList.isPrefixOf t then some ('>', 3)
  else if "&quot;".toList.isPrefixOf t then some ('"', 5)
  else if "&#039;".toList.isPrefixOf t then some (Char.ofNat 39, 5)
  else none

/-- The reading back of an escaped text from the left, `skip` being the
number of characters of an entity already replaced that are still to be
passed over. -/
def unescapeFrom : Nat → List Char → List Char
  | _, [] => []
  | k + 1, _ :: rest => unescapeFrom k rest
  | 0, c :: rest =>
    match entityAt (c :: rest) with
    | some (ch, k) => ch :: unescapeFrom k rest
    | none => c :: unescapeFrom 0 rest

/-- The reading back of an escaped text, in one pass from the left: each of
the five entities becomes the character it stands for, every other character
stays. -/
def unescapeHtml (t : List Char) : List Char :=
  unescapeFrom 0 t

/-! ## The race table (script.js, lines 239-292) -/

/-- The truth value of a property value: `undefined` (here `none`) and the
empty string are falsy, every other string is truthy. -/
def truthy : Option Str → Bool
  | some (_ :: _) => true
  | _ => false

/-- The operator `a || b`: `a` when it is truthy, else `b`. -/
def jsOr (a b : Option Str) : Option Str :=
  if truthy a = true then a else b

/-- The function `pickTeamFromRaceRow`; the chain of `||` ends in the string
`""`, so that the result is a string. -/
def pickTeamFromRaceRow (r : Record) : Str :=
  (jsOr (jsOr (jsOr (jsOr (jsOr (r.get? "Team (Race 1)".toList) (r.get? "Team (Race 2)".toList))
    (r.get? "Team (Race 3)".toList)) (r.get? "Team (Race)".toList)) (r.get? "Team".toList))
    (some [])).getD []

/-- The function `pickPointsFromRaceRow`; the chain of `||` ends in the string
`"0"`. -/
def pickPointsFromRaceRow (r : Record) : Str :=
  (jsOr (jsOr (jsOr (jsOr (r.get? "Final Points".toList) (r.get? "Final".toList))
    (r.get? "Pts".toList)) (r.get? "Points".toList)) (some "0".toList)).getD []

/-- The value of the first of the named fields that is present and non-empty,
and `fallback` when there is none. -/
def firstNonEmpty (r : Record) (names : List Str) (fallback : Str) : Str :=
  (names.findSome? fun k =>
    match r.get? k with
    | some (c :: v) => some (c :: v)
    | _ => none).getD fallback

/-- The tables of the Unicode Character Database that `toLowerCase` reads: the
lowercase mapping of every character (one or more characters) and the
properties Cased and Case_Ignorable, with the facts about them that are used
below: no mapping is empty, and the space maps to itself, appears in no other
mapping and is neither cased nor case-ignorable. -/
structure CaseTables where
  lower : Char → List Char
  cased : Char → Bool
  caseIgnorable : Char → Bool
  lower_ne_nil : ∀ c, lower c ≠ []
  lower_space : lower ' ' = [' ']
  space_of_mem_lower : ∀ c, ' ' ∈ lower c → c = ' '
  cased_space : cased ' ' = false
  caseIgnorable_space : caseIgnorable ' ' = false

/-- The text begins with case-ignorable characters, none or more, followed by
a cased character. -/
def nextIsCased (T : CaseTables) : List Char → Bool
  | [] => false
  | c :: rest => T.cased c || (T.caseIgnorable c && nextIsCased T rest)

/-- The condition Final_Sigma at a character whose predecessors, nearest
first, are `before` and whose successors are `after`. -/
def isFinalSigma (T : CaseTables) (before after : List Char) : Bool :=
  nextIsCased T before && !nextIsCased T after

/-- The lowering of the text that follows the characters `before` (nearest
first): every character by its mapping, the capital sigma (U+03A3) in final
position by the final small sigma (U+03C2). -/
def lowerFrom (T : CaseTables) : List Char → List Char → List Char
  | _, [] => []
  | before, c :: rest =>
    (if c = Char.ofNat 0x3A3 ∧ isFinalSigma T before rest = true then [Char.ofNat 0x3C2]
      else T.lower c) ++ lowerFrom T (c :: before) rest

/-- The method `String.prototype.toLowerCase`. -/
def toLowerCase (T : CaseTables) (s : Str) : Str :=
  lowerFrom T [] s

/-- The lowercase letters of the capital ASCII letters. -/
def asciiLowerPairs : List (Char × Char) :=
  "ABCDEFGHIJKLMNOPQRSTUVWXYZ".toList.zip "abcdefghijklmnopqrstuvwxyz".toList

/-- The case tables on the ASCII characters, every other character taken as
caseless. -/
def asciiCaseTables : CaseTables where
  lower c := [(asciiLowerPairs.lookup c).getD c]
  cased c := decide (c ∈ "ABCDEFGHIJKLMNOPQRSTUVWXYZabcdefghijklmnopqrstuvwxyz".toList)
  caseIgnorable c := decide (c ∈ [Char.ofNat 39, '.', ':', '^', Char.ofNat 96])
  lower_ne_nil := fun _ => List.cons_ne_nil _ _
  lower_space := by decide
  space_of_mem_lower := by
    intro c h
    have h1 : (asciiLowerPairs.lookup c).getD c = ' ' := by
      have := List.mem_singleton.mp h
      exact this.symm
    cases hl : asciiLowerPairs.lookup c with
    | none =>
      rw [hl] at h1
      exact h1
    | some d =>
      rw [hl] at h1
      have h2 : d = ' ' := h1
      subst h2
      obtain ⟨l1, l2, hsplit, _⟩ := List.lookup_eq_some_iff.mp hl
      have hmem : (c, ' ') ∈ asciiLowerPairs := by
        rw [hsplit]
        simp
      have hno : ∀ p ∈ asciiLowerPairs, p.2 ≠ ' ' := by decide
      exact absurd rfl (hno _ hmem)
  cased_space := by decide
  caseIgnorable_space := by decide

/-- The definition of a data property in an object literal (`{...r, k: v}`):
an own property of that name takes the value, else the property is added. -/
def Record.define (o : Record) (k v : Str) : Record :=
  if o.any (fun kv => kv.1 == k) then o.map (fun kv => if kv.1 = k then (k, v) else kv)
  else o ++ [(k, v)]

/-- The callback of `rows.map` at lines 276-280: the copy of `r` with the
properties `__team` and `__pts`. -/
def normalizeRaceRow (r : Record) : Record :=
  (r.define "__team".toList (pickTeamFromRaceRow r)).define "__pts".toList
    (pickPointsFromRaceRow r)

/-- The call `parts.join(" ")`: an `undefined` element counts as the empty
string. -/
def joinSpace (parts : List (Option Str)) : Str :=
  List.intercalate [' '] (parts.map fun p => p.getD [])

/-- The string `s` of lines 284-286 for a normalized Record. -/
def raceSearchText (T : CaseTables) (r : Record) : Str :=
  toLowerCase T (joinSpace [r.get? "Driver Name".toList, r.get? "EA / RaceNet ID".toList,
    r.get? "__team".toList, r.get? "Notes".toList, r.get? "Finish Status".toList])

/-- The method `s.includes(q)`: `q` occurs in `s` as a run of consecutive
characters. -/
def includes (s q : Str) : Bool :=
  decide (q <:+: s)

/-- The Records that `renderRaceTable` hands to `renderTable` (the array
`filtered` of lines 282-289), for the value of the filter input
(`none` when the element gives none) and the rows to show. -/
def renderRaceTable (T : CaseTables) (filterValue : Option Str) (rows : List Record) :
    List Record :=
  if toLowerCase T (trim ((jsOr filterValue (some [])).getD [])) ≠ [] then
    (rows.map normalizeRaceRow).filter fun r =>
      includes (raceSearchText T r) (toLowerCase T (trim ((jsOr filterValue (some [])).getD [])))
  else rows.map normalizeRaceRow

/-- The race filter as the reference states it: all Records when the trimmed
query is empty, else those whose searched fields (driver name, RaceNet ID,
resolved team, notes, finish status; an absent field counting as empty),
joined with single spaces and lower-cased, contain the lower-cased trimmed
query. -/
def raceFilterReference (T : CaseTables) (q : Str) (rows : List Record) : List Record :=
  if trim q = [] then rows
  else rows.filter fun r =>
    decide (toLowerCase T (trim q) <:+:
      toLowerCase T (List.intercalate [' ']
        [(r.get? "Driver Name".toList).getD [], (r.get? "EA / RaceNet ID".toList).getD [],
          firstNonEmpty r ["Team (Race 1)".toList, "Team (Race 2)".toList,
            "Team (Race 3)".toList, "Team (Race)".toList, "Team".toList] [],
          (r.get? "Notes".toList).getD [], (r.get? "Finish Status".toList).getD []]))
/-- The five searched fields of a race Record: driver name, RaceNet ID,
resolved team, notes and finish status, an absent field counting as the empty
string. -/
def searchedFields (r : Record) : List Str :=
  [(r.get? "Driver Name".toList).getD [], (r.get? "EA / RaceNet ID".toList).getD [],
    pickTeamFromRaceRow r, (r.get? "Notes".toList).getD [],
    (r.get? "Finish Status".toList).getD []]

/-! ## Ranking and the podium (script.js, lines 193-212 and 317-349) -/

/-- A Ranked Record, the object `{ ...r, __pos: i + 1 }` of lines 323-324:
the properties copied from `r`, and the number stored as `__pos` (which
replaces a copied property of that name, if there is one). -/
structure RankedRecord where
  fields : Record
  pos : Nat
deriving DecidableEq

/-- The call `sorted.map((r, i) => ({ ...r, __pos: i + 1 }))`, from index `i` on. -/
def assignPositionsFrom : Nat → List Record → List RankedRecord
  | _, [] => []
  | i, r :: rest => ⟨r, i + 1⟩ :: assignPositionsFrom (i + 1) rest

/-- The ranking of `loadAll` (lines 320-324): the Records sorted by their
`Total`, each with its position. -/
def rankByTotal (rows : List Record) : List RankedRecord :=
  assignPositionsFrom 0 (sortByTotalDesc rows "Total".toList)

/-- The normalized total of a Record: the value of `toNumberSafe(r["Total"])`. -/
def totalOf (r : Record) : ℚ :=
  (toNumberSafe (r.get? "Total".toList)).value

/-- The number of elements of `l` with a key strictly greater than that of `x`
plus the number of elements among the first `i` with a key equal to it. -/
def rankOf {α : Type} (key : α → ℚ) (l : List α) (i : Nat) (x : α) : Nat :=
  l.countP (fun y => decide (key x < key y)) + (l.take i).countP (fun y => decide (key y = key x))

/-- The position that a ranking gives to the Record `r`: the `__pos` of the
first Ranked Record whose copied properties are those of `r`. -/
def positionOf (ranked : List RankedRecord) (r : Record) : Option Nat :=
  (ranked.find? fun x => decide (x.fields = r)).map fun x => x.pos

/-- A Record with a driver name and a total, for the examples. -/
def driverTotal (name total : String) : Record :=
  [("Driver Name".toList, name.toList), ("Total".toList, total.toList)]

/-- The values written into one `podiumRow` of the markup of `renderPodium`:
the rank label `r.__pos` and the escaped name, team and points. -/
structure PodiumRow where
  rank : Nat
  name : Str
  team : Str
  points : Str
deriving DecidableEq

/-- What `renderPodium` puts into the element `#podium` (taken to exist): the
notice that there is no data, or one row for each Ranked Record. -/
inductive PodiumView where
  | noData
  | rows (l : List PodiumRow)
deriving DecidableEq

/-- The function `renderPodium`; `r["Total"] || 0` is the number 0, written
`0`, when the total is absent or empty. -/
def renderPodium (top3 : List RankedRecord) : PodiumView :=
  if top3.length = 0 then .noData
  else .rows (top3.map fun r =>
    { rank := r.pos
      name := escapeHtml ((jsOr (r.fields.get? "Driver Name".toList) (some [])).getD [])
      team := escapeHtml ((jsOr (jsOr (r.fields.get? "Team (registered)".toList)
        (r.fields.get? "Team".toList)) (some [])).getD [])
      points := escapeHtml ((jsOr (r.fields.get? "Total".toList) (some "0".toList)).getD []) })

/-- The rank labels of a podium, in order. -/
def PodiumView.ranks : PodiumView → List Nat
  | .noData => []
  | .rows l => l.map fun row => row.rank

/-- The three first Ranked Records of the drivers, `dPos.slice(0, 3)`, for the
rows parsed from the drivers text. -/
def topThree (rows : List (List Str)) : List RankedRecord :=
  (rankByTotal (rowsToObjects rows)).take 3

/-- The podium shown for a drivers text: `parseCsv`, `rowsToObjects`, the
ranking, `slice(0, 3)` and `renderPodium` (lines 116, 317-324 and 349). -/
def podiumOfCsv (text : Str) : Option PodiumView :=
  (parseCsv text).map fun rows => renderPodium (topThree rows)

/-! ## Loading (script.js, lines 111-117, 214-237, 294-385) -/

/-- What the network gives for a URL: a response with its `ok` flag, its
status and its text, or no response at all (`fetch` itself rejects). -/
inductive FetchResult where
  | response (ok : Bool) (status : Nat) (text : Str)
  | networkError
deriving DecidableEq

/-- The reason of a rejected load: the `Error` thrown at line 114 for a
response that is not `ok`, with its status, or the rejection of `fetch`. -/
inductive Rejection where
  | httpStatus (status : Nat)
  | network
deriving DecidableEq

/-- The constant `CONFIG`, as far as loading reads it: the two standings URLs
and the races, each a name and a URL. -/
structure Config where
  driversCsv : Str
  constructorsCsv : Str
  races : List (Str × Str)

/-- The state of the page that loading writes: the text of `lastUpdated`, the
text of `latestRaceSummary`, the rows last handed to `renderRaceTable`, the
map `raceCache`, and the rejections of promises that no handler received. -/
structure PageState where
  lastUpdated : Str
  latestRaceSummary : Str
  raceRows : Option (List Record)
  raceCache : List (Str × List Record)
  unhandled : List Rejection
deriving DecidableEq

/-- The function `fetchCsvObjects`, run to its end: the Records, or the reason
of its rejection.  (`parseCsv` returns rows for every text.) -/
def fetchCsvObjects (net : Str → FetchResult) (url : Str) : Except Rejection (List Record) :=
  if url = [] ∨ "PASTE_".toList.isPrefixOf url = true then .ok []
  else
    match net url with
    | .networkError => .error .network
    | .response ok status text =>
      if ok = false then .error (.httpStatus status)
      else .ok (rowsToObjects ((parseCsv text).getD []))

/-- The function `loadRace`, run to its end: the state it leaves and, when its
promise is rejected, the reason. -/
def loadRace (cfg : Config) (net : Str → FetchResult) (raceName : Str) (s : PageState) :
    PageState × Option Rejection :=
  match cfg.races.find? fun r => decide (r.1 = raceName) with
  | none => (s, none)
  | some race =>
    match s.raceCache.lookup raceName with
    | some rows =>
      ({ s with raceRows := some rows,
                latestRaceSummary := "Currently viewing: ".toList ++ raceName }, none)
    | none =>
      match fetchCsvObjects net race.2 with
      | .error e => (s, some e)
      | .ok rows =>
        ({ s with raceCache := (raceName, rows) :: s.raceCache, raceRows := some rows,
                  latestRaceSummary := "Currently viewing: ".toList ++ raceName }, none)

/-- A call of `loadRace` whose promise is neither awaited nor given a handler
(lines 236, 370 and 373): a rejection reaches no handler. -/
def loadRaceDetached (cfg : Config) (net : Str → FetchResult) (raceName : Str) (s : PageState) :
    PageState :=
  match loadRace cfg net raceName s with
  | (s1, none) => s1
  | (s1, some e) => { s1 with unhandled := s1.unhandled ++ [e] }

/-- The function `populateRaceSelect`: the last race is the selected option,
and `loadRace(sel.value)` is called without `await`. -/
def populateRaceSelect (cfg : Config) (net : Str → FetchResult) (s : PageState) : PageState :=
  match cfg.races.getLast? with
  | none => s
  | some race => loadRaceDetached cfg net race.1 s

/-- The function `loadAll`, run to its end (`now` is the text of
`new Date().toLocaleString()`): the state it leaves and, when its promise is
rejected, the reason. -/
def loadAll (cfg : Config) (net : Str → FetchResult) (now : Str) (s : PageState) :
    PageState × Option Rejection :=
  match fetchCsvObjects net cfg.driversCsv with
  | .error e => ({ s with lastUpdated := "Loading…".toList }, some e)
  | .ok _ =>
    match fetchCsvObjects net cfg.constructorsCsv with
    | .error e => ({ s with lastUpdated := "Loading…".toList }, some e)
    | .ok _ => (populateRaceSelect cfg net { s with lastUpdated := now }, none)

/-- The text that the two `catch` blocks write into `lastUpdated`. -/
def failureText : Str :=
  "Failed to load data (check CSV links in script.js).".toList

/-- The function `boot` (lines 377-385): `loadAll` inside `try`/`catch`. -/
def boot (cfg : Config) (net : Str → FetchResult) (now : Str) (s : PageState) : PageState :=
  match loadAll cfg net now s with
  | (s1, none) => s1
  | (s1, some _) => { s1 with lastUpdated := failureText }

/-- The click handler of the refresh button (lines 360-368): the cache is
cleared, then `loadAll` runs inside `try`/`catch`. -/
def onRefreshClick (cfg : Config) (net : Str → FetchResult) (now : Str) (s : PageState) :
    PageState :=
  boot cfg net now { s with raceCache := [] }

/-- The `change` handler of the race select (line 370). -/
def onRaceSelectChange (cfg : Config) (net : Str → FetchResult) (value : Str) (s : PageState) :
    PageState :=
  loadRaceDetached cfg net value s

/-- The `input` handler of the race filter (lines 371-374), for the current
value of the race select. -/
def onRaceFilterInput (cfg : Config) (net : Str → FetchResult) (selValue : Str)
    (s : PageState) : PageState :=
  if selValue ≠ [] then loadRaceDetached cfg net selValue s else s

/-! ## Writing rows as quoted CSV text (the encoding named by the round-trip property) -/

/-- A field with every double quote doubled. -/
def escapeQuotes (f : Str) : Str :=
  f.flatMap fun c => if c = '"' then ['"', '"'] else [c]

/-- A field written between double quotes, internal double quotes doubled. -/
def quoteField (f : Str) : Str :=
  '"' :: (escapeQuotes f ++ ['"'])

/-- The quoted fields of a row joined with commas. -/
def encodeRow (r : List Str) : Str :=
  List.intercalate [','] (r.map quoteField)

/-- The encoded rows joined with LF. -/
def encodeRows (rows : List (List Str)) : Str :=
  List.intercalate ['\n'] (rows.map encodeRow)

/-- A row as the scanner can emit it: at least two fields, or a single
non-empty field. -/
def RowShape (r : List Str) : Prop :=
  2 ≤ r.length ∨ (r.length = 1 ∧ r ≠ [[]])

instance (r : List Str) : Decidable (RowShape r) := by
  unfold RowShape
  exact inferInstance

/-! ### The loop and the recursion agree -/

theorem scan_nil (s : ScanState) : scan s [] = s := by simp [scan]

/-- Unfolding of `scan` at a non-empty text, with the look-ahead written as
`head?` and the extra `i++` as `tail`. -/
theorem scan_cons (s : ScanState) (c : Char) (l : List Char) :
    scan s (c :: l) =
      if (loopBody c l.head? s).2 then scan (loopBody c l.head? s).1 l.tail
      else scan (loopBody c l.head? s).1 l := by
  cases l with
  | nil => simp [scan]
  | cons d rest => simp [scan]

/-- With at least one unit of fuel per remaining character the loop finishes,
in the state computed by `scan` on the remaining text. -/
theorem parseLoop_eq_scan (csvText : Str) :
    ∀ (fuel i : Nat) (s : ScanState), csvText.length ≤ i + fuel →
      parseLoop csvText fuel i s = some (scan s (csvText.drop i)) := by
  intro fuel
  induction fuel with
  | zero =>
    intro i s h
    have hi : csvText.length ≤ i := by omega
    simp [parseLoop, List.getElem?_eq_none hi, List.drop_eq_nil_of_le hi, scan_nil]
  | succ fuel ih =>
    intro i s h
    by_cases hi : i < csvText.length
    · have hc : csvText[i]? = some csvText[i] := List.getElem?_eq_getElem hi
      have hd : csvText.drop i = csvText[i] :: csvText.drop (i + 1) :=
        List.drop_eq_getElem_cons hi
      have hh : (csvText.drop (i + 1)).head? = csvText[i + 1]? := by
        simp [List.head?_drop]
      have ht : (csvText.drop (i + 1)).tail = csvText.drop (i + 2) := by
        simp [List.tail_drop]
      rw [hd, scan_cons, hh, ht]
      simp only [parseLoop, hc]
      by_cases hs : (loopBody csvText[i] csvText[i + 1]? s).2 = true
      · simp only [hs, if_true]
        exact ih (i + 2) _ (by omega)
      · simp only [hs, if_false]
        exact ih (i + 1) _ (by omega)
    · have hi2 : csvText.length ≤ i := by omega
      simp [parseLoop, List.getElem?_eq_none hi2, List.drop_eq_nil_of_le hi2, scan_nil]

/-- The result of `parseCsv` in terms of `scan`. -/
theorem parseCsv_eq_scan (csvText : Str) :
    parseCsv csvText = some (scan ScanState.init csvText).finish := by
  unfold parseCsv
  rw [parseLoop_eq_scan csvText csvText.length 0 ScanState.init (by omega)]
  simp

/-! ### C1 -/

/-- C1: for every input string `parseCsv` terminates (the loop, given one unit
of fuel per character, reaches its exit), raises nothing and returns a list of
rows of strings; for the empty string the list is empty. -/
theorem parseCsv_returns :
    (∀ csvText : Str, ∃ rows : List (List Str), parseCsv csvText = some rows) ∧
      parseCsv [] = some [] :=
  ⟨fun csvText => ⟨_, parseCsv_eq_scan csvText⟩, by decide⟩

/-! ### C2: the quoted round trip -/

theorem escapeQuotes_cons_quote (f : Str) :
    escapeQuotes ('"' :: f) = '"' :: '"' :: escapeQuotes f := by
  simp [escapeQuotes]

theorem escapeQuotes_cons_other (c : Char) (f : Str) (h : c ≠ '"') :
    escapeQuotes (c :: f) = c :: escapeQuotes f := by
  simp [escapeQuotes, h]

theorem encodeRow_cons_cons (f g : Str) (l : List Str) :
    encodeRow (f :: g :: l) = quoteField f ++ ',' :: encodeRow (g :: l) := by
  simp [encodeRow, List.intercalate, List.intersperse]

theorem encodeRows_cons_cons (r q : List Str) (l : List (List Str)) :
    encodeRows (r :: q :: l) = encodeRow r ++ '\n' :: encodeRows (q :: l) := by
  simp [encodeRows, List.intercalate, List.intersperse]

/-! The loop body, case by case. -/

theorem loopBody_escape (s : ScanState) (hq : s.inQuotes = true) :
    loopBody '"' (some '"') s = ({ s with current := s.current ++ ['"'] }, true) := by
  simp [loopBody, hq]

theorem loopBody_close (s : ScanState) (next : Option Char) (hn : next ≠ some '"') :
    loopBody '"' next s = ({ s with inQuotes := !s.inQuotes }, false) := by
  simp [loopBody, hn]

theorem loopBody_open (s : ScanState) (next : Option Char) (hq : s.inQuotes = false) :
    loopBody '"' next s = ({ s with inQuotes := true }, false) := by
  simp [loopBody, hq]

theorem loopBody_quoted (s : ScanState) (c : Char) (next : Option Char)
    (hq : s.inQuotes = true) (hc : c ≠ '"') :
    loopBody c next s = ({ s with current := s.current ++ [c] }, false) := by
  simp [loopBody, hq, hc]

theorem loopBody_comma (s : ScanState) (next : Option Char) (hq : s.inQuotes = false) :
    loopBody ',' next s = ({ s with row := s.row ++ [s.current], current := [] }, false) := by
  simp [loopBody, hq]

theorem loopBody_lf (s : ScanState) (next : Option Char) (hq : s.inQuotes = false) :
    loopBody '\n' next s =
      (if s.current.length ≠ 0 ∨ s.row.length ≠ 0 then s.flushRow else s, false) := by
  simp [loopBody, hq]

theorem loopBody_cr (s : ScanState) (next : Option Char) (hq : s.inQuotes = false) :
    loopBody '\r' next s =
      (if s.current.length ≠ 0 ∨ s.row.length ≠ 0 then s.flushRow else s,
        decide (next = some '\n')) := by
  simp [loopBody, hq]

theorem loopBody_plain (s : ScanState) (c : Char) (next : Option Char)
    (h1 : c ≠ '"') (h2 : c ≠ ',') (h3 : c ≠ '\n') (h4 : c ≠ '\r') :
    loopBody c next s = ({ s with current := s.current ++ [c] }, false) := by
  simp [loopBody, h1, h2, h3, h4]

/-- Inside a quoted field the escaped content followed by the closing quote
appends the content to `current` and leaves the quoted mode. -/
theorem scan_escaped (f : Str) :
    ∀ (s : ScanState) (rest : List Char), s.inQuotes = true → rest.head? ≠ some '"' →
      scan s (escapeQuotes f ++ '"' :: rest) =
        scan { s with current := s.current ++ f, inQuotes := false } rest := by
  induction f with
  | nil =>
    intro s rest hq hr
    have h0 : escapeQuotes [] = [] := rfl
    rw [h0, List.nil_append, scan_cons, loopBody_close s _ hr]
    simp [hq]
  | cons c f ih =>
    intro s rest hq hr
    by_cases hc : c = '"'
    · subst hc
      rw [escapeQuotes_cons_quote, List.cons_append, List.cons_append, scan_cons,
        List.head?_cons, loopBody_escape s hq]
      simp only [if_true, List.tail_cons]
      rw [ih { s with current := s.current ++ ['"'] } rest hq hr]
      simp
    · rw [escapeQuotes_cons_other c f hc, List.cons_append, scan_cons,
        loopBody_quoted s c _ hq hc]
      simp only [Bool.false_eq_true, if_false]
      rw [ih { s with current := s.current ++ [c] } rest hq hr]
      simp

/-- Outside a quoted field a quoted field appends its content to `current`. -/
theorem scan_quoteField (f : Str) (s : ScanState) (rest : List Char)
    (hq : s.inQuotes = false) (hr : rest.head? ≠ some '"') :
    scan s (quoteField f ++ rest) = scan { s with current := s.current ++ f } rest := by
  have h0 : quoteField f ++ rest = '"' :: (escapeQuotes f ++ '"' :: rest) := by
    simp [quoteField]
  rw [h0, scan_cons, loopBody_open s _ hq]
  simp only [Bool.false_eq_true, if_false]
  rw [scan_escaped f _ rest rfl hr, hq]

/-- An encoded row pushes all its fields but the last and leaves the last one
in `current`. -/
theorem scan_encodeRow (pre : List Str) :
    ∀ (f : Str) (s : ScanState) (rest : List Char), s.inQuotes = false → s.current = [] →
      rest.head? ≠ some '"' →
      scan s (encodeRow (pre ++ [f]) ++ rest) =
        scan { s with row := s.row ++ pre, current := f } rest := by
  induction pre with
  | nil =>
    intro f s rest hq hc hr
    have h0 : encodeRow ([] ++ [f]) = quoteField f := by
      simp [encodeRow, List.intercalate]
    rw [h0, scan_quoteField f s rest hq hr]
    simp [hc]
  | cons p pre ih =>
    intro f s rest hq hc hr
    obtain ⟨g, l, hgl⟩ : ∃ g l, pre ++ [f] = g :: l := by
      cases pre with
      | nil => exact ⟨f, [], rfl⟩
      | cons a b => exact ⟨a, b ++ [f], rfl⟩
    rw [List.cons_append, hgl, encodeRow_cons_cons, ← hgl, List.append_assoc,
      scan_quoteField p s _ hq (by simp), List.cons_append, scan_cons,
      loopBody_comma { s with current := s.current ++ p } _ hq]
    simp only [Bool.false_eq_true, if_false]
    rw [ih f { s with row := s.row ++ [s.current ++ p], current := [] } rest hq rfl hr]
    simp [hc]

theorem rowShape_concat (pre : List Str) (f : Str) (h : RowShape (pre ++ [f])) :
    f.length ≠ 0 ∨ pre.length ≠ 0 := by
  rcases h with h | ⟨h1, h2⟩
  · right
    simp at h
    omega
  · left
    have hp : pre = [] := by
      cases pre with
      | nil => rfl
      | cons a b => simp at h1
    subst hp
    intro hf
    apply h2
    simp [List.length_eq_zero.mp hf]

/-- Scanning the encoding of a list of well-shaped rows from the start of a
line appends exactly these rows to the output. -/
theorem scan_encodeRows (rows : List (List Str)) :
    ∀ acc : List (List Str), (∀ r ∈ rows, RowShape r) →
      (scan { rows := acc, row := [], current := [], inQuotes := false }
        (encodeRows rows)).finish = acc ++ rows := by
  induction rows with
  | nil =>
    intro acc _
    simp [encodeRows, List.intercalate, scan_nil, ScanState.finish]
  | cons r l ih =>
    intro acc h
    have hr : RowShape r := h r (List.mem_cons_self _ _)
    have hne : r ≠ [] := by
      rintro rfl
      rcases hr with h1 | ⟨h1, _⟩ <;> simp at h1
    obtain ⟨pre, f, hpf⟩ : ∃ pre f, r = pre ++ [f] :=
      ⟨r.dropLast, r.getLast hne, (List.dropLast_append_getLast hne).symm⟩
    subst hpf
    have hcond := rowShape_concat pre f hr
    cases l with
    | nil =>
      have h0 : encodeRows [pre ++ [f]] = encodeRow (pre ++ [f]) ++ [] := by
        simp [encodeRows, List.intercalate]
      rw [h0, scan_encodeRow pre f _ [] rfl rfl (by simp), scan_nil]
      simp only [ScanState.finish, List.nil_append]
      rw [if_pos hcond]
    | cons q l =>
      rw [encodeRows_cons_cons, scan_encodeRow pre f _ _ rfl rfl (by simp), scan_cons,
        loopBody_lf _ _ rfl]
      simp only [Bool.false_eq_true, if_false, List.nil_append]
      rw [if_pos hcond]
      have h2 := ih (acc ++ [pre ++ [f]]) (fun r hr => h r (List.mem_cons_of_mem _ hr))
      simp only [ScanState.flushRow]
      rw [h2]
      simp

/-- C2: for every list of rows in which each row has at least two fields or is
a single non-empty field, the text obtained by writing every field between
double quotes with internal double quotes doubled, joining fields with commas
and rows with LF, is parsed back to exactly that list of rows; and the two
texts of the specification give the rows it names. -/
theorem parseCsv_quoted_roundtrip :
    (∀ rows : List (List Str), (∀ r ∈ rows, RowShape r) →
        parseCsv (encodeRows rows) = some rows) ∧
      parseCsv "Name,Note\n\"Smith, Jr.\",Good".toList
        = some [["Name".toList, "Note".toList], ["Smith, Jr.".toList, "Good".toList]] ∧
      parseCsv "A,\"He said \"\"hi\"\"\"".toList
        = some [["A".toList, "He said \"hi\"".toList]] := by
  refine ⟨fun rows h => ?_, by decide, by decide⟩
  rw [parseCsv_eq_scan]
  have := scan_encodeRows rows [] h
  simpa [ScanState.init] using this

/-- C2 at a concrete list of rows whose fields hold commas, quotes, CR and LF. -/
theorem parseCsv_quoted_roundtrip_witness :
    (∀ r ∈ [["a,b".toList, "say \"hi\"".toList], ["x\r\ny".toList], [[], []]], RowShape r) ∧
      parseCsv (encodeRows [["a,b".toList, "say \"hi\"".toList], ["x\r\ny".toList], [[], []]])
        = some [["a,b".toList, "say \"hi\"".toList], ["x\r\ny".toList], [[], []]] :=
  ⟨by decide, parseCsv_quoted_roundtrip.1 _ (by decide)⟩

/-! ### C3: trailing line breaks -/

/-- The quoted-field flag after one pass through the loop body. -/
theorem loopBody_inQuotes (c : Char) (next : Option Char) (s : ScanState) :
    (loopBody c next s).1.inQuotes =
      if c = '"' ∧ ¬ (s.inQuotes = true ∧ next = some '"') then !s.inQuotes
      else s.inQuotes := by
  unfold loopBody
  by_cases h1 : c = '"' <;> by_cases h2 : s.inQuotes = true <;>
    by_cases h3 : next = some '"' <;> simp [h1, h2, h3, ScanState.flushRow] <;>
    split <;> (try split) <;> (try split) <;> simp_all [ScanState.flushRow]

/-- The loop body executes its extra `i++` only at a doubled quote inside a
quoted field or at a CR LF pair outside one. -/
theorem loopBody_skip (c : Char) (next : Option Char) (s : ScanState)
    (h : (loopBody c next s).2 = true) :
    (c = '"' ∧ next = some '"') ∨ (c = '\r' ∧ next = some '\n') := by
  unfold loopBody at h
  split at h
  · rename_i h1
    exact Or.inl ⟨h1.1, h1.2.2⟩
  · split at h
    · simp at h
    · split at h
      · simp at h
      · split at h
        · simp at h
          exact Or.inr h
        · simp at h

/-- The state after the loop body depends on the look-ahead only through
whether it is a double quote. -/
theorem loopBody_fst_congr (c : Char) (n1 n2 : Option Char) (s : ScanState)
    (h1 : n1 ≠ some '"') (h2 : n2 ≠ some '"') :
    (loopBody c n1 s).1 = (loopBody c n2 s).1 := by
  by_cases h3 : c = '"'
  · subst h3
    rw [loopBody_close s n1 h1, loopBody_close s n2 h2]
  · by_cases hq : s.inQuotes = true
    · rw [loopBody_quoted s c n1 hq h3, loopBody_quoted s c n2 hq h3]
    · have hq2 : s.inQuotes = false := by simpa using hq
      by_cases h4 : c = ','
      · subst h4
        rw [loopBody_comma s n1 hq2, loopBody_comma s n2 hq2]
      · by_cases h5 : c = '\n'
        · subst h5
          rw [loopBody_lf s n1 hq2, loopBody_lf s n2 hq2]
        · by_cases h6 : c = '\r'
          · subst h6
            rw [loopBody_cr s n1 hq2, loopBody_cr s n2 hq2]
          · rw [loopBody_plain s c n1 h3 h4 h5 h6, loopBody_plain s c n2 h3 h4 h5 h6]

/-- The scan ends with the quoted-field flag it started with exactly when the
text holds an even number of double quotes. -/
theorem scan_inQuotes (n : Nat) :
    ∀ (t : List Char) (s : ScanState), t.length ≤ n →
      ((scan s t).inQuotes = s.inQuotes ↔ Even (t.count '"')) := by
  induction n with
  | zero =>
    intro t s h
    have : t = [] := List.length_eq_zero.mp (by omega)
    subst this
    simp [scan_nil]
  | succ n ih =>
    intro t s h
    cases t with
    | nil => simp [scan_nil]
    | cons c l =>
      rw [scan_cons]
      have hl : l.length ≤ n := by simpa using h
      by_cases hs : (loopBody c l.head? s).2 = true
      · rw [if_pos hs]
        have hq := loopBody_inQuotes c l.head? s
        rcases loopBody_skip c l.head? s hs with ⟨hc, hn⟩ | ⟨hc, hn⟩
        · subst hc
          cases l with
          | nil => simp at hn
          | cons d l2 =>
            simp only [List.head?_cons, Option.some.injEq] at hn
            subst hn
            have hin : s.inQuotes = true := by
              by_contra hne
              have hf : s.inQuotes = false := by simpa using hne
              rw [loopBody_open s _ hf] at hs
              simp at hs
            have hl2 : l2.length ≤ n := by
              simp at hl
              omega
            have h3 := ih l2 (loopBody '"' (some '"') s).1 hl2
            rw [loopBody_escape s hin] at h3
            rw [List.head?_cons, loopBody_escape s hin]
            simp only [List.tail_cons, List.count_cons_self]
            rw [show List.count '"' l2 + 1 + 1 = List.count '"' l2 + 2 from rfl,
              Nat.even_add]
            simpa using h3
        · subst hc
          cases l with
          | nil => simp at hn
          | cons d l2 =>
            simp only [List.head?_cons, Option.some.injEq] at hn
            subst hn
            have hl2 : l2.length ≤ n := by
              simp at hl
              omega
            have h3 := ih l2 (loopBody '\r' (some '\n') s).1 hl2
            simp only [List.head?_cons] at hq
            rw [hq] at h3
            simp only [List.tail_cons,
              List.count_cons_of_ne (show '"' ≠ '\r' by decide),
              List.count_cons_of_ne (show '"' ≠ '\n' by decide)]
            simpa using h3
      · rw [if_neg hs]
        have hq := loopBody_inQuotes c l.head? s
        have h3 := ih l (loopBody c l.head? s).1 hl
        by_cases hc : c = '"'
        · subst hc
          have hno : ¬ (s.inQuotes = true ∧ l.head? = some '"') := by
            rintro ⟨ha, hb⟩
            rw [hb, loopBody_escape s ha] at hs
            exact hs rfl
          rw [if_pos ⟨rfl, hno⟩] at hq
          rw [hq] at h3
          rw [List.count_cons_self, Nat.even_add_one, ← h3]
          cases (scan (loopBody '"' l.head? s).1 l).inQuotes <;>
            cases s.inQuotes <;> simp
        · rw [if_neg (fun hh => hc hh.1)] at hq
          rw [hq] at h3
          rw [List.count_cons_of_ne (Ne.symm hc)]
          exact h3

/-- Line feeds read outside a quoted field at the end of the text do not change
the rows returned. -/
theorem scan_lineFeeds (k : Nat) :
    ∀ s : ScanState, s.inQuotes = false →
      (scan s (List.replicate k '\n')).finish = s.finish := by
  induction k with
  | zero =>
    intro s _
    simp [scan_nil]
  | succ k ih =>
    intro s hq
    rw [List.replicate_succ, scan_cons, loopBody_lf s _ hq]
    simp only [Bool.false_eq_true, if_false]
    by_cases hc : s.current.length ≠ 0 ∨ s.row.length ≠ 0
    · rw [if_pos hc, ih s.flushRow (by simpa [ScanState.flushRow] using hq)]
      simp only [ScanState.finish]
      rw [if_pos hc]
      simp [ScanState.flushRow]
    · rw [if_neg hc, ih s hq]

theorem scan_singleton (s : ScanState) (c : Char) :
    scan s [c] = (loopBody c none s).1 := by
  simp [scan]

/-- Line feeds appended to a text whose scan ends outside a quoted field do not
change the rows returned. -/
theorem scan_append_lineFeeds (k n : Nat) :
    ∀ (t : List Char) (s : ScanState), t.length ≤ n → (scan s t).inQuotes = false →
      (scan s (t ++ List.replicate k '\n')).finish = (scan s t).finish := by
  induction n with
  | zero =>
    intro t s h hq
    have : t = [] := List.length_eq_zero.mp (by omega)
    subst this
    rw [scan_nil] at hq
    rw [List.nil_append, scan_nil, scan_lineFeeds k s hq]
  | succ n ih =>
    intro t s h hq
    cases t with
    | nil =>
      rw [scan_nil] at hq
      rw [List.nil_append, scan_nil, scan_lineFeeds k s hq]
    | cons c l =>
      cases l with
      | nil =>
        rw [scan_singleton] at hq
        rw [scan_singleton]
        cases k with
        | zero => simp [scan_singleton]
        | succ k =>
          rw [List.replicate_succ, List.singleton_append, scan_cons, List.head?_cons,
            List.tail_cons,
            loopBody_fst_congr c (some '\n') none s (by decide) (by simp)]
          by_cases hs : (loopBody c (some '\n') s).2 = true
          · rw [if_pos hs, scan_lineFeeds k _ hq]
          · rw [if_neg hs, ← List.replicate_succ, scan_lineFeeds (k + 1) _ hq]
      | cons d l2 =>
        rw [scan_cons] at hq
        rw [List.cons_append, scan_cons, scan_cons (l := d :: l2)]
        simp only [List.cons_append, List.head?_cons, List.tail_cons] at hq ⊢
        by_cases hs : (loopBody c (some d) s).2 = true
        · rw [if_pos hs] at hq
          rw [if_pos hs, if_pos hs]
          exact ih l2 _ (by simp at h; omega) hq
        · rw [if_neg hs] at hq
          rw [if_neg hs, if_neg hs]
          have := ih (d :: l2) _ (by simp at h ⊢; omega) hq
          simpa using this

/-- C3: for every text with an even number of double-quote characters and every
`k`, appending `k` LF characters does not change the rows `parseCsv` returns;
the text `A,B\n1,2\n\n` gives exactly the rows `["A","B"]` and `["1","2"]`. -/
theorem parseCsv_trailing_lineFeeds :
    (∀ (t : Str) (k : Nat), Even (t.count '"') →
        parseCsv (t ++ List.replicate k '\n') = parseCsv t) ∧
      parseCsv "A,B\n1,2\n\n".toList
        = some [["A".toList, "B".toList], ["1".toList, "2".toList]] := by
  refine ⟨fun t k h => ?_, by decide⟩
  have hq : (scan ScanState.init t).inQuotes = false :=
    (scan_inQuotes t.length t ScanState.init (le_refl _)).mpr h
  rw [parseCsv_eq_scan, parseCsv_eq_scan,
    scan_append_lineFeeds k t.length t ScanState.init (le_refl _) hq]

/-- C3 at a text with two quoted fields followed by three line feeds. -/
theorem parseCsv_trailing_lineFeeds_witness :
    Even ("\"a\nb\",\"c\"\r".toList.count '"') ∧
      parseCsv ("\"a\nb\",\"c\"\r".toList ++ List.replicate 3 '\n')
        = parseCsv "\"a\nb\",\"c\"\r".toList :=
  ⟨by decide, parseCsv_trailing_lineFeeds.1 _ 3 (by decide)⟩

/-! ### C4: an unterminated quoted field -/

/-- Inside a quoted field, text without double quotes is appended to `current`
as it stands. -/
theorem scan_quoted_text (w : List Char) :
    ∀ s : ScanState, s.inQuotes = true → '"' ∉ w →
      scan s w = { s with current := s.current ++ w } := by
  induction w with
  | nil =>
    intro s _ _
    simp [scan_nil]
  | cons c w ih =>
    intro s hq hw
    have hc : c ≠ '"' := fun h => hw (by simp [h])
    have hw2 : '"' ∉ w := fun h => hw (List.mem_cons_of_mem _ h)
    rw [scan_cons, loopBody_quoted s c _ hq hc]
    simp only [Bool.false_eq_true, if_false]
    rw [ih { s with current := s.current ++ [c] } hq hw2]
    simp

/-- Inside a quoted field, text without double quotes followed by the closing
quote is appended to `current` and the quoted mode is left. -/
theorem scan_quoted_text_close (w : List Char) :
    ∀ s : ScanState, s.inQuotes = true → '"' ∉ w →
      scan s (w ++ ['"']) = { s with current := s.current ++ w, inQuotes := false } := by
  induction w with
  | nil =>
    intro s hq _
    rw [List.nil_append, scan_singleton, loopBody_close s none (by simp)]
    simp [hq]
  | cons c w ih =>
    intro s hq hw
    have hc : c ≠ '"' := fun h => hw (by simp [h])
    have hw2 : '"' ∉ w := fun h => hw (List.mem_cons_of_mem _ h)
    rw [List.cons_append, scan_cons, loopBody_quoted s c _ hq hc]
    simp only [Bool.false_eq_true, if_false]
    rw [ih { s with current := s.current ++ [c] } hq hw2]
    simp

/-- C4: for every string `s` without a double quote, the text made of an
opening quote and `s` is parsed like the same text with the closing quote
added, and both give the single row `[s]` when `s` is non-empty and no row
when `s` is empty. -/
theorem parseCsv_unterminated_quote (s : Str) (h : '"' ∉ s) :
    parseCsv ('"' :: s) = parseCsv ('"' :: (s ++ ['"'])) ∧
      parseCsv ('"' :: s) = some (if s = [] then [] else [[s]]) ∧
      parseCsv ('"' :: (s ++ ['"'])) = some (if s = [] then [] else [[s]]) := by
  have h1 : parseCsv ('"' :: s) = some (if s = [] then [] else [[s]]) := by
    rw [parseCsv_eq_scan, scan_cons, loopBody_open _ _ rfl]
    simp only [Bool.false_eq_true, if_false]
    rw [scan_quoted_text s _ rfl h]
    by_cases hs : s = []
    · simp [ScanState.finish, ScanState.init, hs]
    · simp [ScanState.finish, ScanState.init, hs]
  have h2 : parseCsv ('"' :: (s ++ ['"'])) = some (if s = [] then [] else [[s]]) := by
    rw [parseCsv_eq_scan, scan_cons, loopBody_open _ _ rfl]
    simp only [Bool.false_eq_true, if_false]
    rw [scan_quoted_text_close s _ rfl h]
    by_cases hs : s = []
    · simp [ScanState.finish, ScanState.init, hs]
    · simp [ScanState.finish, ScanState.init, hs]
  exact ⟨h1.trans h2.symm, h1, h2⟩

/-- C4 at an unterminated field holding a comma, a CR LF pair and a LF. -/
theorem parseCsv_unterminated_quote_witness :
    '"' ∉ "a,b\r\nc\n".toList ∧
      parseCsv ('"' :: "a,b\r\nc\n".toList) = parseCsv ('"' :: ("a,b\r\nc\n".toList ++ ['"'])) ∧
      parseCsv ('"' :: "a,b\r\nc\n".toList)
        = some (if "a,b\r\nc\n".toList = [] then [] else [["a,b\r\nc\n".toList]]) ∧
      parseCsv ('"' :: ("a,b\r\nc\n".toList ++ ['"']))
        = some (if "a,b\r\nc\n".toList = [] then [] else [["a,b\r\nc\n".toList]]) :=
  ⟨by decide, parseCsv_unterminated_quote _ (by decide)⟩

/-! ### The record mapper -/

theorem trim_nil : trim [] = [] := rfl

theorem get_zero_eq_head (l : List Char) (hl : 0 < l.length) (hne : l ≠ []) :
    l.get ⟨0, hl⟩ = l.head hne := by
  cases l with
  | nil => exact absurd rfl hne
  | cons a b => rfl

/-- A trimmed string does not start with white space. -/
theorem dropWhile_trim (s : Str) : (trim s).dropWhile isWhiteSpace = trim s := by
  have ht : trim s = List.rdropWhile isWhiteSpace (s.dropWhile isWhiteSpace) := rfl
  rw [List.dropWhile_eq_self_iff]
  intro hl
  have hne : trim s ≠ [] := List.ne_nil_of_length_pos hl
  have hne2 : s.dropWhile isWhiteSpace ≠ [] := by
    intro h0
    apply hne
    rw [ht, h0]
    rfl
  have hpre : trim s <+: s.dropWhile isWhiteSpace := by
    rw [ht]
    exact List.rdropWhile_prefix _ _
  have hh := hpre.head hne
  have hnot := List.head_dropWhile_not isWhiteSpace s hne2
  rw [get_zero_eq_head (trim s) hl hne, hh, hnot]
  simp

/-- Trimming twice is trimming once. -/
theorem trim_trim (s : Str) : trim (trim s) = trim s := by
  have h1 : trim (trim s) = List.rdropWhile isWhiteSpace ((trim s).dropWhile isWhiteSpace) := rfl
  have h2 : trim s = List.rdropWhile isWhiteSpace (s.dropWhile isWhiteSpace) := rfl
  rw [h1, dropWhile_trim, h2, List.rdropWhile_idempotent]

theorem hasContent_iff (r : List Str) :
    hasContent r = true ↔ ∃ cell ∈ r, trim cell ≠ [] := by
  simp [hasContent, List.any_eq_true]

/-- Assigning to a name the object does not have yet, other than `__proto__`,
adds the property at the end. -/
theorem Record.set_fresh (o : Record) (k v : Str) (hk : k ≠ "__proto__".toList)
    (hf : k ∉ o.keys) : o.set k v = o ++ [(k, v)] := by
  unfold Record.set
  rw [if_neg hk]
  have hany : o.any (fun kv => kv.1 == k) = false := by
    rw [List.any_eq_false]
    intro kv hkv hbeq
    apply hf
    have : kv.1 = k := by simpa using hbeq
    rw [← this]
    exact List.mem_map_of_mem Prod.fst hkv
  rw [hany]
  simp

/-- With pairwise distinct header names, none of them `__proto__` and none yet
a property of the object, `forEach` adds one property per header cell, in
order, holding the trimmed cell of the same index (empty when there is none). -/
theorem forEachHeader_fresh (r : List Str) :
    ∀ (hs : List Str) (idx : Nat) (obj : Record), hs.Nodup → "__proto__".toList ∉ hs →
      (∀ h ∈ hs, h ∉ obj.keys) →
      forEachHeader r hs idx obj =
        obj ++ (hs.enumFrom idx).map (fun p => (p.2, trim (r[p.1]?.getD []))) := by
  intro hs
  induction hs with
  | nil =>
    intro idx obj _ _ _
    simp [forEachHeader]
  | cons h hs ih =>
    intro idx obj hnd hp hf
    have hh : h ≠ "__proto__".toList := fun e => hp (by simp [e])
    have hnd2 : hs.Nodup := (List.nodup_cons.mp hnd).2
    have hnot : h ∉ hs := (List.nodup_cons.mp hnd).1
    rw [forEachHeader, Record.set_fresh obj h _ hh (hf h (List.mem_cons_self _ _)),
      ih (idx + 1) _ hnd2 (fun hm => hp (List.mem_cons_of_mem _ hm))]
    · simp [List.enumFrom_cons]
    · intro k hk hmem
      simp only [Record.keys, List.map_append, List.map_cons, List.map_nil,
        List.mem_append, List.mem_singleton] at hmem
      rcases hmem with hmem | hmem
      · exact hf k (List.mem_cons_of_mem _ hk) hmem
      · exact hnot (hmem ▸ hk)

/-- The object built for a row under pairwise distinct header names other than
`__proto__`. -/
theorem rowToObject_eq (headers r : List Str) (hnd : headers.Nodup)
    (hp : "__proto__".toList ∉ headers) :
    rowToObject headers r =
      (headers.enumFrom 0).map (fun p => (p.2, trim (r[p.1]?.getD []))) := by
  unfold rowToObject
  rw [forEachHeader_fresh r headers 0 [] hnd hp (by simp [Record.keys])]
  simp

/-- Under these header names the property names of the object are the header. -/
theorem rowToObject_keys (headers r : List Str) (hnd : headers.Nodup)
    (hp : "__proto__".toList ∉ headers) :
    (rowToObject headers r).keys = headers := by
  rw [rowToObject_eq headers r hnd hp]
  simp only [Record.keys, List.map_map]
  have : (Prod.fst ∘ fun p : Nat × Str => (p.2, trim (r[p.1]?.getD []))) = Prod.snd := by
    funext p
    rfl
  rw [this, List.enumFrom_map_snd]

theorem lookup_enumFrom (f : Nat → Str) :
    ∀ (hs : List Str) (idx : Nat), hs.Nodup → ∀ (i : Nat) (hi : i < hs.length),
      ((hs.enumFrom idx).map (fun p => (p.2, f p.1))).lookup hs[i] = some (f (idx + i)) := by
  intro hs
  induction hs with
  | nil =>
    intro idx _ i hi
    simp at hi
  | cons h hs ih =>
    intro idx hnd i hi
    have hnd2 : hs.Nodup := (List.nodup_cons.mp hnd).2
    have hnot : h ∉ hs := (List.nodup_cons.mp hnd).1
    cases i with
    | zero => simp [List.enumFrom_cons, List.lookup_cons]
    | succ j =>
      have hj : j < hs.length := by simpa using hi
      have hne : (hs[j] == h) = false := by
        rw [beq_eq_false_iff_ne]
        intro e
        exact hnot (e ▸ List.getElem_mem hj)
      simp only [List.enumFrom_cons, List.map_cons, List.getElem_cons_succ, List.lookup_cons,
        hne]
      rw [ih (idx + 1) hnd2 j hj]
      congr 2
      omega

/-- Under these header names the value stored under header cell `i` is the
trimmed cell `i` of the row, or the empty string when the row is too short. -/
theorem rowToObject_get (headers r : List Str) (hnd : headers.Nodup)
    (hp : "__proto__".toList ∉ headers) (i : Nat) (hi : i < headers.length) :
    (rowToObject headers r).get? headers[i] = some (trim (r[i]?.getD [])) := by
  rw [rowToObject_eq headers r hnd hp, Record.get?,
    lookup_enumFrom (fun n => trim (r[n]?.getD [])) headers 0 hnd i hi]
  simp

/-- A value read from an object is one of its properties. -/
theorem Record.mem_of_get? (o : Record) (k v : Str) (h : o.get? k = some v) :
    (k, v) ∈ o := by
  unfold Record.get? at h
  obtain ⟨l1, l2, hl, _⟩ := List.lookup_eq_some_iff.mp h
  rw [hl]
  simp

/-! ### C5: the header named `__proto__` -/

/-- C5, the code at the rows `[["__proto__"], ["x"]]` (the rows of the text
`__proto__\nx`): the header has pairwise distinct cells and the data row is
emitted, yet the Record built for it has no property at all, where the claim
asks for the key set `__proto__` with the value `x`. -/
theorem rowsToObjects_proto_header :
    parseCsv "__proto__\nx".toList = some [["__proto__".toList], ["x".toList]] ∧
      (headerCells [["__proto__".toList], ["x".toList]]).Nodup ∧
      rowsToObjects [["__proto__".toList], ["x".toList]] = [[]] ∧
      (rowToObject ["__proto__".toList] ["x".toList]).keys ≠ ["__proto__".toList] ∧
      (rowToObject ["__proto__".toList] ["x".toList]).get? "__proto__".toList = none := by
  decide

/-! ### C6: which Records are emitted -/

/-- C6 as stated fails: for the header `A` and the data row `["", "x"]` (the
rows of the text `A\n,x`) a Record is returned all of whose values are empty. -/
theorem rowsToObjects_blank_record :
    parseCsv "A\n,x".toList = some [["A".toList], [[], "x".toList]] ∧
      rowsToObjects [["A".toList], [[], "x".toList]] = [[("A".toList, [])]] ∧
      ¬ (∀ o ∈ rowsToObjects [["A".toList], [[], "x".toList]], ∃ kv ∈ o, trim kv.2 ≠ []) := by
  decide

/-- C6, amended: every Record returned by `rowsToObjects` is built from a data
row that has at least one cell non-empty after trimming; and when the trimmed
header cells are pairwise distinct, none of them is `__proto__` and the data
row has no more cells than the header, the Record has a value that is
non-empty after trimming. -/
theorem rowsToObjects_record_of_content_row (rows : List (List Str)) (o : Record)
    (ho : o ∈ rowsToObjects rows) :
    ∃ r ∈ rows.drop 1, o = rowToObject (headerCells rows) r ∧
      (∃ cell ∈ r, trim cell ≠ []) ∧
      ((headerCells rows).Nodup → "__proto__".toList ∉ headerCells rows →
        r.length ≤ (headerCells rows).length → ∃ kv ∈ o, trim kv.2 ≠ []) := by
  simp only [rowsToObjects, List.mem_map, List.mem_filter] at ho
  obtain ⟨r, ⟨hr, hc⟩, rfl⟩ := ho
  refine ⟨r, hr, rfl, (hasContent_iff r).mp hc, ?_⟩
  intro hnd hp hlen
  obtain ⟨cell, hcell, hne⟩ := (hasContent_iff r).mp hc
  obtain ⟨i, hi, hci⟩ := List.mem_iff_getElem.mp hcell
  have hih : i < (headerCells rows).length := by omega
  have hget := rowToObject_get _ r hnd hp i hih
  have hri : r[i]?.getD [] = cell := by
    rw [List.getElem?_eq_getElem hi, hci]
    rfl
  rw [hri] at hget
  refine ⟨((headerCells rows)[i], trim cell), Record.mem_of_get? _ _ _ hget, ?_⟩
  simpa [trim_trim] using hne

/-- C6, amended, at the header `A,B` with the data rows `["", ""]` and `["1", " "]`. -/
theorem rowsToObjects_record_of_content_row_witness :
    [("A".toList, "1".toList), ("B".toList, [])]
        ∈ rowsToObjects [["A".toList, "B".toList], [[], []], ["1".toList, " ".toList]] ∧
      ∃ r ∈ [["A".toList, "B".toList], [[], []], ["1".toList, " ".toList]].drop 1,
        [("A".toList, "1".toList), ("B".toList, [])]
            = rowToObject
                (headerCells [["A".toList, "B".toList], [[], []], ["1".toList, " ".toList]]) r ∧
          (∃ cell ∈ r, trim cell ≠ []) ∧
          ((headerCells [["A".toList, "B".toList], [[], []], ["1".toList, " ".toList]]).Nodup →
            "__proto__".toList ∉
                headerCells [["A".toList, "B".toList], [[], []], ["1".toList, " ".toList]] →
            r.length ≤
                (headerCells [["A".toList, "B".toList], [[], []], ["1".toList, " ".toList]]).length →
            ∃ kv ∈ [("A".toList, "1".toList), ("B".toList, [])], trim kv.2 ≠ []) :=
  ⟨by decide, rowsToObjects_record_of_content_row _ _ (by decide)⟩

/-- At the rows of the preceding statement the header cells are pairwise
distinct, none is `__proto__` and no data row is longer than the header. -/
theorem headerCells_example :
    (headerCells [["A".toList, "B".toList], [[], []], ["1".toList, " ".toList]]).Nodup ∧
      "__proto__".toList ∉
        headerCells [["A".toList, "B".toList], [[], []], ["1".toList, " ".toList]] ∧
      ∀ r ∈ [["A".toList, "B".toList], [[], []], ["1".toList, " ".toList]].drop 1,
        r.length ≤
          (headerCells [["A".toList, "B".toList], [[], []], ["1".toList, " ".toList]]).length := by
  decide

/-! ### C7: one Record per data row with content -/

/-- C7: `rowsToObjects` returns no Record for zero rows and for a header row
alone; otherwise the Records correspond one to one, in order, to the data rows
(the rows after the first) that have a cell non-empty after trimming, each
Record being the one built from its row, so that their number is the number of
such rows and a data row whose cells are all blank gives none.  The header
`A,B` with the data rows `["", ""]` and `["1", "2"]` gives exactly
`{A: "1", B: "2"}`. -/
theorem rowsToObjects_one_per_content_row :
    rowsToObjects [] = [] ∧
      (∀ header : List Str, rowsToObjects [header] = []) ∧
      (∀ (header : List Str) (data : List (List Str)),
        List.Forall₂ (fun r o => o = rowToObject (header.map trim) r)
            (data.filter fun r => decide (∃ cell ∈ r, trim cell ≠ []))
            (rowsToObjects (header :: data)) ∧
          (rowsToObjects (header :: data)).length
            = data.countP (fun r => decide (∃ cell ∈ r, trim cell ≠ [])) ∧
          ((∀ r ∈ data, ∀ cell ∈ r, trim cell = []) → rowsToObjects (header :: data) = [])) ∧
      rowsToObjects [["A".toList, "B".toList], [[], []], ["1".toList, "2".toList]]
        = [[("A".toList, "1".toList), ("B".toList, "2".toList)]] := by
  refine ⟨by decide, fun header => by simp [rowsToObjects], fun header data => ?_, by decide⟩
  have hfilter : (data.filter fun r => decide (∃ cell ∈ r, trim cell ≠ []))
      = data.filter hasContent := by
    apply List.filter_congr
    intro r _
    by_cases h : hasContent r = true
    · rw [h]
      exact decide_eq_true ((hasContent_iff r).mp h)
    · have h2 : hasContent r = false := by simpa using h
      rw [h2]
      exact decide_eq_false (fun hc => h ((hasContent_iff r).mpr hc))
  have hres : rowsToObjects (header :: data)
      = (data.filter hasContent).map (rowToObject (header.map trim)) := by
    simp [rowsToObjects, headerCells]
  refine ⟨?_, ?_, ?_⟩
  · rw [hfilter, hres, List.forall₂_map_right_iff, List.forall₂_same]
    intro r _
    rfl
  · rw [List.countP_eq_length_filter, hfilter, hres, List.length_map]
  · intro hblank
    rw [hres, List.map_eq_nil_iff, List.filter_eq_nil_iff]
    intro r hr hc
    obtain ⟨cell, hcell, hne⟩ := (hasContent_iff r).mp hc
    exact hne (hblank r hr cell hcell)

/-- C7 at a header followed by two data rows whose cells are all blank. -/
theorem rowsToObjects_one_per_content_row_witness :
    (∀ r ∈ [[" ".toList, []], ["\t".toList]], ∀ cell ∈ r, trim cell = []) ∧
      rowsToObjects (["A".toList, "B".toList] :: [[" ".toList, []], ["\t".toList]]) = [] :=
  ⟨by decide, (rowsToObjects_one_per_content_row.2.2.1 _ _).2.2 (by decide)⟩

/-! ### Rounding to binary64 -/

theorem roundHalfEven_intCast (n : ℤ) : roundHalfEven (n : ℚ) = n := by
  simp [roundHalfEven]

theorem ulpExponent_ge (q : ℚ) : -1074 ≤ ulpExponent q :=
  le_max_right _ _

/-- The spacing at a binary64 value `m * 2 ^ e` is at most `2 ^ e`. -/
theorem ulpExponent_le (m e : ℤ) (hm : |m| < 2 ^ 53) (hm0 : m ≠ 0) (he : -1074 ≤ e) :
    ulpExponent ((m : ℚ) * 2 ^ e) ≤ e := by
  unfold ulpExponent
  apply max_le _ he
  have hpos : (0 : ℚ) < |(m : ℚ) * 2 ^ e| := by
    apply abs_pos.mpr
    apply mul_ne_zero
    · exact_mod_cast hm0
    · exact zpow_ne_zero _ (by norm_num)
  have hlt : |(m : ℚ) * 2 ^ e| < ((2 : ℕ) : ℚ) ^ (53 + e) := by
    rw [abs_mul, abs_of_pos (zpow_pos (by norm_num : (0 : ℚ) < 2) e), Nat.cast_ofNat,
      zpow_add₀ (by norm_num : (2 : ℚ) ≠ 0)]
    apply mul_lt_mul_of_pos_right _ (zpow_pos (by norm_num : (0 : ℚ) < 2) e)
    exact_mod_cast hm
  have := (Int.lt_zpow_iff_log_lt (by norm_num : 1 < 2) hpos).mp hlt
  omega

/-- A binary64 value is its own rounding. -/
theorem toDouble_of_isDouble (q : ℚ) (h : IsDouble q) : toDouble q = .finite q := by
  obtain ⟨m, e, hm, he1, he2, rfl⟩ := h
  by_cases hm0 : m = 0
  · subst hm0
    norm_num [toDouble, roundHalfEven]
  · have hE := ulpExponent_le m e hm hm0 he1
    obtain ⟨k, hk⟩ : ∃ k : ℕ, e = ulpExponent ((m : ℚ) * 2 ^ e) + k :=
      ⟨(e - ulpExponent ((m : ℚ) * 2 ^ e)).toNat, by omega⟩
    have h2 : (2 : ℚ) ≠ 0 := by norm_num
    have hdiv : (m : ℚ) * 2 ^ e / 2 ^ ulpExponent ((m : ℚ) * 2 ^ e) = ((m * 2 ^ k : ℤ) : ℚ) := by
      rw [mul_div_assoc, ← zpow_sub₀ h2]
      have : e - ulpExponent ((m : ℚ) * 2 ^ e) = (k : ℤ) := by omega
      rw [this, zpow_natCast]
      push_cast
      rfl
    have hval : (roundHalfEven ((m : ℚ) * 2 ^ e / 2 ^ ulpExponent ((m : ℚ) * 2 ^ e)) : ℚ)
        * 2 ^ ulpExponent ((m : ℚ) * 2 ^ e) = (m : ℚ) * 2 ^ e := by
      rw [hdiv, roundHalfEven_intCast, ← hdiv, div_mul_cancel₀]
      exact zpow_ne_zero _ h2
    have habs : |(m : ℚ) * 2 ^ e| < 2 ^ 1024 := by
      rw [abs_mul, abs_of_pos (zpow_pos (by norm_num : (0 : ℚ) < 2) e)]
      have h1 : |(m : ℚ)| < 2 ^ 53 := by exact_mod_cast hm
      have h3 : (2 : ℚ) ^ e ≤ 2 ^ (971 : ℤ) := zpow_le_zpow_right₀ (by norm_num) he2
      calc |(m : ℚ)| * 2 ^ e < 2 ^ 53 * 2 ^ e :=
            mul_lt_mul_of_pos_right h1 (zpow_pos (by norm_num) e)
        _ ≤ 2 ^ 53 * 2 ^ (971 : ℤ) := mul_le_mul_of_nonneg_left h3 (by norm_num)
        _ = 2 ^ 1024 := by norm_num
    have hlt := abs_lt.mp habs
    unfold toDouble
    rw [hval, if_neg (not_le.mpr hlt.2), if_neg (not_le.mpr hlt.1)]

/-! ### Reading a numeral -/

theorem toDouble_zero : toDouble 0 = .finite 0 :=
  toDouble_of_isDouble 0 ⟨0, 0, by norm_num, by norm_num, by norm_num, by norm_num⟩

/-- What `unsignedValue` accepts is digits with at most one period and at
least one digit. -/
theorem unsignedValue_some (u : Str) (q : ℚ) (h : unsignedValue u = some q) :
    ∃ ip fp : List Char, (∀ c ∈ ip, c.isDigit = true) ∧ (∀ c ∈ fp, c.isDigit = true) ∧
      ((u = ip ∧ ip ≠ []) ∨ (u = ip ++ '.' :: fp ∧ (ip ≠ [] ∨ fp ≠ []))) := by
  unfold unsignedValue at h
  have hsplit := List.takeWhile_append_dropWhile Char.isDigit u
  have htake : ∀ c ∈ u.takeWhile Char.isDigit, c.isDigit = true :=
    fun c hc => List.mem_takeWhile_imp hc
  cases hd : u.dropWhile Char.isDigit with
  | nil =>
    rw [hd] at h hsplit
    simp only at h
    by_cases hu : u = []
    · simp [hu] at h
    · refine ⟨u, [], ?_, by simp, Or.inl ⟨rfl, hu⟩⟩
      rw [List.append_nil] at hsplit
      rw [← hsplit]
      exact htake
  | cons c fp =>
    rw [hd] at h hsplit
    simp only at h
    split at h
    · rename_i hc
      obtain ⟨hc1, hc2, hc3⟩ := hc
      subst hc1
      refine ⟨u.takeWhile Char.isDigit, fp, htake, ?_, Or.inr ⟨hsplit.symm, hc3⟩⟩
      intro c hcm
      exact List.all_eq_true.mp hc2 c hcm
    · simp at h

/-- What `mathValue` accepts is the empty text or a numeral. -/
theorem mathValue_some (s : Str) (q : ℚ) (h : mathValue s = some q) :
    s = [] ∨ IsNumeral s := by
  unfold mathValue at h
  by_cases hs : s = []
  · exact Or.inl hs
  · right
    rw [if_neg hs] at h
    by_cases hm : s.head? = some '-'
    · rw [if_pos hm] at h
      obtain ⟨q2, hq2, _⟩ := Option.map_eq_some'.mp h
      obtain ⟨ip, fp, h1, h2, h3⟩ := unsignedValue_some _ _ hq2
      have hst : s = '-' :: s.tail := by
        cases s with
        | nil => exact absurd rfl hs
        | cons a b =>
          simp only [List.head?_cons, Option.some.injEq] at hm
          rw [hm, List.tail_cons]
      refine ⟨['-'], ip, fp, Or.inr rfl, h1, h2, ?_⟩
      rcases h3 with ⟨h3, h4⟩ | ⟨h3, h4⟩
      · left
        refine ⟨?_, h4⟩
        rw [hst, h3]
        simp
      · right
        refine ⟨?_, h4⟩
        rw [hst, h3]
        simp
    · rw [if_neg hm] at h
      obtain ⟨ip, fp, h1, h2, h3⟩ := unsignedValue_some _ _ h
      refine ⟨[], ip, fp, Or.inl rfl, h1, h2, ?_⟩
      rcases h3 with ⟨h3, h4⟩ | ⟨h3, h4⟩
      · exact Or.inl ⟨by simpa using h3, h4⟩
      · exact Or.inr ⟨by simpa using h3, h4⟩

/-- `toNumberSafe` always returns a finite Number. -/
theorem toNumberSafe_finite (v : Option Str) : ∃ q : ℚ, toNumberSafe v = .finite q := by
  unfold toNumberSafe
  cases h : stringToNumber (stripNonNumeric (v.getD [])) with
  | finite q => exact ⟨q, by simp [JSNumber.isFinite]⟩
  | posInf => exact ⟨0, by simp [JSNumber.isFinite]⟩
  | negInf => exact ⟨0, by simp [JSNumber.isFinite]⟩
  | nan => exact ⟨0, by simp [JSNumber.isFinite]⟩

/-- When the kept characters are no numeral the result is zero. -/
theorem toNumberSafe_of_not_numeral (v : Option Str)
    (h : ¬ IsNumeral (stripNonNumeric (v.getD []))) : toNumberSafe v = .finite 0 := by
  unfold toNumberSafe stringToNumber
  cases hm : mathValue (stripNonNumeric (v.getD [])) with
  | none => simp [JSNumber.isFinite]
  | some q =>
    rcases mathValue_some _ _ hm with h0 | h1
    · rw [h0] at hm
      have hq : q = 0 := by
        simp [mathValue] at hm
        exact hm.symm
      subst hq
      simp [toDouble_zero, JSNumber.isFinite]
    · exact absurd h1 h

theorem dropWhile_isDigit_digits (ip : List Char) (h : ∀ c ∈ ip, c.isDigit = true) :
    ip.dropWhile Char.isDigit = [] := by
  rw [List.dropWhile_eq_nil_iff]
  exact h

theorem dropWhile_isDigit_append (ip rest : List Char) (h : ∀ c ∈ ip, c.isDigit = true) :
    (ip ++ '.' :: rest).dropWhile Char.isDigit = '.' :: rest := by
  induction ip with
  | nil =>
    rw [List.nil_append, List.dropWhile_cons_of_neg (by decide)]
  | cons a ip ih =>
    rw [List.cons_append, List.dropWhile_cons_of_pos (h a (List.mem_cons_self _ _))]
    exact ih (fun c hc => h c (List.mem_cons_of_mem _ hc))

theorem takeWhile_isDigit_append (ip rest : List Char) (h : ∀ c ∈ ip, c.isDigit = true) :
    (ip ++ '.' :: rest).takeWhile Char.isDigit = ip := by
  induction ip with
  | nil =>
    rw [List.nil_append, List.takeWhile_cons_of_neg (by decide)]
  | cons a ip ih =>
    rw [List.cons_append, List.takeWhile_cons_of_pos (h a (List.mem_cons_self _ _)),
      ih (fun c hc => h c (List.mem_cons_of_mem _ hc))]

/-- A non-empty run of digits is read as its value. -/
theorem unsignedValue_digits (ip : List Char) (h : ∀ c ∈ ip, c.isDigit = true)
    (hne : ip ≠ []) : unsignedValue ip = some (digitsValue ip) := by
  unfold unsignedValue
  rw [dropWhile_isDigit_digits ip h]
  simp [hne]

/-- Digits, a period and digits, with a digit on at least one side, are read
as the value of the decimal fraction. -/
theorem unsignedValue_fraction (ip fp : List Char) (h1 : ∀ c ∈ ip, c.isDigit = true)
    (h2 : ∀ c ∈ fp, c.isDigit = true) (hne : ip ≠ [] ∨ fp ≠ []) :
    unsignedValue (ip ++ '.' :: fp)
      = some ((digitsValue ip : ℚ) + (digitsValue fp : ℚ) / 10 ^ fp.length) := by
  unfold unsignedValue
  rw [dropWhile_isDigit_append ip fp h1, takeWhile_isDigit_append ip fp h1]
  have hall : fp.all Char.isDigit = true := List.all_eq_true.mpr h2
  simp only
  rw [if_pos ⟨trivial, hall, hne⟩]

/-- A text that begins with a digit or a period does not begin with a minus sign. -/
theorem head?_ne_minus (ip rest : List Char) (h1 : ∀ c ∈ ip, c.isDigit = true)
    (hr : rest = [] ∨ rest.head? = some '.') : (ip ++ rest).head? ≠ some '-' := by
  cases ip with
  | nil =>
    rcases hr with hr | hr
    · simp [hr]
    · rw [List.nil_append, hr]
      decide
  | cons a ip =>
    have ha := h1 a (List.mem_cons_self _ _)
    simp only [List.cons_append, List.head?_cons, ne_eq, Option.some.injEq]
    rintro rfl
    exact absurd ha (by decide)

/-- Every numeral is accepted by `mathValue`. -/
theorem mathValue_of_isNumeral (s : Str) (h : IsNumeral s) : ∃ q, mathValue s = some q := by
  obtain ⟨sign, ip, fp, hsign, h1, h2, h3⟩ := h
  obtain ⟨u, hu, q, hq, hhead⟩ : ∃ u, s = sign ++ u ∧ ∃ q, unsignedValue u = some q ∧
      u ≠ [] ∧ u.head? ≠ some '-' := by
    rcases h3 with ⟨h3, h4⟩ | ⟨h3, h4⟩
    · refine ⟨ip, h3, _, unsignedValue_digits ip h1 h4, h4, ?_⟩
      have := head?_ne_minus ip [] h1 (Or.inl rfl)
      simpa using this
    · refine ⟨ip ++ '.' :: fp, by rw [h3, List.append_assoc], _,
        unsignedValue_fraction ip fp h1 h2 h4, by simp, ?_⟩
      exact head?_ne_minus ip ('.' :: fp) h1 (Or.inr rfl)
  rcases hsign with rfl | rfl
  · rw [List.nil_append] at hu
    subst hu
    refine ⟨q, ?_⟩
    unfold mathValue
    rw [if_neg hhead.1, if_neg hhead.2, hq]
  · subst hu
    refine ⟨-q, ?_⟩
    unfold mathValue
    simp [hq]

/-- The text of a numeral is read as the value of the numeral. -/
theorem mathValue_numeralText (neg : Bool) (ip fp : List Char) (hne : ip ≠ [])
    (h1 : ∀ c ∈ ip, c.isDigit = true) (h2 : ∀ c ∈ fp, c.isDigit = true) :
    mathValue (numeralText neg ip fp) = some (numeralValue neg ip fp) := by
  have hu : ∃ u, numeralText neg ip fp = (if neg then ['-'] else []) ++ u ∧
      unsignedValue u = some ((digitsValue ip : ℚ) + (digitsValue fp : ℚ) / 10 ^ fp.length) ∧
      u ≠ [] ∧ u.head? ≠ some '-' := by
    by_cases hfp : fp = []
    · subst hfp
      refine ⟨ip, by simp [numeralText], ?_, hne, ?_⟩
      · rw [unsignedValue_digits ip h1 hne]
        simp [digitsValue]
      · have := head?_ne_minus ip [] h1 (Or.inl rfl)
        simpa using this
    · refine ⟨ip ++ '.' :: fp, by simp [numeralText, hfp],
        unsignedValue_fraction ip fp h1 h2 (Or.inl hne), by simp, ?_⟩
      exact head?_ne_minus ip ('.' :: fp) h1 (Or.inr rfl)
  obtain ⟨u, hu1, hu2, hu3, hu4⟩ := hu
  rw [hu1]
  unfold mathValue numeralValue
  cases neg with
  | false =>
    simp only [Bool.false_eq_true, if_false, List.nil_append]
    rw [if_neg hu3, if_neg hu4, hu2]
    simp
  | true =>
    simp [hu2]

/-- A numeral may end in its period or begin with it: `5.` is read as 5 and
`.5` as one half. -/
theorem toNumberSafe_bare_period :
    IsNumeral "5.".toList ∧ toNumberSafe (some "5.".toList) = .finite 5 ∧
      IsNumeral ".5".toList ∧ toNumberSafe (some ".5".toList) = .finite (1 / 2) := by
  have hd5 : digitsValue ['5'] = 5 := by decide
  have hd0 : digitsValue [] = 0 := by decide
  have h1 : mathValue ['5', '.'] = some 5 := by
    have hu := unsignedValue_fraction ['5'] [] (by decide) (by decide) (Or.inl (by decide))
    have hm : mathValue ['5', '.'] = unsignedValue (['5'] ++ '.' :: []) := by
      unfold mathValue
      rw [if_neg (by decide), if_neg (by decide)]
      rfl
    rw [hm, hu, hd5, hd0]
    norm_num
  have h2 : mathValue ['.', '5'] = some (1 / 2) := by
    have hu := unsignedValue_fraction [] ['5'] (by decide) (by decide) (Or.inr (by decide))
    have hm : mathValue ['.', '5'] = unsignedValue ([] ++ '.' :: ['5']) := by
      unfold mathValue
      rw [if_neg (by decide), if_neg (by decide)]
      rfl
    rw [hm, hu, hd5, hd0]
    norm_num
  have hs1 : stripNonNumeric ((some "5.".toList).getD []) = ['5', '.'] := by decide
  have hs2 : stripNonNumeric ((some ".5".toList).getD []) = ['.', '5'] := by decide
  refine ⟨⟨[], ['5'], [], Or.inl rfl, by decide, by decide, Or.inr ⟨by decide, Or.inl (by decide)⟩⟩,
    ?_, ⟨[], [], ['5'], Or.inl rfl, by decide, by decide, Or.inr ⟨by decide, Or.inr (by decide)⟩⟩,
    ?_⟩
  · unfold toNumberSafe stringToNumber
    rw [hs1, h1]
    simp only
    rw [toDouble_of_isDouble 5 ⟨5, 0, by norm_num, by norm_num, by norm_num, by norm_num⟩]
    simp [JSNumber.isFinite]
  · unfold toNumberSafe stringToNumber
    rw [hs2, h2]
    simp only
    rw [toDouble_of_isDouble (1 / 2) ⟨1, -1, by norm_num, by norm_num, by norm_num, by norm_num⟩]
    simp [JSNumber.isFinite]

theorem not_isNumeral_nil : ¬ IsNumeral [] := by
  rintro ⟨sign, ip, fp, _, _, _, ⟨h, hne⟩ | ⟨h, _⟩⟩
  · have h2 := congrArg List.length h
    simp only [List.length_nil, List.length_append] at h2
    exact hne (List.length_eq_zero.mp (by omega))
  · have h2 := congrArg List.length h
    simp only [List.length_nil, List.length_append, List.length_cons] at h2
    omega

theorem not_isNumeral_of_mathValue_none (s : Str) (h : mathValue s = none) :
    ¬ IsNumeral s := by
  intro hn
  obtain ⟨q, hq⟩ := mathValue_of_isNumeral s hn
  rw [h] at hq
  exact Option.noConfusion hq

/-! ### C8 -/

/-- C8: for every input, a string or an absent value, `toNumberSafe` returns a
finite Number; it returns zero whenever the digits, periods and minus signs of
the input, in order, do not form a decimal numeral (`IsNumeral`: an optional
minus sign and digits with at most one period, as `Number` reads them), as for
`N/A`, the empty string, `1.2.3`, `5-3`, `-` and an absent value. -/
theorem toNumberSafe_zero_of_not_numeral :
    (∀ v : Option Str, ∃ q : ℚ, toNumberSafe v = .finite q) ∧
      (∀ v : Option Str, ¬ IsNumeral (stripNonNumeric (v.getD [])) →
        toNumberSafe v = .finite 0) ∧
      (¬ IsNumeral (stripNonNumeric "N/A".toList) ∧
        toNumberSafe (some "N/A".toList) = .finite 0) ∧
      (¬ IsNumeral (stripNonNumeric "".toList) ∧
        toNumberSafe (some "".toList) = .finite 0) ∧
      (¬ IsNumeral (stripNonNumeric "1.2.3".toList) ∧
        toNumberSafe (some "1.2.3".toList) = .finite 0) ∧
      (¬ IsNumeral (stripNonNumeric "5-3".toList) ∧
        toNumberSafe (some "5-3".toList) = .finite 0) ∧
      (¬ IsNumeral (stripNonNumeric "-".toList) ∧
        toNumberSafe (some "-".toList) = .finite 0) ∧
      toNumberSafe none = .finite 0 := by
  have hnil : ∀ t : Str, stripNonNumeric t = [] →
      ¬ IsNumeral (stripNonNumeric t) ∧ toNumberSafe (some t) = .finite 0 := by
    intro t ht
    have hn : ¬ IsNumeral (stripNonNumeric t) := by
      rw [ht]
      exact not_isNumeral_nil
    exact ⟨hn, toNumberSafe_of_not_numeral (some t) hn⟩
  have hnone : ∀ t : Str, mathValue (stripNonNumeric t) = none →
      ¬ IsNumeral (stripNonNumeric t) ∧ toNumberSafe (some t) = .finite 0 := by
    intro t ht
    have hn := not_isNumeral_of_mathValue_none _ ht
    exact ⟨hn, toNumberSafe_of_not_numeral (some t) hn⟩
  refine ⟨toNumberSafe_finite, toNumberSafe_of_not_numeral, hnil _ (by decide),
    hnil _ (by decide), hnone _ (by decide), hnone _ (by decide), hnone _ (by decide), ?_⟩
  exact toNumberSafe_of_not_numeral none not_isNumeral_nil

/-- C8 at the text `12-3 pts.`, whose kept characters `12-3.` are no numeral. -/
theorem toNumberSafe_zero_of_not_numeral_witness :
    ¬ IsNumeral (stripNonNumeric ((some "12-3 pts.".toList).getD [])) ∧
      toNumberSafe (some "12-3 pts.".toList) = .finite 0 :=
  ⟨not_isNumeral_of_mathValue_none _ (by decide),
    toNumberSafe_zero_of_not_numeral.2.1 _ (not_isNumeral_of_mathValue_none _ (by decide))⟩

/-! ### C9 -/

/-- C9: when the digits, periods and minus signs of a string, in order, form a
decimal numeral (an optional leading minus sign, digits, optionally a period
followed by digits) whose value is a binary64 value, `toNumberSafe` returns
that value, whatever other characters stand between them. -/
theorem toNumberSafe_numeral (v : Str) (neg : Bool) (ip fp : List Char) (hne : ip ≠ [])
    (h1 : ∀ c ∈ ip, c.isDigit = true) (h2 : ∀ c ∈ fp, c.isDigit = true)
    (hs : stripNonNumeric v = numeralText neg ip fp)
    (hrep : IsDouble (numeralValue neg ip fp)) :
    toNumberSafe (some v) = .finite (numeralValue neg ip fp) := by
  unfold toNumberSafe stringToNumber
  simp only [Option.getD_some]
  rw [hs, mathValue_numeralText neg ip fp hne h1 h2]
  simp only
  rw [toDouble_of_isDouble _ hrep]
  simp [JSNumber.isFinite]

/-- C9 at the two texts of the specification: the kept characters of
`1,234 pts` are the numeral `1234` and those of `-5.5` the numeral `-5.5`, both
of binary64 value, so that `1,234 pts` gives 1234 and `-5.5` gives -5.5. -/
theorem toNumberSafe_numeral_witness :
    (stripNonNumeric "1,234 pts".toList = numeralText false ['1', '2', '3', '4'] [] ∧
        IsDouble (numeralValue false ['1', '2', '3', '4'] []) ∧
        toNumberSafe (some "1,234 pts".toList) = .finite 1234) ∧
      (stripNonNumeric "-5.5".toList = numeralText true ['5'] ['5'] ∧
        IsDouble (numeralValue true ['5'] ['5']) ∧
        toNumberSafe (some "-5.5".toList) = .finite (-11 / 2)) := by
  have hv1 : numeralValue false ['1', '2', '3', '4'] [] = 1234 := by
    have : digitsValue ['1', '2', '3', '4'] = 1234 := by decide
    simp [numeralValue, this, digitsValue]
  have hv2 : numeralValue true ['5'] ['5'] = -11 / 2 := by
    have : digitsValue ['5'] = 5 := by decide
    simp only [numeralValue, this, List.length_singleton, if_true]
    norm_num
  have hd1 : IsDouble (numeralValue false ['1', '2', '3', '4'] []) := by
    rw [hv1]
    exact ⟨1234, 0, by norm_num, by norm_num, by norm_num, by norm_num⟩
  have hd2 : IsDouble (numeralValue true ['5'] ['5']) := by
    rw [hv2]
    exact ⟨-11, -1, by norm_num, by norm_num, by norm_num, by norm_num⟩
  have a := toNumberSafe_numeral "1,234 pts".toList false ['1', '2', '3', '4'] [] (by decide)
    (by decide) (by decide) (by decide) hd1
  have b := toNumberSafe_numeral "-5.5".toList true ['5'] ['5'] (by decide)
    (by decide) (by decide) (by decide) hd2
  rw [hv1] at a
  rw [hv2] at b
  exact ⟨⟨by decide, hd1, a⟩, ⟨by decide, hd2, b⟩⟩

/-! ### The sign of a difference of Numbers -/

theorem floor_le_roundHalfEven (x : ℚ) : ⌊x⌋ ≤ roundHalfEven x := by
  unfold roundHalfEven
  split
  · exact le_refl _
  · split
    · omega
    · split <;> omega

theorem roundHalfEven_le_floor_succ (x : ℚ) : roundHalfEven x ≤ ⌊x⌋ + 1 := by
  unfold roundHalfEven
  split
  · omega
  · split
    · omega
    · split <;> omega

/-- Every finite result of the rounding is a multiple of `2 ^ (-1074)`. -/
theorem toDouble_grid (q v : ℚ) (h : toDouble q = .finite v) :
    ∃ k : ℤ, v = (k : ℚ) * 2 ^ (-1074 : ℤ) := by
  unfold toDouble at h
  split at h
  · exact JSNumber.noConfusion h
  · split at h
    · exact JSNumber.noConfusion h
    · injection h with h
      obtain ⟨n, hn⟩ : ∃ n : ℕ, ulpExponent q = -1074 + n :=
        ⟨(ulpExponent q + 1074).toNat, by have := ulpExponent_ge q; omega⟩
      refine ⟨roundHalfEven (q / 2 ^ ulpExponent q) * 2 ^ n, ?_⟩
      rw [← h, hn, zpow_add₀ (by norm_num : (2 : ℚ) ≠ 0), zpow_natCast]
      push_cast
      ring

/-- The value returned by `toNumberSafe` is a multiple of `2 ^ (-1074)`. -/
theorem toNumberSafe_grid (v : Option Str) :
    ∃ k : ℤ, (toNumberSafe v).value = (k : ℚ) * 2 ^ (-1074 : ℤ) := by
  unfold toNumberSafe
  cases h : stringToNumber (stripNonNumeric (v.getD [])) with
  | finite q =>
    simp only [JSNumber.isFinite, if_true, JSNumber.value]
    unfold stringToNumber at h
    cases hm : mathValue (stripNonNumeric (v.getD [])) with
    | none =>
      rw [hm] at h
      exact JSNumber.noConfusion h
    | some p =>
      rw [hm] at h
      exact toDouble_grid p q h
  | posInf => exact ⟨0, by simp [JSNumber.isFinite, JSNumber.value]⟩
  | negInf => exact ⟨0, by simp [JSNumber.isFinite, JSNumber.value]⟩
  | nan => exact ⟨0, by simp [JSNumber.isFinite, JSNumber.value]⟩

theorem toNumberSafe_eq_finite_value (v : Option Str) :
    toNumberSafe v = .finite (toNumberSafe v).value := by
  obtain ⟨q, hq⟩ := toNumberSafe_finite v
  rw [hq]
  rfl

theorem roundHalfEven_le_ceil (x : ℚ) : roundHalfEven x ≤ ⌈x⌉ := by
  have hfc : ⌊x⌋ ≤ ⌈x⌉ := Int.floor_le_ceil x
  have hstep : ¬ (x - ⌊x⌋ < 1 / 2) → ⌊x⌋ + 1 ≤ ⌈x⌉ := by
    intro h
    have : ((⌊x⌋ : ℤ) : ℚ) < x := by linarith
    have := Int.lt_ceil.mpr this
    omega
  unfold roundHalfEven
  split
  · exact hfc
  · rename_i h
    have := hstep h
    split
    · exact this
    · split
      · exact hfc
      · exact this

/-- A positive multiple of `2 ^ (-1074)` is at least one unit of its own spacing. -/
theorem one_le_div_ulp (q : ℚ) (hq : 0 < q) (hgrid : ∃ k : ℤ, q = (k : ℚ) * 2 ^ (-1074 : ℤ)) :
    1 ≤ q / 2 ^ ulpExponent q := by
  have h2 : (0 : ℚ) < 2 := by norm_num
  rw [le_div_iff₀ (zpow_pos h2 _), one_mul]
  unfold ulpExponent
  rcases max_cases (Int.log 2 |q| - 52) (-1074) with ⟨he, _⟩ | ⟨he, _⟩
  · rw [he, abs_of_pos hq]
    have h1 := Int.zpow_log_le_self (by norm_num : 1 < 2) hq
    rw [Nat.cast_ofNat] at h1
    refine le_trans ?_ h1
    exact zpow_le_zpow_right₀ (by norm_num) (by omega)
  · rw [he]
    obtain ⟨k, rfl⟩ := hgrid
    have hk : 0 < k := by
      have := (mul_pos_iff_of_pos_right (zpow_pos h2 (-1074 : ℤ))).mp hq
      exact_mod_cast this
    have hk1 : (1 : ℚ) ≤ (k : ℚ) := by exact_mod_cast hk
    calc (2 : ℚ) ^ (-1074 : ℤ) = 1 * 2 ^ (-1074 : ℤ) := (one_mul _).symm
      _ ≤ (k : ℚ) * 2 ^ (-1074 : ℤ) := mul_le_mul_of_nonneg_right hk1 (le_of_lt (zpow_pos h2 _))

/-- The rounding of a multiple of `2 ^ (-1074)` is positive exactly when the
multiple is. -/
theorem toDouble_isPositive (q : ℚ) (hgrid : ∃ k : ℤ, q = (k : ℚ) * 2 ^ (-1074 : ℤ)) :
    (toDouble q).isPositive = decide (0 < q) := by
  have h2 : (0 : ℚ) < 2 := by norm_num
  have hE : (0 : ℚ) < 2 ^ ulpExponent q := zpow_pos h2 _
  have hbig : (0 : ℚ) < 2 ^ 1024 := by norm_num
  by_cases hq : 0 < q
  · have hx := one_le_div_ulp q hq hgrid
    have hfl : 1 ≤ ⌊q / 2 ^ ulpExponent q⌋ := Int.le_floor.mpr (by exact_mod_cast hx)
    have hr := floor_le_roundHalfEven (q / 2 ^ ulpExponent q)
    have hr1 : (1 : ℚ) ≤ (roundHalfEven (q / 2 ^ ulpExponent q) : ℚ) := by
      exact_mod_cast le_trans hfl hr
    have hv : (0 : ℚ) < (roundHalfEven (q / 2 ^ ulpExponent q) : ℚ) * 2 ^ ulpExponent q :=
      mul_pos (lt_of_lt_of_le one_pos hr1) hE
    rw [decide_eq_true hq]
    unfold toDouble
    split
    · rfl
    · rw [if_neg (by linarith)]
      simp only [JSNumber.isPositive]
      exact decide_eq_true hv
  · have hx : q / 2 ^ ulpExponent q ≤ 0 :=
      div_nonpos_of_nonpos_of_nonneg (not_lt.mp hq) (le_of_lt hE)
    have hc : ⌈q / 2 ^ ulpExponent q⌉ ≤ 0 := Int.ceil_le.mpr (by exact_mod_cast hx)
    have hr := roundHalfEven_le_ceil (q / 2 ^ ulpExponent q)
    have hr0 : (roundHalfEven (q / 2 ^ ulpExponent q) : ℚ) ≤ 0 := by
      exact_mod_cast le_trans hr hc
    have hv : (roundHalfEven (q / 2 ^ ulpExponent q) : ℚ) * 2 ^ ulpExponent q ≤ 0 :=
      mul_nonpos_of_nonpos_of_nonneg hr0 (le_of_lt hE)
    rw [decide_eq_false hq]
    unfold toDouble
    rw [if_neg (by linarith)]
    split
    · rfl
    · simp only [JSNumber.isPositive]
      exact decide_eq_false (not_lt.mpr hv)

/-- The comparator of `sortByTotalDesc` is positive exactly when the first
Record has the smaller total. -/
theorem totalComparator_isPositive (totalKey : Str) (a b : Record) :
    (totalComparator totalKey a b).isPositive
      = decide ((toNumberSafe (a.get? totalKey)).value
          < (toNumberSafe (b.get? totalKey)).value) := by
  unfold totalComparator
  obtain ⟨kb, hkb⟩ := toNumberSafe_grid (b.get? totalKey)
  obtain ⟨ka, hka⟩ := toNumberSafe_grid (a.get? totalKey)
  obtain ⟨pb, hpb⟩ := toNumberSafe_finite (b.get? totalKey)
  obtain ⟨pa, hpa⟩ := toNumberSafe_finite (a.get? totalKey)
  rw [hpb] at hkb ⊢
  rw [hpa] at hka ⊢
  simp only [JSNumber.value] at hkb hka
  simp only [JSNumber.sub, JSNumber.value]
  rw [toDouble_isPositive _ ⟨kb - ka, by rw [hkb, hka]; push_cast; ring⟩]
  simp

/-! ### The sort -/

theorem sortInsert_perm {α : Type} (cmp : α → α → JSNumber) (a : α) (l : List α) :
    (sortInsert cmp a l).Perm (a :: l) := by
  induction l with
  | nil => exact List.Perm.refl _
  | cons b l ih =>
    unfold sortInsert
    split
    · exact (List.Perm.cons b ih).trans (List.Perm.swap a b l)
    · exact List.Perm.refl _

theorem arraySort_perm {α : Type} (cmp : α → α → JSNumber) (l : List α) :
    (arraySort cmp l).Perm l := by
  induction l with
  | nil => exact List.Perm.refl _
  | cons a l ih =>
    unfold arraySort
    exact (sortInsert_perm cmp a _).trans (List.Perm.cons a ih)

/-- Inserting into a list whose keys do not increase gives such a list, when
the comparator is positive exactly on a smaller first key. -/
theorem sortInsert_sorted {α : Type} (cmp : α → α → JSNumber) (key : α → ℚ)
    (hcmp : ∀ a b, (cmp a b).isPositive = decide (key a < key b)) (a : α) (l : List α)
    (hl : l.Pairwise fun x y => key y ≤ key x) :
    (sortInsert cmp a l).Pairwise fun x y => key y ≤ key x := by
  induction l with
  | nil => simp [sortInsert]
  | cons b l ih =>
    have hb := List.pairwise_cons.mp hl
    unfold sortInsert
    by_cases hab : key a < key b
    · rw [if_pos (by rw [hcmp]; exact decide_eq_true hab)]
      apply List.pairwise_cons.mpr
      refine ⟨?_, ih hb.2⟩
      intro y hy
      rcases List.mem_cons.mp ((sortInsert_perm cmp a l).mem_iff.mp hy) with rfl | hy
      · exact le_of_lt hab
      · exact hb.1 y hy
    · rw [if_neg (by rw [hcmp]; simpa using hab)]
      apply List.pairwise_cons.mpr
      refine ⟨?_, hl⟩
      intro y hy
      rcases List.mem_cons.mp hy with rfl | hy
      · exact not_lt.mp hab
      · exact le_trans (hb.1 y hy) (not_lt.mp hab)

theorem arraySort_sorted {α : Type} (cmp : α → α → JSNumber) (key : α → ℚ)
    (hcmp : ∀ a b, (cmp a b).isPositive = decide (key a < key b)) (l : List α) :
    (arraySort cmp l).Pairwise fun x y => key y ≤ key x := by
  induction l with
  | nil => simp [arraySort]
  | cons a l ih =>
    unfold arraySort
    exact sortInsert_sorted cmp key hcmp a _ ih

/-- An insertion keeps the elements of any one key in their order. -/
theorem sortInsert_filter {α : Type} (cmp : α → α → JSNumber) (key : α → ℚ)
    (hcmp : ∀ a b, (cmp a b).isPositive = decide (key a < key b)) (q : ℚ) (a : α)
    (l : List α) :
    (sortInsert cmp a l).filter (fun x => decide (key x = q))
      = (a :: l).filter (fun x => decide (key x = q)) := by
  induction l with
  | nil => simp [sortInsert]
  | cons b l ih =>
    unfold sortInsert
    by_cases hab : key a < key b
    · rw [if_pos (by rw [hcmp]; exact decide_eq_true hab), List.filter_cons, ih]
      by_cases ha : key a = q
      · have hbq : ¬ key b = q := fun h => by rw [ha, h] at hab; exact lt_irrefl _ hab
        simp [List.filter_cons, ha, hbq]
      · simp [List.filter_cons, ha]
    · rw [if_neg (by rw [hcmp]; simpa using hab)]

theorem arraySort_filter {α : Type} (cmp : α → α → JSNumber) (key : α → ℚ)
    (hcmp : ∀ a b, (cmp a b).isPositive = decide (key a < key b)) (q : ℚ) (l : List α) :
    (arraySort cmp l).filter (fun x => decide (key x = q))
      = l.filter (fun x => decide (key x = q)) := by
  induction l with
  | nil => simp [arraySort]
  | cons a l ih =>
    unfold arraySort
    rw [sortInsert_filter cmp key hcmp q a, List.filter_cons, List.filter_cons, ih]

theorem sortByTotalDescAt_eq (heap : Heap) (rows : Nat) (totalKey : Str) :
    sortByTotalDescAt heap rows totalKey
      = (heap ++ [sortByTotalDesc (heap.getD rows []) totalKey], heap.length) := by
  unfold sortByTotalDescAt sortByTotalDesc
  simp

/-! ### C10 -/

/-- C10: for every list of Records and every field name the array returned by
`sortByTotalDesc` is a permutation of the input, the `toNumberSafe` value of
the field does not increase from first to last, and for every value the
Records having that value stand in the order they had in the input; on
references, the result is a new array and every array that existed before the
call, the input among them, has the contents it had. -/
theorem sortByTotalDesc_stable_descending (rows : List Record) (totalKey : Str) :
    (sortByTotalDesc rows totalKey).Perm rows ∧
      (sortByTotalDesc rows totalKey).Pairwise (fun x y =>
        (toNumberSafe (y.get? totalKey)).value ≤ (toNumberSafe (x.get? totalKey)).value) ∧
      (∀ q : ℚ,
        (sortByTotalDesc rows totalKey).filter
            (fun x => decide ((toNumberSafe (x.get? totalKey)).value = q))
          = rows.filter (fun x => decide ((toNumberSafe (x.get? totalKey)).value = q))) ∧
      (∀ (heap : Heap) (ref : Nat), ref < heap.length → heap[ref]? = some rows →
        (sortByTotalDescAt heap ref totalKey).2 = heap.length ∧
          (sortByTotalDescAt heap ref totalKey).1[(sortByTotalDescAt heap ref totalKey).2]?
            = some (sortByTotalDesc rows totalKey) ∧
          (sortByTotalDescAt heap ref totalKey).1[ref]? = some rows ∧
          ∀ i, i < heap.length → (sortByTotalDescAt heap ref totalKey).1[i]? = heap[i]?) := by
  have hperm : (sortByTotalDesc rows totalKey).Perm rows := by
    unfold sortByTotalDesc
    exact arraySort_perm _ rows
  have hsorted : (sortByTotalDesc rows totalKey).Pairwise (fun x y =>
      (toNumberSafe (y.get? totalKey)).value ≤ (toNumberSafe (x.get? totalKey)).value) := by
    unfold sortByTotalDesc
    exact arraySort_sorted (totalComparator totalKey)
      (fun x => (toNumberSafe (x.get? totalKey)).value)
      (totalComparator_isPositive totalKey) rows
  have hstable : ∀ q : ℚ,
      (sortByTotalDesc rows totalKey).filter
          (fun x => decide ((toNumberSafe (x.get? totalKey)).value = q))
        = rows.filter (fun x => decide ((toNumberSafe (x.get? totalKey)).value = q)) := by
    intro q
    unfold sortByTotalDesc
    exact arraySort_filter (totalComparator totalKey)
      (fun x => (toNumberSafe (x.get? totalKey)).value)
      (totalComparator_isPositive totalKey) q rows
  refine ⟨hperm, hsorted, hstable, ?_⟩
  intro heap ref href hrows
  have hget : heap.getD ref [] = rows := by
    rw [List.getD_eq_getElem?_getD, hrows]
    rfl
  rw [sortByTotalDescAt_eq, hget]
  have hold : ∀ i, i < heap.length →
      (heap ++ [sortByTotalDesc rows totalKey])[i]? = heap[i]? :=
    fun i hi => List.getElem?_append_left hi
  refine ⟨rfl, ?_, ?_, hold⟩
  · simp
  · rw [hold ref href, hrows]

/-- C10 on references, at a heap holding one array of two Records: the call
returns the new address 1 and the array at address 0 is as before. -/
theorem sortByTotalDesc_stable_descending_witness :
    (0 < [[[("Total".toList, "1".toList)], [("Total".toList, "2".toList)]]].length ∧
        [[[("Total".toList, "1".toList)], [("Total".toList, "2".toList)]]][0]?
          = some [[("Total".toList, "1".toList)], [("Total".toList, "2".toList)]]) ∧
      (sortByTotalDescAt [[[("Total".toList, "1".toList)], [("Total".toList, "2".toList)]]] 0
          "Total".toList).2 = 1 ∧
      (sortByTotalDescAt [[[("Total".toList, "1".toList)], [("Total".toList, "2".toList)]]] 0
          "Total".toList).1[0]?
        = some [[("Total".toList, "1".toList)], [("Total".toList, "2".toList)]] :=
  have h := (sortByTotalDesc_stable_descending
    [[("Total".toList, "1".toList)], [("Total".toList, "2".toList)]] "Total".toList).2.2.2
    [[[("Total".toList, "1".toList)], [("Total".toList, "2".toList)]]] 0 (by decide) rfl
  ⟨⟨by decide, rfl⟩, h.1, h.2.2.1⟩

/-! ### C18: the shape of the rows returned -/

theorem rowShape_flush (row : List Str) (current : Str)
    (h : current.length ≠ 0 ∨ row.length ≠ 0) : RowShape (row ++ [current]) := by
  unfold RowShape
  rcases Nat.eq_zero_or_pos row.length with h0 | hpos
  · right
    have hr : row = [] := List.length_eq_zero.mp h0
    subst hr
    refine ⟨rfl, ?_⟩
    intro he
    rcases h with h | h
    · apply h
      have : current = [] := by simpa using he
      rw [this]
      rfl
    · exact h rfl
  · left
    simp
    omega

/-- The loop body only ever appends a well-shaped row to `rows`. -/
theorem loopBody_rows (c : Char) (next : Option Char) (s : ScanState)
    (h : ∀ r ∈ s.rows, RowShape r) : ∀ r ∈ (loopBody c next s).1.rows, RowShape r := by
  unfold loopBody
  split
  · exact h
  · split
    · exact h
    · split
      · exact h
      · split
        · simp only
          split
          · rename_i hc
            intro r hr
            simp only [ScanState.flushRow, List.mem_append, List.mem_singleton] at hr
            rcases hr with hr | hr
            · exact h r hr
            · rw [hr]
              exact rowShape_flush _ _ hc
          · exact h
        · exact h

theorem scan_rows (n : Nat) :
    ∀ (t : List Char) (s : ScanState), t.length ≤ n → (∀ r ∈ s.rows, RowShape r) →
      ∀ r ∈ (scan s t).rows, RowShape r := by
  induction n with
  | zero =>
    intro t s h hs
    have : t = [] := List.length_eq_zero.mp (by omega)
    subst this
    rw [scan_nil]
    exact hs
  | succ n ih =>
    intro t s h hs
    cases t with
    | nil =>
      rw [scan_nil]
      exact hs
    | cons c l =>
      rw [scan_cons]
      have hl : l.length ≤ n := by simpa using h
      have hb := loopBody_rows c l.head? s hs
      split
      · exact ih l.tail _ (by rw [List.length_tail]; omega) hb
      · exact ih l _ hl hb

theorem finish_rows (s : ScanState) (h : ∀ r ∈ s.rows, RowShape r) :
    ∀ r ∈ s.finish, RowShape r := by
  unfold ScanState.finish
  split
  · rename_i hc
    intro r hr
    simp only [List.mem_append, List.mem_singleton] at hr
    rcases hr with hr | hr
    · exact h r hr
    · rw [hr]
      exact rowShape_flush _ _ hc
  · exact h

/-- C18: for every input string, every row that `parseCsv` returns has at
least one field and is not a single empty field: it has two or more fields or
one non-empty field.  A line holding only the empty quoted field `""` gives no
row. -/
theorem parseCsv_rowShape :
    (∀ csvText : Str, ∃ rows : List (List Str), parseCsv csvText = some rows ∧
        ∀ r ∈ rows, r ≠ [] ∧ r ≠ [[]] ∧ RowShape r) ∧
      parseCsv "\"\"".toList = some [] ∧
      parseCsv "a\n\"\"\nb".toList = some [["a".toList], ["b".toList]] := by
  refine ⟨fun csvText => ⟨_, parseCsv_eq_scan csvText, ?_⟩, by decide, by decide⟩
  intro r hr
  have hs := finish_rows _ (scan_rows csvText.length csvText ScanState.init (le_refl _)
    (by simp [ScanState.init])) r hr
  refine ⟨?_, ?_, hs⟩
  · rintro rfl
    rcases hs with h | ⟨h, _⟩ <;> simp at h
  · rintro rfl
    rcases hs with h | ⟨_, h⟩
    · simp at h
    · exact h rfl

/-! ### C16: the scanner and the naive splitter on quote-free text -/

theorem splitOnP_isComma_eq_single_nil (p : Str) : p.splitOnP isComma = [[]] ↔ p = [] := by
  constructor
  · intro h
    cases p with
    | nil => rfl
    | cons c l =>
      exfalso
      rw [List.splitOnP_cons] at h
      obtain ⟨f0, fs, hf⟩ : ∃ f0 fs, l.splitOnP isComma = f0 :: fs := by
        cases hs : l.splitOnP isComma with
        | nil => exact absurd hs (List.splitOnP_ne_nil _ _)
        | cons a b => exact ⟨a, b, rfl⟩
      rw [hf] at h
      split at h
      · simp at h
      · simp [List.modifyHead] at h
  · rintro rfl
    rfl

theorem keepLine_flush (row : List Str) (cur : Str) :
    keepLine (row ++ [cur])
      = if cur.length ≠ 0 ∨ row.length ≠ 0 then [row ++ [cur]] else [] := by
  unfold keepLine
  by_cases h : row ++ [cur] = [[]]
  · rw [if_pos h]
    have h1 : row = [] := by
      cases row with
      | nil => rfl
      | cons a b =>
        have := congrArg List.length h
        simp at this
    subst h1
    have h2 : cur = [] := by simpa using h
    subst h2
    simp
  · rw [if_neg h]
    have : cur.length ≠ 0 ∨ row.length ≠ 0 := by
      by_contra hc
      push_neg at hc
      apply h
      rw [List.length_eq_zero.mp hc.1, List.length_eq_zero.mp hc.2]
      rfl
    rw [if_pos this]

theorem pendingRows_nil_nil (pieces : List Str) (h : pieces ≠ []) :
    pendingRows [] [] pieces = lineRows pieces := by
  cases pieces with
  | nil => exact absurd rfl h
  | cons p0 ps =>
    simp only [pendingRows]
    obtain ⟨f0, fs, hf⟩ : ∃ f0 fs, p0.splitOnP isComma = f0 :: fs := by
      cases hs : p0.splitOnP isComma with
      | nil => exact absurd hs (List.splitOnP_ne_nil _ _)
      | cons a b => exact ⟨a, b, rfl⟩
    have hj : [] ++ joinPending [] (p0.splitOnP isComma) = p0.splitOnP isComma := by
      rw [hf]
      simp [joinPending]
    rw [hj]
    unfold keepLine lineRows
    by_cases hp : p0 = []
    · subst hp
      simp
    · have hne : ¬ p0.splitOnP isComma = [[]] :=
        fun h => hp ((splitOnP_isComma_eq_single_nil p0).mp h)
      rw [if_neg hne]
      simp [List.filter_cons, hp]

theorem exists_splitOnP_cons (p : Char → Bool) (l : List Char) :
    ∃ p0 ps, l.splitOnP p = p0 :: ps := by
  cases hs : l.splitOnP p with
  | nil => exact absurd hs (List.splitOnP_ne_nil _ _)
  | cons a b => exact ⟨a, b, rfl⟩

theorem pendingRows_end (row : List Str) (cur : Str) :
    pendingRows row cur (([] : List Char).splitOnP isLineBreak) = keepLine (row ++ [cur]) := by
  simp [pendingRows, joinPending, lineRows]

theorem pendingRows_plain (row : List Str) (cur : Str) (c : Char) (l : List Char)
    (h1 : isLineBreak c = false) (h2 : isComma c = false) :
    pendingRows row cur ((c :: l).splitOnP isLineBreak)
      = pendingRows row (cur ++ [c]) (l.splitOnP isLineBreak) := by
  obtain ⟨p0, ps, hp⟩ := exists_splitOnP_cons isLineBreak l
  obtain ⟨f0, fs, hf⟩ := exists_splitOnP_cons isComma p0
  rw [List.splitOnP_cons, h1, hp]
  simp only [Bool.false_eq_true, if_false, List.modifyHead, pendingRows]
  rw [List.splitOnP_cons, h2, hf]
  simp [List.modifyHead, joinPending]

theorem pendingRows_comma (row : List Str) (cur : Str) (l : List Char) :
    pendingRows row cur ((',' :: l).splitOnP isLineBreak)
      = pendingRows (row ++ [cur]) [] (l.splitOnP isLineBreak) := by
  obtain ⟨p0, ps, hp⟩ := exists_splitOnP_cons isLineBreak l
  obtain ⟨f0, fs, hf⟩ := exists_splitOnP_cons isComma p0
  rw [List.splitOnP_cons, show isLineBreak ',' = false by decide, hp]
  simp only [Bool.false_eq_true, if_false, List.modifyHead, pendingRows]
  rw [List.splitOnP_cons, show isComma ',' = true by decide, hf]
  simp [joinPending]

theorem pendingRows_break (row : List Str) (cur : Str) (c : Char) (l : List Char)
    (h1 : isLineBreak c = true) :
    pendingRows row cur ((c :: l).splitOnP isLineBreak)
      = keepLine (row ++ [cur]) ++ pendingRows [] [] (l.splitOnP isLineBreak) := by
  rw [List.splitOnP_cons, h1, pendingRows_nil_nil _ (List.splitOnP_ne_nil _ _)]
  simp [pendingRows, joinPending]

theorem pendingRows_skip_lf (l : List Char) :
    pendingRows [] [] (('\n' :: l).splitOnP isLineBreak)
      = pendingRows [] [] (l.splitOnP isLineBreak) := by
  rw [pendingRows_break [] [] '\n' l (by decide)]
  simp [keepLine]

/-- Outside a quoted field, on text without double quotes, the scan returns
the rows already emitted followed by the rows the naive splitter finds in the
current line and the remaining text. -/
theorem scan_quoteFree (n : Nat) :
    ∀ (t : List Char) (s : ScanState), t.length ≤ n → '"' ∉ t → s.inQuotes = false →
      (scan s t).finish = s.rows ++ pendingRows s.row s.current (t.splitOnP isLineBreak) := by
  induction n with
  | zero =>
    intro t s h _ _
    have : t = [] := List.length_eq_zero.mp (by omega)
    subst this
    rw [scan_nil, pendingRows_end, keepLine_flush]
    unfold ScanState.finish
    split <;> simp
  | succ n ih =>
    intro t s h hq hs
    cases t with
    | nil =>
      rw [scan_nil, pendingRows_end, keepLine_flush]
      unfold ScanState.finish
      split <;> simp
    | cons c l =>
      have hc : c ≠ '"' := fun e => hq (by simp [e])
      have hl : '"' ∉ l := fun e => hq (List.mem_cons_of_mem _ e)
      have hlen : l.length ≤ n := by simpa using h
      rw [scan_cons]
      by_cases h4 : c = ','
      · subst h4
        rw [loopBody_comma s _ hs]
        simp only [Bool.false_eq_true, if_false]
        rw [ih l { s with row := s.row ++ [s.current], current := [] } hlen hl hs,
          pendingRows_comma]
      · by_cases h5 : c = '\n'
        · subst h5
          rw [loopBody_lf s _ hs]
          simp only [Bool.false_eq_true, if_false]
          rw [pendingRows_break s.row s.current '\n' l (by decide), keepLine_flush]
          by_cases hne : s.current.length ≠ 0 ∨ s.row.length ≠ 0
          · rw [if_pos hne, if_pos hne,
              ih l s.flushRow hlen hl (by simpa [ScanState.flushRow] using hs)]
            simp [ScanState.flushRow]
          · rw [if_neg hne, if_neg hne, ih l s hlen hl hs]
            push_neg at hne
            rw [List.length_eq_zero.mp hne.1, List.length_eq_zero.mp hne.2]
            simp
        · by_cases h6 : c = '\r'
          · subst h6
            rw [loopBody_cr s _ hs]
            rw [pendingRows_break s.row s.current '\r' l (by decide), keepLine_flush]
            have key : ∀ s1 : ScanState, s1.inQuotes = false → s1.row = [] → s1.current = [] →
                (if decide (l.head? = some '\n') = true then scan s1 l.tail else scan s1 l).finish
                  = s1.rows ++ pendingRows [] [] (l.splitOnP isLineBreak) := by
              intro s1 hq1 hr1 hc1
              by_cases hn : l.head? = some '\n'
              · rw [if_pos (decide_eq_true hn)]
                cases l with
                | nil => simp at hn
                | cons d l2 =>
                  simp only [List.head?_cons, Option.some.injEq] at hn
                  subst hn
                  rw [List.tail_cons, pendingRows_skip_lf,
                    ih l2 s1 (by simp at hlen; omega) (fun e => hl (List.mem_cons_of_mem _ e)) hq1,
                    hr1, hc1]
              · rw [if_neg (by simpa using hn), ih l s1 hlen hl hq1, hr1, hc1]
            by_cases hne : s.current.length ≠ 0 ∨ s.row.length ≠ 0
            · simp only [if_pos hne]
              rw [key s.flushRow (by simpa [ScanState.flushRow] using hs) rfl rfl]
              simp [ScanState.flushRow]
            · simp only [if_neg hne]
              push_neg at hne
              rw [key s hs (List.length_eq_zero.mp hne.2) (List.length_eq_zero.mp hne.1)]
              simp
          · rw [loopBody_plain s c _ hc h4 h5 h6]
            simp only [Bool.false_eq_true, if_false]
            rw [ih l { s with current := s.current ++ [c] } hlen hl hs,
              pendingRows_plain s.row s.current c l (by simp [isLineBreak, h5, h6])
                (by simp [isComma, h4])]

theorem splitOnP_append_break (p : Char → Bool) (c : Char) (hc : p c = true) (b : List Char) :
    ∀ a : List Char, (a ++ c :: b).splitOnP p = a.splitOnP p ++ b.splitOnP p := by
  intro a
  induction a with
  | nil => simp [hc]
  | cons x a ih =>
    obtain ⟨p0, ps, hp⟩ := exists_splitOnP_cons p a
    rw [List.cons_append, List.splitOnP_cons, List.splitOnP_cons, ih, hp]
    split <;> simp [List.modifyHead]

theorem lineRows_append (x y : List Str) : lineRows (x ++ y) = lineRows x ++ lineRows y := by
  simp [lineRows]

theorem naiveSplit_break (a b : Str) (c : Char) (hc : isLineBreak c = true) :
    naiveSplit (a ++ c :: b) = naiveSplit a ++ naiveSplit b := by
  unfold naiveSplit
  rw [splitOnP_append_break isLineBreak c hc b a, lineRows_append]

theorem naiveSplit_crlf (a b : Str) :
    naiveSplit (a ++ '\r' :: '\n' :: b) = naiveSplit a ++ naiveSplit b := by
  rw [naiveSplit_break a ('\n' :: b) '\r' (by decide)]
  have h := naiveSplit_break [] b '\n' (by decide)
  rw [List.nil_append] at h
  rw [h]
  simp [naiveSplit, lineRows]

theorem parseCsv_eq_naiveSplit (text : Str) (h : '"' ∉ text) :
    parseCsv text = some (naiveSplit text) := by
  rw [parseCsv_eq_scan, scan_quoteFree text.length text ScanState.init (le_refl _) h rfl]
  simp only [ScanState.init, List.nil_append]
  rw [pendingRows_nil_nil _ (List.splitOnP_ne_nil _ _)]
  rfl

/-- C16: on every text without a double-quote character `parseCsv` returns
what the naive splitter returns (the text cut at every CR and every LF, the
empty pieces discarded, each remaining piece split at every comma); hence a
LF, a CR and a CR LF pair between two such texts give the same rows. -/
theorem parseCsv_quoteFree_naive :
    (∀ text : Str, '"' ∉ text → parseCsv text = some (naiveSplit text)) ∧
      (∀ a b : Str, '"' ∉ a → '"' ∉ b →
        parseCsv (a ++ '\r' :: b) = parseCsv (a ++ '\n' :: b) ∧
          parseCsv (a ++ '\r' :: '\n' :: b) = parseCsv (a ++ '\n' :: b)) := by
  refine ⟨parseCsv_eq_naiveSplit, fun a b ha hb => ?_⟩
  have hmem : ∀ c : Char, c ≠ '"' → '"' ∉ a ++ c :: b := by
    intro c hc hm
    rcases List.mem_append.mp hm with h | h
    · exact ha h
    · rcases List.mem_cons.mp h with h | h
      · exact hc h.symm
      · exact hb h
  have hmem2 : '"' ∉ a ++ '\r' :: '\n' :: b := by
    intro hm
    rcases List.mem_append.mp hm with h | h
    · exact ha h
    · simp only [List.mem_cons] at h
      rcases h with h | h | h
      · exact absurd h (by decide)
      · exact absurd h (by decide)
      · exact hb h
  rw [parseCsv_eq_naiveSplit _ (hmem '\r' (by decide)),
    parseCsv_eq_naiveSplit _ (hmem '\n' (by decide)), parseCsv_eq_naiveSplit _ hmem2,
    naiveSplit_break a b '\r' (by decide), naiveSplit_break a b '\n' (by decide),
    naiveSplit_crlf]
  exact ⟨rfl, rfl⟩

/-- C16 at a text with the three kinds of line break, an empty line and empty
fields. -/
theorem parseCsv_quoteFree_naive_witness :
    '"' ∉ "a,b\r\n,\n\nc\rd,".toList ∧
      parseCsv "a,b\r\n,\n\nc\rd,".toList = some (naiveSplit "a,b\r\n,\n\nc\rd,".toList) ∧
      naiveSplit "a,b\r\n,\n\nc\rd,".toList
        = [["a".toList, "b".toList], [[], []], ["c".toList], ["d".toList, []]] :=
  ⟨by decide, parseCsv_quoteFree_naive.1 _ (by decide), by decide⟩

/-! ### C17: `escapeHtml` -/

theorem replaceAllChar_append (c : Char) (rep a b : Str) :
    replaceAllChar c rep (a ++ b) = replaceAllChar c rep a ++ replaceAllChar c rep b := by
  simp [replaceAllChar]

theorem escapeHtml_append (a b : Str) : escapeHtml (a ++ b) = escapeHtml a ++ escapeHtml b := by
  simp only [escapeHtml, replaceAllChar_append]

theorem escapeHtml_nil : escapeHtml [] = [] := rfl

/-- Of the five replacements at most one touches a given character, and none
touches what an earlier one wrote. -/
theorem escapeHtml_singleton (c : Char) : escapeHtml [c] = escapeChar c := by
  unfold escapeChar
  by_cases h1 : c = '&'
  · subst h1
    decide
  · by_cases h2 : c = '<'
    · subst h2
      decide
    · by_cases h3 : c = '>'
      · subst h3
        decide
      · by_cases h4 : c = '"'
        · subst h4
          decide
        · by_cases h5 : c = Char.ofNat 39
          · subst h5
            decide
          · rw [if_neg h1, if_neg h2, if_neg h3, if_neg h4, if_neg h5]
            simp [escapeHtml, replaceAllChar, h1, h2, h3, h4, h5]

/-- The result of `escapeHtml`, character by character. -/
theorem escapeHtml_cons (c : Char) (s : Str) :
    escapeHtml (c :: s) = escapeChar c ++ escapeHtml s := by
  rw [← List.singleton_append, escapeHtml_append, escapeHtml_singleton]

theorem escapeChar_cases (c : Char) :
    escapeChar c ∈ htmlEntities ∨
      (escapeChar c = [c] ∧ c ≠ '&' ∧ c ≠ '<' ∧ c ≠ '>' ∧ c ≠ '"' ∧ c ≠ Char.ofNat 39) := by
  unfold escapeChar
  by_cases h1 : c = '&'
  · left; rw [if_pos h1]; decide
  · by_cases h2 : c = '<'
    · left; rw [if_neg h1, if_pos h2]; decide
    · by_cases h3 : c = '>'
      · left; rw [if_neg h1, if_neg h2, if_pos h3]; decide
      · by_cases h4 : c = '"'
        · left; rw [if_neg h1, if_neg h2, if_neg h3, if_pos h4]; decide
        · by_cases h5 : c = Char.ofNat 39
          · left; rw [if_neg h1, if_neg h2, if_neg h3, if_neg h4, if_pos h5]; decide
          · right
            rw [if_neg h1, if_neg h2, if_neg h3, if_neg h4, if_neg h5]
            exact ⟨rfl, h1, h2, h3, h4, h5⟩

/-- No entity holds one of the four characters `<`, `>`, `"`, `'`, and its
only ampersand is its first character. -/
theorem htmlEntities_chars :
    ∀ e ∈ htmlEntities, (∀ x ∈ e, x ≠ '<' ∧ x ≠ '>' ∧ x ≠ '"' ∧ x ≠ Char.ofNat 39) ∧
      e.head? = some '&' ∧ '&' ∉ e.tail := by
  decide

theorem unescapeFrom_skip (w rest : List Char) :
    unescapeFrom w.length (w ++ rest) = unescapeFrom 0 rest := by
  induction w with
  | nil => rfl
  | cons a w ih =>
    cases rest with
    | nil => simpa [unescapeFrom] using ih
    | cons b r => simpa [unescapeFrom] using ih

theorem entityAt_of_ne (c : Char) (rest : List Char) (h : c ≠ '&') :
    entityAt (c :: rest) = none := by
  have hb : ('&' == c) = false := by
    rw [beq_eq_false_iff_ne]
    exact Ne.symm h
  simp [entityAt, List.isPrefixOf, hb]

theorem unescapeHtml_cons_of_ne (c : Char) (rest : List Char) (h : c ≠ '&') :
    unescapeHtml (c :: rest) = c :: unescapeHtml rest := by
  unfold unescapeHtml
  rw [unescapeFrom, entityAt_of_ne c rest h]

theorem unescapeHtml_entity (c : Char) (rest : List Char) (h : escapeChar c ∈ htmlEntities) :
    unescapeHtml (escapeChar c ++ rest) = c :: unescapeHtml rest := by
  have key : ∀ (w : List Char) (k : Nat), entityAt ('&' :: (w ++ rest)) = some (c, k) →
      w.length = k → unescapeHtml ('&' :: w ++ rest) = c :: unescapeHtml rest := by
    intro w k he hk
    unfold unescapeHtml
    rw [List.cons_append, unescapeFrom, he]
    simp only
    rw [← hk, unescapeFrom_skip]
  unfold escapeChar at h ⊢
  by_cases h1 : c = '&'
  · subst h1
    exact key "amp;".toList 4 (by simp [entityAt, List.isPrefixOf]) rfl
  · by_cases h2 : c = '<'
    · subst h2
      exact key "lt;".toList 3 (by simp [entityAt, List.isPrefixOf]) rfl
    · by_cases h3 : c = '>'
      · subst h3
        exact key "gt;".toList 3 (by simp [entityAt, List.isPrefixOf]) rfl
      · by_cases h4 : c = '"'
        · subst h4
          exact key "quot;".toList 5 (by simp [entityAt, List.isPrefixOf]) rfl
        · by_cases h5 : c = Char.ofNat 39
          · subst h5
            exact key "#039;".toList 5 (by simp [entityAt, List.isPrefixOf]) rfl
          · rw [if_neg h1, if_neg h2, if_neg h3, if_neg h4, if_neg h5] at h
            exfalso
            simp only [htmlEntities, List.mem_cons, List.mem_singleton, List.not_mem_nil,
              or_false] at h
            rcases h with h | h | h | h | h <;>
              · have := congrArg List.length h
                simp at this

/-- Reading back what `escapeHtml` wrote gives the original text. -/
theorem unescapeHtml_escapeHtml (s : Str) : unescapeHtml (escapeHtml s) = s := by
  induction s with
  | nil => rfl
  | cons c s ih =>
    rw [escapeHtml_cons]
    rcases escapeChar_cases c with h | ⟨h, h1, _⟩
    · rw [unescapeHtml_entity c _ h, ih]
    · rw [h, List.singleton_append, unescapeHtml_cons_of_ne c _ h1, ih]

/-- Every ampersand of an escaped text begins one of the five entities. -/
theorem escapeHtml_ampersand (s : Str) :
    ∀ i : Nat, (escapeHtml s)[i]? = some '&' →
      ∃ e ∈ htmlEntities, e <+: (escapeHtml s).drop i := by
  induction s with
  | nil =>
    intro i h
    simp [escapeHtml_nil] at h
  | cons c s ih =>
    intro i h
    rw [escapeHtml_cons] at h ⊢
    by_cases hi : i < (escapeChar c).length
    · rw [List.getElem?_append_left hi] at h
      rcases escapeChar_cases c with he | ⟨he, h1, _⟩
      · obtain ⟨_, hhead, htail⟩ := htmlEntities_chars _ he
        have hi0 : i = 0 := by
          by_contra hne
          apply htail
          obtain ⟨a, b, hab⟩ : ∃ a b, escapeChar c = a :: b := by
            cases hec : escapeChar c with
            | nil => rw [hec] at hhead; simp at hhead
            | cons a b => exact ⟨a, b, rfl⟩
          rw [hab] at h ⊢
          obtain ⟨j, rfl⟩ : ∃ j, i = j + 1 := ⟨i - 1, by omega⟩
          rw [List.getElem?_cons_succ] at h
          rw [List.tail_cons]
          exact List.getElem?_mem h
        subst hi0
        exact ⟨escapeChar c, he, by simp⟩
      · rw [he] at h hi
        have hi0 : i = 0 := by simpa using hi
        subst hi0
        simp at h
        exact absurd h h1
    · have hle : (escapeChar c).length ≤ i := by omega
      rw [List.getElem?_append_right hle] at h
      obtain ⟨e, he, hpre⟩ := ih _ h
      refine ⟨e, he, ?_⟩
      rw [List.drop_append_eq_append_drop, List.drop_eq_nil_of_le hle, List.nil_append]
      exact hpre

/-- An escaped text holds none of the characters `<`, `>`, `"` and `'`. -/
theorem escapeHtml_safe (s : Str) :
    ∀ x ∈ escapeHtml s, x ≠ '<' ∧ x ≠ '>' ∧ x ≠ '"' ∧ x ≠ Char.ofNat 39 := by
  induction s with
  | nil =>
    intro x hx
    simp [escapeHtml_nil] at hx
  | cons c s ih =>
    intro x hx
    rw [escapeHtml_cons] at hx
    rcases List.mem_append.mp hx with hx | hx
    · rcases escapeChar_cases c with he | ⟨he, _, h2, h3, h4, h5⟩
      · exact (htmlEntities_chars _ he).1 x hx
      · rw [he] at hx
        have : x = c := by simpa using hx
        subst this
        exact ⟨h2, h3, h4, h5⟩
    · exact ih x hx

/-- C17: for every string `s`, `escapeHtml s` holds none of the characters
`<`, `>`, double quote and single quote; every `&` in it is the first
character of one of the five entities `&amp;` `&lt;` `&gt;` `&quot;` `&#039;`;
and reading the entities back as the characters they stand for returns `s`, so
that `escapeHtml` is injective. -/
theorem escapeHtml_sound :
    (∀ s : Str, ∀ x ∈ escapeHtml s, x ≠ '<' ∧ x ≠ '>' ∧ x ≠ '"' ∧ x ≠ Char.ofNat 39) ∧
      (∀ (s : Str) (i : Nat), (escapeHtml s)[i]? = some '&' →
        ∃ e ∈ htmlEntities, e <+: (escapeHtml s).drop i) ∧
      (∀ s : Str, unescapeHtml (escapeHtml s) = s) ∧
      Function.Injective escapeHtml ∧
      escapeHtml "a<b & \"c\" > d".toList = "a&lt;b &amp; &quot;c&quot; &gt; d".toList :=
  ⟨escapeHtml_safe, escapeHtml_ampersand, unescapeHtml_escapeHtml,
    Function.LeftInverse.injective unescapeHtml_escapeHtml, by decide⟩

/-- C17 at the text `x&lt;` (an ampersand the input already holds): its
escaped form has one ampersand, at index 1, where the entity `&amp;` begins. -/
theorem escapeHtml_sound_witness :
    escapeHtml "x&lt;".toList = "x&amp;lt;".toList ∧
      (escapeHtml "x&lt;".toList)[1]? = some '&' ∧
      (∃ e ∈ htmlEntities, e <+: (escapeHtml "x&lt;".toList).drop 1) ∧
      unescapeHtml (escapeHtml "x&lt;".toList) = "x&lt;".toList :=
  ⟨by decide, by decide, escapeHtml_sound.2.1 _ 1 (by decide), escapeHtml_sound.2.2.1 _⟩

/-! ### C14: the team and the points of a race Record -/

theorem jsOr_chain5 (a b c d e : Option Str) (z : Str) :
    (jsOr (jsOr (jsOr (jsOr (jsOr a b) c) d) e) (some z)).getD []
      = (([a, b, c, d, e].findSome? fun x =>
          match x with
          | some (h :: v) => some (h :: v)
          | _ => none).getD z) := by
  rcases a with _ | _ | ⟨_, _⟩ <;> rcases b with _ | _ | ⟨_, _⟩ <;>
    rcases c with _ | _ | ⟨_, _⟩ <;> rcases d with _ | _ | ⟨_, _⟩ <;>
    rcases e with _ | _ | ⟨_, _⟩ <;> simp [jsOr, truthy, List.findSome?]

theorem jsOr_chain4 (a b c d : Option Str) (z : Str) :
    (jsOr (jsOr (jsOr (jsOr a b) c) d) (some z)).getD []
      = (([a, b, c, d].findSome? fun x =>
          match x with
          | some (h :: v) => some (h :: v)
          | _ => none).getD z) := by
  rcases a with _ | _ | ⟨_, _⟩ <;> rcases b with _ | _ | ⟨_, _⟩ <;>
    rcases c with _ | _ | ⟨_, _⟩ <;> rcases d with _ | _ | ⟨_, _⟩ <;>
    simp [jsOr, truthy, List.findSome?]

theorem firstNonEmpty_eq (r : Record) (names : List Str) (fallback : Str) :
    firstNonEmpty r names fallback
      = (((names.map r.get?).findSome? fun x =>
          match x with
          | some (h :: v) => some (h :: v)
          | _ => none).getD fallback) := by
  unfold firstNonEmpty
  rw [List.findSome?_map]
  rfl

theorem pickTeamFromRaceRow_eq (r : Record) :
    pickTeamFromRaceRow r
      = firstNonEmpty r ["Team (Race 1)".toList, "Team (Race 2)".toList,
          "Team (Race 3)".toList, "Team (Race)".toList, "Team".toList] [] := by
  rw [firstNonEmpty_eq]
  exact jsOr_chain5 _ _ _ _ _ _

theorem pickPointsFromRaceRow_eq (r : Record) :
    pickPointsFromRaceRow r
      = firstNonEmpty r ["Final Points".toList, "Final".toList, "Pts".toList,
          "Points".toList] "0".toList := by
  rw [firstNonEmpty_eq]
  exact jsOr_chain4 _ _ _ _ _

/-- C14: for every race Record, `pickTeamFromRaceRow` returns the value of the
first of the fields `Team (Race 1)`, `Team (Race 2)`, `Team (Race 3)`,
`Team (Race)`, `Team` that is present and non-empty, and the empty string when
there is none; `pickPointsFromRaceRow` returns the value of the first of
`Final Points`, `Final`, `Pts`, `Points` that is present and non-empty, and
the string `0` when there is none. -/
theorem pick_first_nonEmpty (r : Record) :
    pickTeamFromRaceRow r
        = firstNonEmpty r ["Team (Race 1)".toList, "Team (Race 2)".toList,
            "Team (Race 3)".toList, "Team (Race)".toList, "Team".toList] [] ∧
      pickPointsFromRaceRow r
        = firstNonEmpty r ["Final Points".toList, "Final".toList, "Pts".toList,
            "Points".toList] "0".toList :=
  ⟨pickTeamFromRaceRow_eq r, pickPointsFromRaceRow_eq r⟩

/-- A Record without a team in the first two fields and with an empty `Final
Points`: the team is that of `Team (Race 3)` and the points those of `Pts`. -/
theorem pick_example :
    pickTeamFromRaceRow [("Team (Race 2)".toList, []), ("Team".toList, "Haas".toList),
        ("Team (Race 3)".toList, "Red Bull".toList)] = "Red Bull".toList ∧
      pickPointsFromRaceRow [("Final Points".toList, []), ("Points".toList, "3".toList),
        ("Pts".toList, "18".toList)] = "18".toList ∧
      pickTeamFromRaceRow [] = [] ∧ pickPointsFromRaceRow [] = "0".toList := by
  decide

/-! ### C13: the race filter -/

theorem lookup_map_replace (k v : Str) (o : Record) :
    (o.map fun kv => if kv.1 = k then (k, v) else kv).lookup k
      = if o.any (fun kv => kv.1 == k) = true then some v else none := by
  induction o with
  | nil => rfl
  | cons a o ih =>
    obtain ⟨ak, av⟩ := a
    by_cases h : ak = k
    · simp [List.lookup_cons, h]
    · have hb : (k == ak) = false := by
        rw [beq_eq_false_iff_ne]
        exact fun e => h e.symm
      have hb2 : (ak == k) = false := by
        rw [beq_eq_false_iff_ne]
        exact h
      simp only [List.map_cons, if_neg h, List.lookup_cons, hb, List.any_cons, hb2,
        Bool.false_or]
      exact ih

theorem lookup_map_replace_other (k v k2 : Str) (hk : k2 ≠ k) (o : Record) :
    (o.map fun kv => if kv.1 = k then (k, v) else kv).lookup k2 = o.lookup k2 := by
  induction o with
  | nil => rfl
  | cons a o ih =>
    obtain ⟨ak, av⟩ := a
    by_cases h : ak = k
    · have hb : (k2 == k) = false := by
        rw [beq_eq_false_iff_ne]
        exact hk
      have hb2 : (k2 == ak) = false := by
        rw [h]
        exact hb
      simp only [List.map_cons, if_pos h, List.lookup_cons, hb, hb2]
      exact ih
    · simp only [List.map_cons, if_neg h, List.lookup_cons]
      rw [ih]

/-- A property just defined reads as the value given. -/
theorem Record.get?_define_self (o : Record) (k v : Str) :
    (o.define k v).get? k = some v := by
  unfold Record.define Record.get?
  by_cases h : o.any (fun kv => kv.1 == k) = true
  · rw [if_pos h, lookup_map_replace, if_pos h]
  · rw [if_neg h, List.lookup_append]
    have hnone : o.lookup k = none := by
      rw [List.lookup_eq_none_iff]
      intro p hp
      have h2 : ¬ ∃ x ∈ o, (x.1 == k) = true := by
        simpa [List.any_eq_true] using h
      have h3 : ¬ (p.1 == k) = true := fun e => h2 ⟨p, hp, e⟩
      have h4 : p.1 ≠ k := by simpa using h3
      simp only [bne_iff_ne, ne_eq]
      exact fun e => h4 e.symm
    rw [hnone]
    simp

/-- Defining a property leaves the properties of other names as they read. -/
theorem Record.get?_define_other (o : Record) (k v k2 : Str) (hk : k2 ≠ k) :
    (o.define k v).get? k2 = o.get? k2 := by
  unfold Record.define Record.get?
  by_cases h : o.any (fun kv => kv.1 == k) = true
  · rw [if_pos h, lookup_map_replace_other k v k2 hk]
  · rw [if_neg h, List.lookup_append]
    have hb : (k2 == k) = false := by
      rw [beq_eq_false_iff_ne]
      exact hk
    simp [List.lookup_cons, hb]

theorem normalizeRaceRow_team (r : Record) :
    (normalizeRaceRow r).get? "__team".toList = some (pickTeamFromRaceRow r) := by
  unfold normalizeRaceRow
  rw [Record.get?_define_other _ _ _ _ (by decide), Record.get?_define_self]

theorem normalizeRaceRow_get (r : Record) (k : Str) (h1 : k ≠ "__team".toList)
    (h2 : k ≠ "__pts".toList) : (normalizeRaceRow r).get? k = r.get? k := by
  unfold normalizeRaceRow
  rw [Record.get?_define_other _ _ _ _ h2, Record.get?_define_other _ _ _ _ h1]

/-- The text searched for a normalized Record, in terms of the Record it was
made from. -/
theorem raceSearchText_normalize (T : CaseTables) (r : Record) :
    raceSearchText T (normalizeRaceRow r)
      = toLowerCase T (List.intercalate [' ']
          [(r.get? "Driver Name".toList).getD [], (r.get? "EA / RaceNet ID".toList).getD [],
            pickTeamFromRaceRow r,
            (r.get? "Notes".toList).getD [], (r.get? "Finish Status".toList).getD []]) := by
  unfold raceSearchText joinSpace
  rw [normalizeRaceRow_team, normalizeRaceRow_get r _ (by decide) (by decide),
    normalizeRaceRow_get r _ (by decide) (by decide),
    normalizeRaceRow_get r _ (by decide) (by decide),
    normalizeRaceRow_get r _ (by decide) (by decide)]
  rfl

theorem lowerFrom_eq_nil (T : CaseTables) (before s : List Char) :
    lowerFrom T before s = [] ↔ s = [] := by
  constructor
  · intro h
    cases s with
    | nil => rfl
    | cons c rest =>
      exfalso
      unfold lowerFrom at h
      have h1 := (List.append_eq_nil.mp h).1
      split at h1
      · exact List.cons_ne_nil _ _ h1
      · exact T.lower_ne_nil c h1
  · rintro rfl
    rfl

theorem toLowerCase_eq_nil (T : CaseTables) (s : Str) : toLowerCase T s = [] ↔ s = [] :=
  lowerFrom_eq_nil T [] s

/-- The Records shown are the normalized copies of those the reference
retains. -/
theorem renderRaceTable_eq_reference (T : CaseTables) (q : Str) (rows : List Record) :
    renderRaceTable T (some q) rows = (raceFilterReference T q rows).map normalizeRaceRow := by
  have hq : (jsOr (some q) (some [])).getD [] = q := by
    cases q with
    | nil => rfl
    | cons a b => rfl
  unfold renderRaceTable raceFilterReference
  rw [hq]
  by_cases ht : trim q = []
  · rw [if_pos ht, if_neg (by rw [ht]; exact fun h => h rfl)]
  · rw [if_neg ht, if_pos (fun h => ht ((toLowerCase_eq_nil T _).mp h)), List.filter_map]
    congr 1
    apply List.filter_congr
    intro r _
    simp only [Function.comp, includes]
    rw [raceSearchText_normalize, pickTeamFromRaceRow_eq]

theorem renderRaceTable_absent (T : CaseTables) (rows : List Record) :
    renderRaceTable T none rows = rows.map normalizeRaceRow := by
  unfold renderRaceTable
  have hq : (jsOr none (some [])).getD [] = ([] : Str) := rfl
  rw [hq]
  have : toLowerCase T (trim []) = [] := rfl
  rw [if_neg (fun h => h this)]

/-- C13: for every list of race Records and every query text the Records that
`renderRaceTable` displays are, in input order, those of the reference
definition: all of them when the trimmed query is empty, else exactly those
whose five searched fields, joined with single spaces and lower-cased, contain
the lower-cased trimmed query.  The query `red` retains a Record whose team is
`Red Bull`. -/
theorem renderRaceTable_reference :
    (∀ (T : CaseTables) (q : Str) (rows : List Record),
        renderRaceTable T (some q) rows
          = (raceFilterReference T q rows).map normalizeRaceRow) ∧
      (∀ (T : CaseTables) (rows : List Record),
        renderRaceTable T none rows = rows.map normalizeRaceRow) ∧
      raceFilterReference asciiCaseTables "red".toList
          [[("Driver Name".toList, "Max".toList), ("Team".toList, "Red Bull".toList)],
            [("Driver Name".toList, "Kevin".toList), ("Team".toList, "Haas".toList)]]
        = [[("Driver Name".toList, "Max".toList), ("Team".toList, "Red Bull".toList)]] ∧
      renderRaceTable asciiCaseTables (some "red".toList)
          [[("Driver Name".toList, "Max".toList), ("Team".toList, "Red Bull".toList)],
            [("Driver Name".toList, "Kevin".toList), ("Team".toList, "Haas".toList)]]
        = [normalizeRaceRow
            [("Driver Name".toList, "Max".toList), ("Team".toList, "Red Bull".toList)]] :=
  ⟨renderRaceTable_eq_reference, renderRaceTable_absent, by decide, by decide⟩
/-! ### C19: the filter field by field -/

theorem nextIsCased_append_space (T : CaseTables) (x b : List Char) :
    nextIsCased T (x ++ ' ' :: b) = nextIsCased T x := by
  induction x with
  | nil =>
    simp [nextIsCased, T.caseIgnorable_space, T.cased_space]
  | cons y x ih =>
    rw [List.cons_append, nextIsCased, nextIsCased, ih]

theorem isFinalSigma_after_space (T : CaseTables) (before x b : List Char) :
    isFinalSigma T before (x ++ ' ' :: b) = isFinalSigma T before x := by
  unfold isFinalSigma
  rw [nextIsCased_append_space]

theorem isFinalSigma_before_space (T : CaseTables) (pre X after : List Char) :
    isFinalSigma T (pre ++ ' ' :: X) after = isFinalSigma T pre after := by
  unfold isFinalSigma
  rw [nextIsCased_append_space]

theorem lowerFrom_nil (T : CaseTables) (before : List Char) : lowerFrom T before [] = [] := by
  unfold lowerFrom
  rfl

theorem lowerFrom_cons (T : CaseTables) (before : List Char) (c : Char) (rest : List Char) :
    lowerFrom T before (c :: rest)
      = (if c = Char.ofNat 0x3A3 ∧ isFinalSigma T before rest = true then [Char.ofNat 0x3C2]
          else T.lower c) ++ lowerFrom T (c :: before) rest := by
  rw [lowerFrom]

/-- What precedes a space has no effect on the lowering of what follows it. -/
theorem lowerFrom_before_space (T : CaseTables) (X b : List Char) :
    ∀ pre : List Char, lowerFrom T (pre ++ ' ' :: X) b = lowerFrom T pre b := by
  induction b with
  | nil =>
    intro pre
    rw [lowerFrom_nil, lowerFrom_nil]
  | cons c b ih =>
    intro pre
    rw [lowerFrom_cons, lowerFrom_cons, isFinalSigma_before_space, ← List.cons_append,
      ih (c :: pre)]

/-- Lowering goes through a space: each side is lowered on its own. -/
theorem lowerFrom_append_space (T : CaseTables) (b : List Char) :
    ∀ a before : List Char,
      lowerFrom T before (a ++ ' ' :: b) = lowerFrom T before a ++ ' ' :: lowerFrom T [] b := by
  intro a
  induction a with
  | nil =>
    intro before
    have hs : ¬ ((' ' : Char) = Char.ofNat 0x3A3 ∧ isFinalSigma T before b = true) :=
      fun h => absurd h.1 (by decide)
    have := lowerFrom_before_space T before b []
    rw [List.nil_append] at this
    rw [List.nil_append, lowerFrom_cons, if_neg hs, T.lower_space, this, lowerFrom_nil]
    rfl
  | cons c a ih =>
    intro before
    rw [List.cons_append, lowerFrom_cons T before c (a ++ ' ' :: b), isFinalSigma_after_space,
      ih (c :: before), lowerFrom_cons T before c a, List.append_assoc]

theorem toLowerCase_append_space (T : CaseTables) (a b : Str) :
    toLowerCase T (a ++ ' ' :: b) = toLowerCase T a ++ ' ' :: toLowerCase T b :=
  lowerFrom_append_space T b a []

theorem intercalate_space_cons_cons (f g : Str) (l : List Str) :
    List.intercalate [' '] (f :: g :: l) = f ++ ' ' :: List.intercalate [' '] (g :: l) := by
  simp [List.intercalate, List.intersperse]

/-- Lowering fields joined with single spaces is joining the lowered fields. -/
theorem toLowerCase_intercalate (T : CaseTables) (fs : List Str) :
    toLowerCase T (List.intercalate [' '] fs)
      = List.intercalate [' '] (fs.map (toLowerCase T)) := by
  induction fs with
  | nil => rfl
  | cons f fs ih =>
    cases fs with
    | nil => simp [List.intercalate]
    | cons g l =>
      have hm : (f :: g :: l).map (toLowerCase T)
          = toLowerCase T f :: toLowerCase T g :: l.map (toLowerCase T) := rfl
      have hm2 : (g :: l).map (toLowerCase T)
          = toLowerCase T g :: l.map (toLowerCase T) := rfl
      rw [intercalate_space_cons_cons, toLowerCase_append_space, ih, hm, hm2,
        intercalate_space_cons_cons]

/-- Lowering a text without a space gives a text without a space. -/
theorem lowerFrom_no_space (T : CaseTables) (s : List Char) :
    ∀ before : List Char, ' ' ∉ s → ' ' ∉ lowerFrom T before s := by
  induction s with
  | nil =>
    intro before _ h
    simp [lowerFrom] at h
  | cons c s ih =>
    intro before hs h
    have hc : c ≠ ' ' := fun e => hs (by simp [e])
    unfold lowerFrom at h
    rcases List.mem_append.mp h with h1 | h1
    · split at h1
      · have : (' ' : Char) = Char.ofNat 0x3C2 := List.mem_singleton.mp h1
        exact absurd this (by decide)
      · exact hc (T.space_of_mem_lower c h1)
    · exact ih (c :: before) (fun e => hs (List.mem_cons_of_mem _ e)) h1

theorem prefix_of_prefix_append_sep (q a b : List Char) (c : Char) (hc : c ∉ q)
    (h : q <+: a ++ c :: b) : q <+: a := by
  have h2 : a ++ [c] <+: a ++ c :: b := ⟨b, by simp⟩
  rcases List.prefix_or_prefix_of_prefix h h2 with h3 | h3
  · rcases List.prefix_concat_iff.mp (by simpa [List.concat_eq_append] using h3) with h4 | h4
    · exfalso
      apply hc
      rw [h4]
      simp
    · exact h4
  · exfalso
    apply hc
    obtain ⟨t, ht⟩ := h3
    rw [← ht]
    simp

/-- A text without the separator that occurs in `a`, separator, `b` occurs in
`a` or in `b`. -/
theorem infix_of_infix_append_sep (q b : List Char) (c : Char) (hc : c ∉ q) :
    ∀ a : List Char, q <:+: a ++ c :: b → q <:+: a ∨ q <:+: b := by
  intro a
  induction a with
  | nil =>
    intro h
    rw [List.nil_append, List.infix_cons_iff] at h
    rcases h with h | h
    · left
      have := prefix_of_prefix_append_sep q [] b c hc (by simpa using h)
      exact this.isInfix
    · exact Or.inr h
  | cons x a ih =>
    intro h
    rw [List.cons_append, List.infix_cons_iff] at h
    rcases h with h | h
    · left
      have := prefix_of_prefix_append_sep q (x :: a) b c hc (by simpa using h)
      exact this.isInfix
    · rcases ih h with h2 | h2
      · exact Or.inl (List.infix_cons h2)
      · exact Or.inr h2

/-- A text without a space occurs in fields joined with single spaces exactly
when it occurs in one of the fields (for at least one field). -/
theorem infix_intercalate_space (q : List Char) (hq : ' ' ∉ q) (fs : List Str) (hne : fs ≠ []) :
    q <:+: List.intercalate [' '] fs ↔ ∃ f ∈ fs, q <:+: f := by
  induction fs with
  | nil => exact absurd rfl hne
  | cons f fs ih =>
    cases fs with
    | nil => simp [List.intercalate]
    | cons g l =>
      rw [intercalate_space_cons_cons]
      constructor
      · intro h
        rcases infix_of_infix_append_sep q _ ' ' hq f h with h1 | h1
        · exact ⟨f, List.mem_cons_self _ _, h1⟩
        · obtain ⟨f2, hf2, h2⟩ := (ih (List.cons_ne_nil _ _)).mp h1
          exact ⟨f2, List.mem_cons_of_mem _ hf2, h2⟩
      · rintro ⟨f2, hf2, h2⟩
        rcases List.mem_cons.mp hf2 with rfl | hf3
        · obtain ⟨s, u, hsu⟩ := h2
          exact ⟨s, u ++ ' ' :: List.intercalate [' '] (g :: l), by simp [← hsu]⟩
        · obtain ⟨s, u, hsu⟩ := (ih (List.cons_ne_nil _ _)).mpr ⟨f2, hf3, h2⟩
          exact ⟨f ++ ' ' :: s, u, by simp [← hsu]⟩

/-- With a non-empty trimmed query a single Record is shown exactly when its
searched text contains the lowered query. -/
theorem renderRaceTable_single (T : CaseTables) (q : Str) (r : Record) (hq : trim q ≠ []) :
    renderRaceTable T (some q) [r] = [normalizeRaceRow r] ↔
      toLowerCase T (trim q) <:+: toLowerCase T (List.intercalate [' '] (searchedFields r)) := by
  have hj : (jsOr (some q) (some [])).getD [] = q := by
    cases q with
    | nil => rfl
    | cons a b => rfl
  unfold renderRaceTable
  rw [hj, if_pos (fun h => hq ((toLowerCase_eq_nil T _).mp h))]
  simp only [List.map_cons, List.map_nil, List.filter_cons, List.filter_nil, includes]
  rw [raceSearchText_normalize]
  unfold searchedFields
  by_cases h : toLowerCase T (trim q) <:+:
      toLowerCase T (List.intercalate [' ']
        [(r.get? "Driver Name".toList).getD [], (r.get? "EA / RaceNet ID".toList).getD [],
          pickTeamFromRaceRow r, (r.get? "Notes".toList).getD [],
          (r.get? "Finish Status".toList).getD []])
  · simp [h]
  · simp [h]

/-- C19: for every race Record and every query whose trimmed form is
non-empty and holds no space, the filter retains the Record exactly when one
of the five searched fields on its own contains the lower-cased trimmed query
once lower-cased; and for a query with a space (`a b`) there is a Record (driver
name `a`, RaceNet ID `b`) that is retained although none of its searched
fields contains the query. -/
theorem renderRaceTable_fieldwise :
    (∀ (T : CaseTables) (q : Str) (r : Record), trim q ≠ [] → ' ' ∉ trim q →
        (renderRaceTable T (some q) [r] = [normalizeRaceRow r] ↔
          ∃ f ∈ searchedFields r, toLowerCase T (trim q) <:+: toLowerCase T f)) ∧
      (' ' ∈ trim "a b".toList ∧
        renderRaceTable asciiCaseTables (some "a b".toList)
            [[("Driver Name".toList, "a".toList), ("EA / RaceNet ID".toList, "b".toList)]]
          = [normalizeRaceRow
              [("Driver Name".toList, "a".toList), ("EA / RaceNet ID".toList, "b".toList)]] ∧
        ∀ f ∈ searchedFields
            [("Driver Name".toList, "a".toList), ("EA / RaceNet ID".toList, "b".toList)],
          ¬ toLowerCase asciiCaseTables (trim "a b".toList) <:+: toLowerCase asciiCaseTables f) := by
  refine ⟨fun T q r hq hs => ?_, by decide, by decide, by decide⟩
  have hns : ' ' ∉ toLowerCase T (trim q) := lowerFrom_no_space T _ [] hs
  rw [renderRaceTable_single T q r hq, toLowerCase_intercalate,
    infix_intercalate_space (toLowerCase T (trim q)) hns _ (by simp [searchedFields])]
  constructor
  · rintro ⟨f, hf, h⟩
    obtain ⟨g, hg, rfl⟩ := List.mem_map.mp hf
    exact ⟨g, hg, h⟩
  · rintro ⟨g, hg, h⟩
    exact ⟨_, List.mem_map_of_mem _ hg, h⟩

/-- C19 at the query `bull` and a Record whose team is `Red Bull`. -/
theorem renderRaceTable_fieldwise_witness :
    trim " bull".toList ≠ [] ∧ ' ' ∉ trim " bull".toList ∧
      (renderRaceTable asciiCaseTables (some " bull".toList)
          [[("Driver Name".toList, "Max".toList), ("Team".toList, "Red Bull".toList)]]
          = [normalizeRaceRow
              [("Driver Name".toList, "Max".toList), ("Team".toList, "Red Bull".toList)]] ↔
        ∃ f ∈ searchedFields
            [("Driver Name".toList, "Max".toList), ("Team".toList, "Red Bull".toList)],
          toLowerCase asciiCaseTables (trim " bull".toList) <:+: toLowerCase asciiCaseTables f) :=
  ⟨by decide, by decide, renderRaceTable_fieldwise.1 asciiCaseTables _ _ (by decide) (by decide)⟩

/-! ### C20: repeated header names -/

theorem Record.set_eq_define (o : Record) (k v : Str) (hk : k ≠ "__proto__".toList) :
    o.set k v = o.define k v := by
  unfold Record.set Record.define
  rw [if_neg hk]

theorem Record.get?_set_self (o : Record) (k v : Str) (hk : k ≠ "__proto__".toList) :
    (o.set k v).get? k = some v := by
  rw [Record.set_eq_define o k v hk, Record.get?_define_self]

theorem Record.get?_set_other (o : Record) (k v k2 : Str) (hk : k2 ≠ k) :
    (o.set k v).get? k2 = o.get? k2 := by
  by_cases hp : k = "__proto__".toList
  · unfold Record.set
    rw [if_pos hp]
  · rw [Record.set_eq_define o k v hp, Record.get?_define_other o k v k2 hk]

theorem forEachHeader_append (r : List Str) (a b : List Str) :
    ∀ (idx : Nat) (obj : Record),
      forEachHeader r (a ++ b) idx obj
        = forEachHeader r b (idx + a.length) (forEachHeader r a idx obj) := by
  induction a with
  | nil =>
    intro idx obj
    simp [forEachHeader]
  | cons h a ih =>
    intro idx obj
    rw [List.cons_append, forEachHeader, forEachHeader, ih]
    congr 1
    simp
    omega

/-- Header cells of other names leave a property as it reads. -/
theorem forEachHeader_get?_of_not_mem (r : List Str) (k : Str) :
    ∀ (hs : List Str) (idx : Nat) (obj : Record), k ∉ hs →
      (forEachHeader r hs idx obj).get? k = obj.get? k := by
  intro hs
  induction hs with
  | nil =>
    intro idx obj _
    rfl
  | cons h hs ih =>
    intro idx obj hk
    rw [forEachHeader, ih _ _ (fun e => hk (List.mem_cons_of_mem _ e)),
      Record.get?_set_other _ _ _ _ (fun e => hk (by simp [e]))]

/-- Under a repeated header name other than `__proto__` the Record holds the
trimmed cell of the last column of that name (the empty string when the row
does not reach it). -/
theorem rowToObject_get_last (r pre post : List Str) (k : Str)
    (hk : k ≠ "__proto__".toList) (hlast : k ∉ post) :
    (rowToObject (pre ++ k :: post) r).get? k = some (trim (r[pre.length]?.getD [])) := by
  unfold rowToObject
  rw [forEachHeader_append, forEachHeader, forEachHeader_get?_of_not_mem r k post _ _ hlast,
    Record.get?_set_self _ _ _ hk]
  simp

theorem Record.keys_set (o : Record) (k v : Str) :
    (o.set k v).keys = o.keys ∨ (k ∉ o.keys ∧ (o.set k v).keys = o.keys ++ [k]) := by
  unfold Record.set
  by_cases hp : k = "__proto__".toList
  · left
    rw [if_pos hp]
  · rw [if_neg hp]
    by_cases h : o.any (fun kv => kv.1 == k) = true
    · left
      rw [if_pos h]
      unfold Record.keys
      rw [List.map_map]
      apply List.map_congr_left
      intro kv _
      by_cases hkv : kv.1 = k
      · simp [hkv]
      · simp [hkv]
    · right
      rw [if_neg h]
      constructor
      · intro hm
        apply h
        unfold Record.keys at hm
        obtain ⟨kv, hkv, rfl⟩ := List.mem_map.mp hm
        exact List.any_eq_true.mpr ⟨kv, hkv, by simp⟩
      · simp [Record.keys]

/-- The property names of the object built by `forEach` are pairwise distinct
and are names of the object it started from or header cells. -/
theorem forEachHeader_keys (r : List Str) :
    ∀ (hs : List Str) (idx : Nat) (obj : Record), obj.keys.Nodup →
      (forEachHeader r hs idx obj).keys.Nodup ∧
        ∀ k ∈ (forEachHeader r hs idx obj).keys, k ∈ obj.keys ∨ k ∈ hs := by
  intro hs
  induction hs with
  | nil =>
    intro idx obj hnd
    exact ⟨hnd, fun k hk => Or.inl hk⟩
  | cons h hs ih =>
    intro idx obj hnd
    rw [forEachHeader]
    have hset : (obj.set h (trim (r[idx]?.getD []))).keys.Nodup ∧
        ∀ k ∈ (obj.set h (trim (r[idx]?.getD []))).keys, k ∈ obj.keys ∨ k = h := by
      rcases Record.keys_set obj h (trim (r[idx]?.getD [])) with he | ⟨hn, he⟩
      · rw [he]
        exact ⟨hnd, fun k hk => Or.inl hk⟩
      · rw [he]
        refine ⟨?_, ?_⟩
        · rw [List.nodup_append]
          refine ⟨hnd, List.nodup_singleton _, ?_⟩
          intro a ha hb
          rw [List.mem_singleton] at hb
          exact hn (hb ▸ ha)
        · intro k hk
          rcases List.mem_append.mp hk with hk | hk
          · exact Or.inl hk
          · exact Or.inr (List.mem_singleton.mp hk)
    obtain ⟨h1, h2⟩ := ih (idx + 1) _ hset.1
    refine ⟨h1, fun k hk => ?_⟩
    rcases h2 k hk with h3 | h3
    · rcases hset.2 k h3 with h4 | h4
      · exact Or.inl h4
      · exact Or.inr (by simp [h4])
    · exact Or.inr (List.mem_cons_of_mem _ h3)

/-- With a repeated header name the Record has fewer properties than the
header has cells. -/
theorem rowToObject_keys_lt (headers r : List Str) (hdup : ¬ headers.Nodup) :
    (rowToObject headers r).keys.length < headers.length := by
  obtain ⟨hnd, hsub⟩ := forEachHeader_keys r headers 0 [] (by simp [Record.keys])
  have hsub2 : (rowToObject headers r).keys ⊆ headers.dedup := by
    intro k hk
    rcases hsub k hk with h | h
    · simp [Record.keys] at h
    · exact List.mem_dedup.mpr h
  have h1 : (rowToObject headers r).keys.length ≤ headers.dedup.length :=
    (List.Nodup.subperm hnd hsub2).length_le
  have h2 : headers.dedup.length < headers.length := by
    rcases Nat.lt_or_ge headers.dedup.length headers.length with h | h
    · exact h
    · exfalso
      apply hdup
      have heq := (List.dedup_sublist headers).eq_of_length_le h
      rw [← heq]
      exact List.nodup_dedup headers
  omega

/-- C20, the code at the rows `[["__proto__", "__proto__"], ["x", "y"]]` (the
text `__proto__,__proto__\nx,y`): two header cells are equal and the data row
is emitted, yet the Record stores nothing under that name, where the claim
asks for the trimmed cell `y` of the last such column. -/
theorem rowsToObjects_repeated_proto_header :
    parseCsv "__proto__,__proto__\nx,y".toList
        = some [["__proto__".toList, "__proto__".toList], ["x".toList, "y".toList]] ∧
      rowsToObjects [["__proto__".toList, "__proto__".toList], ["x".toList, "y".toList]] = [[]] ∧
      (rowToObject ["__proto__".toList, "__proto__".toList] ["x".toList, "y".toList]).get?
          "__proto__".toList = none ∧
      rowsToObjects [["A".toList, " A".toList, "B".toList], ["x".toList, "y".toList]]
        = [[("A".toList, "y".toList), ("B".toList, [])]] := by
  decide

/-! ### C11: the positions -/

/-- An insertion puts the element after the leading elements of greater key. -/
theorem sortInsert_eq_takeWhile {α : Type} (cmp : α → α → JSNumber) (key : α → ℚ)
    (hcmp : ∀ a b, (cmp a b).isPositive = decide (key a < key b)) (a : α) (s : List α) :
    sortInsert cmp a s
      = s.takeWhile (fun y => decide (key a < key y)) ++
          a :: s.dropWhile (fun y => decide (key a < key y)) := by
  induction s with
  | nil => rfl
  | cons b s ih =>
    unfold sortInsert
    by_cases hab : key a < key b
    · rw [if_pos (by rw [hcmp]; exact decide_eq_true hab), ih]
      simp [List.takeWhile_cons, List.dropWhile_cons, hab]
    · rw [if_neg (by rw [hcmp]; simpa using hab)]
      simp [List.takeWhile_cons, List.dropWhile_cons, hab]

/-- In a list of non-increasing keys nothing after the leading elements of
key greater than `v` has a key greater than `v`. -/
theorem dropWhile_not_gt {α : Type} (key : α → ℚ) (v : ℚ) (s : List α)
    (hs : s.Pairwise fun x y => key y ≤ key x) :
    ∀ y ∈ s.dropWhile (fun y => decide (v < key y)), ¬ v < key y := by
  induction s with
  | nil =>
    intro y hy
    simp at hy
  | cons b s ih =>
    have hb := List.pairwise_cons.mp hs
    by_cases hvb : v < key b
    · have e : (b :: s).dropWhile (fun y => decide (v < key y))
          = s.dropWhile (fun y => decide (v < key y)) := by
        simp [List.dropWhile_cons, hvb]
      rw [e]
      exact ih hb.2
    · have e : (b :: s).dropWhile (fun y => decide (v < key y)) = b :: s := by
        simp [List.dropWhile_cons, hvb]
      rw [e]
      intro y hy
      rcases List.mem_cons.mp hy with rfl | hy
      · exact hvb
      · exact fun h => hvb (lt_of_lt_of_le h (hb.1 y hy))

/-- The place of an element after an insertion before or after it. -/
theorem getElem?_insert_between {α : Type} (p : α → Prop) (T D : List α) (a x : α) (n : Nat)
    (hT : ∀ y ∈ T, p y) (hD : ∀ y ∈ D, ¬ p y) (hx : (T ++ D)[n]? = some x) :
    (p x → (T ++ a :: D)[n]? = some x) ∧ (¬ p x → (T ++ a :: D)[n + 1]? = some x) := by
  by_cases hn : n < T.length
  · rw [List.getElem?_append_left hn] at hx
    have hpx : p x := hT x (List.getElem?_mem hx)
    refine ⟨fun _ => ?_, fun h => absurd hpx h⟩
    rw [List.getElem?_append_left hn]
    exact hx
  · have hle : T.length ≤ n := by omega
    rw [List.getElem?_append_right hle] at hx
    have hpx : ¬ p x := hD x (List.getElem?_mem hx)
    refine ⟨fun h => absurd h hpx, fun _ => ?_⟩
    rw [List.getElem?_append_right (by omega)]
    have : n + 1 - T.length = (n - T.length) + 1 := by omega
    rw [this, List.getElem?_cons_succ]
    exact hx

theorem countP_eq_length_takeWhile {α : Type} (p : α → Bool) (s : List α)
    (hD : ∀ y ∈ s.dropWhile p, p y = false) : s.countP p = (s.takeWhile p).length := by
  conv_lhs => rw [← List.takeWhile_append_dropWhile p s]
  rw [List.countP_append]
  have h1 : (s.takeWhile p).countP p = (s.takeWhile p).length := by
    rw [List.countP_eq_length]
    intro y hy
    exact List.mem_takeWhile_imp hy
  have h2 : (s.dropWhile p).countP p = 0 := by
    rw [List.countP_eq_zero]
    intro y hy
    rw [hD y hy]
    exact Bool.false_ne_true
  rw [h1, h2, Nat.add_zero]

/-- The stable descending sort puts the element of input index `i` at the
index given by the number of elements of greater key plus the number of
earlier elements of equal key. -/
theorem arraySort_getElem?_rankOf {α : Type} (cmp : α → α → JSNumber) (key : α → ℚ)
    (hcmp : ∀ a b, (cmp a b).isPositive = decide (key a < key b)) :
    ∀ (l : List α) (i : Nat) (x : α), l[i]? = some x →
      (arraySort cmp l)[rankOf key l i x]? = some x := by
  intro l
  induction l with
  | nil =>
    intro i x h
    simp at h
  | cons a l ih =>
    intro i x h
    have hsorted := arraySort_sorted cmp key hcmp l
    have hperm := arraySort_perm cmp l
    have hD := dropWhile_not_gt key (key a) (arraySort cmp l) hsorted
    have hT : ∀ y ∈ (arraySort cmp l).takeWhile (fun y => decide (key a < key y)),
        key a < key y := by
      intro y hy
      have := List.mem_takeWhile_imp hy
      simpa using this
    have hsplit := List.takeWhile_append_dropWhile (fun y => decide (key a < key y))
      (arraySort cmp l)
    rw [arraySort, sortInsert_eq_takeWhile cmp key hcmp]
    cases i with
    | zero =>
      simp only [List.getElem?_cons_zero, Option.some.injEq] at h
      subst h
      have hk : rankOf key (a :: l) 0 a
          = ((arraySort cmp l).takeWhile (fun y => decide (key a < key y))).length := by
        unfold rankOf
        rw [List.take_zero, List.countP_nil, Nat.add_zero, List.countP_cons_of_neg]
        · rw [← hperm.countP_eq, countP_eq_length_takeWhile]
          intro y hy
          simpa using hD y hy
        · simp
      rw [hk, List.getElem?_append_right (le_refl _)]
      simp
    | succ j =>
      rw [List.getElem?_cons_succ] at h
      have hih := ih j x h
      rw [← hsplit] at hih
      have hboth := getElem?_insert_between (fun y => key a < key y) _ _ a x _ hT hD hih
      by_cases hax : key a < key x
      · have hr : rankOf key (a :: l) (j + 1) x = rankOf key l j x := by
          unfold rankOf
          rw [List.take_succ_cons, List.countP_cons_of_neg, List.countP_cons_of_neg]
          · simpa using ne_of_lt hax
          · simpa using le_of_lt hax
        rw [hr]
        exact hboth.1 hax
      · have hr : rankOf key (a :: l) (j + 1) x = rankOf key l j x + 1 := by
          unfold rankOf
          rw [List.take_succ_cons]
          rcases lt_or_eq_of_le (not_lt.mp hax) with hlt | heq
          · rw [List.countP_cons_of_pos, List.countP_cons_of_neg]
            · omega
            · simpa using ne_of_gt hlt
            · simpa using hlt
          · rw [List.countP_cons_of_neg, List.countP_cons_of_pos]
            · omega
            · simpa using heq.symm
            · simpa using le_of_eq heq.symm
        rw [hr]
        exact hboth.2 hax

theorem assignPositionsFrom_pos (l : List Record) :
    ∀ i : Nat, (assignPositionsFrom i l).map (fun x => x.pos) = List.range' (i + 1) l.length := by
  induction l with
  | nil =>
    intro i
    rfl
  | cons r l ih =>
    intro i
    simp only [assignPositionsFrom, List.map_cons, List.length_cons, List.range'_succ]
    rw [ih (i + 1)]

theorem assignPositionsFrom_getElem? (l : List Record) :
    ∀ i p : Nat, (assignPositionsFrom i l)[p]? = (l[p]?).map fun r => ⟨r, i + p + 1⟩ := by
  induction l with
  | nil =>
    intro i p
    simp [assignPositionsFrom]
  | cons r l ih =>
    intro i p
    cases p with
    | zero => simp [assignPositionsFrom]
    | succ p =>
      simp only [assignPositionsFrom, List.getElem?_cons_succ]
      rw [ih (i + 1) p]
      congr 1
      funext r
      congr 1
      omega

theorem totalComparator_total (a b : Record) :
    (totalComparator "Total".toList a b).isPositive = decide (totalOf a < totalOf b) :=
  totalComparator_isPositive "Total".toList a b

/-- The positions are 1 to the number of Records, in the order of the ranking. -/
theorem rankByTotal_pos (rows : List Record) :
    (rankByTotal rows).map (fun x => x.pos) = List.range' 1 rows.length := by
  unfold rankByTotal
  rw [assignPositionsFrom_pos]
  have : (sortByTotalDesc rows "Total".toList).length = rows.length := by
    unfold sortByTotalDesc
    exact (arraySort_perm _ rows).length_eq
  rw [this]

/-- The Record of input index `i` stands in the ranking at the index counted
by `rankOf`, with the position one more. -/
theorem rankByTotal_getElem? (rows : List Record) (i : Nat) (x : Record)
    (h : rows[i]? = some x) :
    (rankByTotal rows)[rankOf totalOf rows i x]?
      = some ⟨x, rankOf totalOf rows i x + 1⟩ := by
  unfold rankByTotal
  rw [assignPositionsFrom_getElem?]
  have := arraySort_getElem?_rankOf (totalComparator "Total".toList) totalOf
    totalComparator_total rows i x h
  unfold sortByTotalDesc
  rw [this]
  simp

/-- The digits, periods and minus signs of a run of digits are the run itself. -/
theorem stripNonNumeric_digits (ds : List Char) (h : ∀ c ∈ ds, c.isDigit = true) :
    stripNonNumeric ds = ds := by
  unfold stripNonNumeric
  rw [List.filter_eq_self]
  intro c hc
  simp [h c hc]

/-- The total of a Record whose `Total` is a run of digits of value below
`2 ^ 53` is that value. -/
theorem totalOf_digits (r : Record) (ds : List Char) (n : ℕ)
    (hr : r.get? "Total".toList = some ds) (hne : ds ≠ [])
    (hd : ∀ c ∈ ds, c.isDigit = true) (hn : digitsValue ds = n) (hlt : n < 2 ^ 53) :
    totalOf r = n := by
  have hm := mathValue_numeralText false ds [] hne hd (by simp)
  have ht : numeralText false ds [] = ds := by simp [numeralText]
  have h0 : digitsValue [] = 0 := rfl
  have hv : numeralValue false ds [] = (n : ℚ) := by
    unfold numeralValue
    rw [hn, h0]
    simp
  rw [ht, hv] at hm
  have hdouble : toDouble (n : ℚ) = .finite n := by
    apply toDouble_of_isDouble
    refine ⟨n, 0, ?_, by norm_num, by norm_num, by simp⟩
    rw [abs_of_nonneg (by positivity)]
    exact_mod_cast hlt
  unfold totalOf toNumberSafe stringToNumber
  rw [hr]
  simp only [Option.getD_some]
  rw [stripNonNumeric_digits ds hd, hm]
  simp only
  rw [hdouble]
  simp [JSNumber.isFinite, JSNumber.value]

/-- The ranking of four Records with the totals 10, 30, 30 and 5. -/
theorem rankByTotal_example :
    rankByTotal [driverTotal "A" "10", driverTotal "B" "30", driverTotal "C" "30",
        driverTotal "D" "5"]
      = [⟨driverTotal "B" "30", 1⟩, ⟨driverTotal "C" "30", 2⟩, ⟨driverTotal "A" "10", 3⟩,
          ⟨driverTotal "D" "5", 4⟩] := by
  have hA : totalOf (driverTotal "A" "10") = (10 : ℕ) :=
    totalOf_digits _ "10".toList 10 (by decide) (by decide) (by decide) (by decide) (by norm_num)
  have hB : totalOf (driverTotal "B" "30") = (30 : ℕ) :=
    totalOf_digits _ "30".toList 30 (by decide) (by decide) (by decide) (by decide) (by norm_num)
  have hC : totalOf (driverTotal "C" "30") = (30 : ℕ) :=
    totalOf_digits _ "30".toList 30 (by decide) (by decide) (by decide) (by decide) (by norm_num)
  have hD : totalOf (driverTotal "D" "5") = (5 : ℕ) :=
    totalOf_digits _ "5".toList 5 (by decide) (by decide) (by decide) (by decide) (by norm_num)
  have hs : sortByTotalDesc [driverTotal "A" "10", driverTotal "B" "30", driverTotal "C" "30",
      driverTotal "D" "5"] "Total".toList
      = [driverTotal "B" "30", driverTotal "C" "30", driverTotal "A" "10",
          driverTotal "D" "5"] := by
    simp only [sortByTotalDesc, arraySort, sortInsert, totalComparator_total, hA, hB, hC, hD]
    norm_num
  unfold rankByTotal
  rw [hs]
  rfl

/-- C11 as stated fails in its example: Records with the totals 10, 30, 30 and
5, in that input order, receive the positions 3, 1, 2 and 4 (the total 10
ranks above the total 5), not 4, 1, 2 and 3. -/
theorem rankByTotal_example_positions :
    [driverTotal "A" "10", driverTotal "B" "30", driverTotal "C" "30", driverTotal "D" "5"].map
        (positionOf (rankByTotal [driverTotal "A" "10", driverTotal "B" "30",
          driverTotal "C" "30", driverTotal "D" "5"]))
        = [some 3, some 1, some 2, some 4] ∧
      [driverTotal "A" "10", driverTotal "B" "30", driverTotal "C" "30", driverTotal "D" "5"].map
        (positionOf (rankByTotal [driverTotal "A" "10", driverTotal "B" "30",
          driverTotal "C" "30", driverTotal "D" "5"]))
        ≠ [some 4, some 1, some 2, some 3] := by
  rw [rankByTotal_example]
  decide

/-- C11, amended: for every list of `n` Records the ranking carries the
positions 1 to `n`, each once and in order, and the Record of input index `i`
has the position 1 + the number of Records of strictly greater normalized
total + the number of Records of equal normalized total that precede it in
the input; Records with the totals 10, 30, 30 and 5, in that input order,
receive the positions 3, 1, 2 and 4. -/
theorem rankByTotal_positions :
    (∀ rows : List Record,
        (rankByTotal rows).map (fun x => x.pos) = List.range' 1 rows.length) ∧
      (∀ (rows : List Record) (i : Nat) (x : Record), rows[i]? = some x →
        (rankByTotal rows)[rankOf totalOf rows i x]?
          = some ⟨x, 1 + (rows.countP (fun y => decide (totalOf x < totalOf y))
              + (rows.take i).countP (fun y => decide (totalOf y = totalOf x)))⟩) ∧
      [driverTotal "A" "10", driverTotal "B" "30", driverTotal "C" "30", driverTotal "D" "5"].map
        (positionOf (rankByTotal [driverTotal "A" "10", driverTotal "B" "30",
          driverTotal "C" "30", driverTotal "D" "5"]))
        = [some 3, some 1, some 2, some 4] := by
  refine ⟨rankByTotal_pos, fun rows i x h => ?_, ?_⟩
  · rw [rankByTotal_getElem? rows i x h, Nat.add_comm 1]
    rfl
  · rw [rankByTotal_example]
    decide

/-- C11, amended, at the third of three Records: two Records have the same
total and stand before it, so that it is third. -/
theorem rankByTotal_positions_witness :
    [driverTotal "A" "7", driverTotal "B" "7", driverTotal "C" "7"][2]?
        = some (driverTotal "C" "7") ∧
      (rankByTotal [driverTotal "A" "7", driverTotal "B" "7", driverTotal "C" "7"])[
          rankOf totalOf [driverTotal "A" "7", driverTotal "B" "7", driverTotal "C" "7"] 2
            (driverTotal "C" "7")]?
        = some ⟨driverTotal "C" "7",
            1 + ([driverTotal "A" "7", driverTotal "B" "7", driverTotal "C" "7"].countP
                  (fun y => decide (totalOf (driverTotal "C" "7") < totalOf y))
              + ([driverTotal "A" "7", driverTotal "B" "7", driverTotal "C" "7"].take 2).countP
                  (fun y => decide (totalOf y = totalOf (driverTotal "C" "7"))))⟩ :=
  ⟨rfl, rankByTotal_positions.2.1 _ 2 _ rfl⟩

/-! ### C12: from the drivers text to the podium -/

theorem assignPositionsFrom_fields (l : List Record) :
    ∀ i : Nat, (assignPositionsFrom i l).map (fun x => x.fields) = l := by
  induction l with
  | nil =>
    intro i
    rfl
  | cons r l ih =>
    intro i
    simp only [assignPositionsFrom, List.map_cons]
    rw [ih (i + 1)]

theorem rankByTotal_fields (rows : List Record) :
    (rankByTotal rows).map (fun x => x.fields) = sortByTotalDesc rows "Total".toList :=
  assignPositionsFrom_fields _ 0

theorem rankByTotal_length (rows : List Record) : (rankByTotal rows).length = rows.length := by
  have := congrArg List.length (rankByTotal_pos rows)
  simpa using this

/-- In the ranking the totals never increase. -/
theorem rankByTotal_sorted (rows : List Record) :
    (rankByTotal rows).Pairwise fun x y => totalOf y.fields ≤ totalOf x.fields := by
  have h : (sortByTotalDesc rows "Total".toList).Pairwise
      fun x y => totalOf y ≤ totalOf x := by
    unfold sortByTotalDesc
    exact arraySort_sorted (totalComparator "Total".toList) totalOf totalComparator_total rows
  rw [← rankByTotal_fields, List.pairwise_map] at h
  exact h

/-- When every data row has a cell with content there is one Record for each
of them, built from it. -/
theorem rowsToObjects_of_content (header : List Str) (data : List (List Str))
    (h : ∀ r ∈ data, hasContent r = true) :
    rowsToObjects (header :: data) = data.map (rowToObject (header.map trim)) := by
  unfold rowsToObjects headerCells
  simp only [List.drop_succ_cons, List.drop_zero, List.head?_cons, Option.getD_some]
  rw [List.filter_eq_self.mpr h]

theorem take_range_one (k : Nat) :
    ∀ s n : Nat, (List.range' s n).take k = List.range' s (min k n) := by
  induction k with
  | zero =>
    intro s n
    simp
  | succ k ih =>
    intro s n
    cases n with
    | zero => simp
    | succ n =>
      rw [List.range'_succ, List.take_succ_cons, ih, Nat.succ_min_succ, List.range'_succ]

theorem renderPodium_ranks (top3 : List RankedRecord) :
    (renderPodium top3).ranks = top3.map fun x => x.pos := by
  unfold renderPodium
  by_cases h : top3.length = 0
  · rw [if_pos h, List.length_eq_zero.mp h]
    rfl
  · rw [if_neg h]
    simp [PodiumView.ranks]

/-- The podium of a drivers text with `n` data rows that all have content. -/
theorem topThree_spec (header : List Str) (data : List (List Str))
    (hcontent : ∀ r ∈ data, hasContent r = true) :
    (topThree (header :: data)).length = min 3 data.length ∧
      (topThree (header :: data)).map (fun x => x.pos) = List.range' 1 (min 3 data.length) ∧
      (renderPodium (topThree (header :: data))).ranks = List.range' 1 (min 3 data.length) ∧
      (topThree (header :: data)).Pairwise
        (fun x y => totalOf y.fields ≤ totalOf x.fields) ∧
      ∀ x ∈ topThree (header :: data),
        ∀ y ∈ (rankByTotal (rowsToObjects (header :: data))).drop 3,
          totalOf y.fields ≤ totalOf x.fields := by
  have hlen : (rowsToObjects (header :: data)).length = data.length := by
    rw [rowsToObjects_of_content header data hcontent, List.length_map]
  have hpos : (topThree (header :: data)).map (fun x => x.pos)
      = List.range' 1 (min 3 data.length) := by
    unfold topThree
    rw [List.map_take, rankByTotal_pos, hlen, take_range_one]
  have hsorted := rankByTotal_sorted (rowsToObjects (header :: data))
  refine ⟨?_, hpos, ?_, ?_, ?_⟩
  · have := congrArg List.length hpos
    simpa using this
  · rw [renderPodium_ranks, hpos]
  · unfold topThree
    exact hsorted.sublist (List.take_sublist _ _)
  · intro x hx y hy
    rw [← List.take_append_drop 3 (rankByTotal (rowsToObjects (header :: data)))] at hsorted
    exact (List.pairwise_append.mp hsorted).2.2 x hx y hy

/-- Under the header of the drivers sheet the total of the Record built from a
row is read from the third cell of the row. -/
theorem totalOf_rowToObject (r : List Str) (ds : List Char) (n : ℕ)
    (hcell : trim (r[2]?.getD []) = ds) (hne : ds ≠ [])
    (hd : ∀ c ∈ ds, c.isDigit = true) (hn : digitsValue ds = n) (hlt : n < 2 ^ 53) :
    totalOf (rowToObject ["Driver Name".toList, "Team (registered)".toList, "Total".toList] r)
      = n := by
  have hget := rowToObject_get
    ["Driver Name".toList, "Team (registered)".toList, "Total".toList] r (by decide)
    (by decide) 2 (by decide)
  rw [hcell] at hget
  exact totalOf_digits _ ds n hget hne hd hn hlt

/-- The three first of the ranking for data rows with the totals 25, 40
and 10, whatever their names and teams. -/
theorem topThree_example (header : List Str) (n1 t1 n2 t2 n3 t3 : Str)
    (hh : header.map trim
      = ["Driver Name".toList, "Team (registered)".toList, "Total".toList]) :
    topThree [header, [n1, t1, "25".toList], [n2, t2, "40".toList], [n3, t3, "10".toList]]
      = [⟨rowToObject (header.map trim) [n2, t2, "40".toList], 1⟩,
          ⟨rowToObject (header.map trim) [n1, t1, "25".toList], 2⟩,
          ⟨rowToObject (header.map trim) [n3, t3, "10".toList], 3⟩] := by
  have hc : ∀ r ∈ [[n1, t1, "25".toList], [n2, t2, "40".toList], [n3, t3, "10".toList]],
      hasContent r = true := by
    intro r hr
    simp only [List.mem_cons, List.mem_singleton, List.not_mem_nil, or_false] at hr
    rcases hr with rfl | rfl | rfl
    · exact (hasContent_iff _).mpr ⟨"25".toList, by simp, by decide⟩
    · exact (hasContent_iff _).mpr ⟨"40".toList, by simp, by decide⟩
    · exact (hasContent_iff _).mpr ⟨"10".toList, by simp, by decide⟩
  have h1 : totalOf (rowToObject (header.map trim) [n1, t1, "25".toList]) = (25 : ℕ) := by
    rw [hh]
    exact totalOf_rowToObject _ "25".toList 25
      (show trim "25".toList = "25".toList by decide) (by decide) (by decide) (by decide)
      (by norm_num)
  have h2 : totalOf (rowToObject (header.map trim) [n2, t2, "40".toList]) = (40 : ℕ) := by
    rw [hh]
    exact totalOf_rowToObject _ "40".toList 40
      (show trim "40".toList = "40".toList by decide) (by decide) (by decide) (by decide)
      (by norm_num)
  have h3 : totalOf (rowToObject (header.map trim) [n3, t3, "10".toList]) = (10 : ℕ) := by
    rw [hh]
    exact totalOf_rowToObject _ "10".toList 10
      (show trim "10".toList = "10".toList by decide) (by decide) (by decide) (by decide)
      (by norm_num)
  have hs : sortByTotalDesc
      [rowToObject (header.map trim) [n1, t1, "25".toList],
        rowToObject (header.map trim) [n2, t2, "40".toList],
        rowToObject (header.map trim) [n3, t3, "10".toList]] "Total".toList
      = [rowToObject (header.map trim) [n2, t2, "40".toList],
          rowToObject (header.map trim) [n1, t1, "25".toList],
          rowToObject (header.map trim) [n3, t3, "10".toList]] := by
    simp only [sortByTotalDesc, arraySort, sortInsert, totalComparator_total, h1, h2, h3]
    norm_num
  unfold topThree rankByTotal
  rw [rowsToObjects_of_content header _ hc]
  simp only [List.map_cons, List.map_nil]
  rw [hs]
  rfl

/-- The podium of a drivers text with the totals 25, 40 and 10. -/
theorem podiumOfCsv_example :
    podiumOfCsv
        "Driver Name,Team (registered),Total\nAda,Red,25\nBob,Blue,40\nCy,Green,10".toList
      = some (.rows [⟨1, "Bob".toList, "Blue".toList, "40".toList⟩,
          ⟨2, "Ada".toList, "Red".toList, "25".toList⟩,
          ⟨3, "Cy".toList, "Green".toList, "10".toList⟩]) := by
  have hp : parseCsv
      "Driver Name,Team (registered),Total\nAda,Red,25\nBob,Blue,40\nCy,Green,10".toList
      = some [["Driver Name".toList, "Team (registered)".toList, "Total".toList],
          ["Ada".toList, "Red".toList, "25".toList], ["Bob".toList, "Blue".toList, "40".toList],
          ["Cy".toList, "Green".toList, "10".toList]] := by decide
  unfold podiumOfCsv
  rw [hp]
  simp only [Option.map_some']
  rw [topThree_example _ _ _ _ _ _ _ (by decide)]
  decide

/-- Every Ranked Record of the drivers sheet is built from a data row, and its
`Total` is the trimmed third cell of that row. -/
theorem rankByTotal_total_cell (header : List Str) (data : List (List Str))
    (hh : header.map trim
      = ["Driver Name".toList, "Team (registered)".toList, "Total".toList])
    (hcontent : ∀ r ∈ data, hasContent r = true) :
    ∀ x ∈ rankByTotal (rowsToObjects (header :: data)),
      ∃ r ∈ data, x.fields = rowToObject (header.map trim) r ∧
        x.fields.get? "Total".toList = some (trim (r[2]?.getD [])) := by
  intro x hx
  have h1 : x.fields ∈ (rankByTotal (rowsToObjects (header :: data))).map fun y => y.fields :=
    List.mem_map_of_mem _ hx
  rw [rankByTotal_fields] at h1
  have h2 : x.fields ∈ rowsToObjects (header :: data) := by
    unfold sortByTotalDesc at h1
    exact (arraySort_perm _ _).mem_iff.mp h1
  rw [rowsToObjects_of_content header data hcontent] at h2
  obtain ⟨r, hr, hrx⟩ := List.mem_map.mp h2
  refine ⟨r, hr, hrx.symm, ?_⟩
  rw [← hrx, hh]
  exact rowToObject_get _ r (by decide) (by decide) 2 (by decide)

/-- C12: for every drivers text whose rows are the header
`Driver Name,Team (registered),Total` and `n` data rows that each have a
non-blank cell, the pipeline `parseCsv`, `rowsToObjects`, `sortByTotalDesc` on
`Total`, position assignment and `slice(0, 3)` hands `renderPodium` `min(3, n)`
Records, shown with the rank labels 1, 2, 3 in that order; their normalized
totals, each read from the third cell of a data row, never increase and are
each at least the total of every Record left out.  With the totals 25, 40 and
10 the podium lists the driver of 40 first, the driver of 25 second and the
driver of 10 third. -/
theorem podium_end_to_end :
    (∀ (text : Str) (header : List Str) (data : List (List Str)),
        parseCsv text = some (header :: data) →
        header.map trim
          = ["Driver Name".toList, "Team (registered)".toList, "Total".toList] →
        (∀ r ∈ data, ∃ cell ∈ r, trim cell ≠ []) →
        podiumOfCsv text = some (renderPodium (topThree (header :: data))) ∧
          (topThree (header :: data)).length = min 3 data.length ∧
          (renderPodium (topThree (header :: data))).ranks
            = List.range' 1 (min 3 data.length) ∧
          (topThree (header :: data)).Pairwise
            (fun x y => totalOf y.fields ≤ totalOf x.fields) ∧
          (∀ x ∈ topThree (header :: data),
            ∀ y ∈ (rankByTotal (rowsToObjects (header :: data))).drop 3,
              totalOf y.fields ≤ totalOf x.fields) ∧
          ∀ x ∈ rankByTotal (rowsToObjects (header :: data)),
            ∃ r ∈ data, x.fields = rowToObject (header.map trim) r ∧
              x.fields.get? "Total".toList = some (trim (r[2]?.getD []))) ∧
      (∀ (header : List Str) (n1 t1 n2 t2 n3 t3 : Str),
        header.map trim
          = ["Driver Name".toList, "Team (registered)".toList, "Total".toList] →
        topThree [header, [n1, t1, "25".toList], [n2, t2, "40".toList], [n3, t3, "10".toList]]
          = [⟨rowToObject (header.map trim) [n2, t2, "40".toList], 1⟩,
              ⟨rowToObject (header.map trim) [n1, t1, "25".toList], 2⟩,
              ⟨rowToObject (header.map trim) [n3, t3, "10".toList], 3⟩]) ∧
      podiumOfCsv
          "Driver Name,Team (registered),Total\nAda,Red,25\nBob,Blue,40\nCy,Green,10".toList
        = some (.rows [⟨1, "Bob".toList, "Blue".toList, "40".toList⟩,
            ⟨2, "Ada".toList, "Red".toList, "25".toList⟩,
            ⟨3, "Cy".toList, "Green".toList, "10".toList⟩]) := by
  refine ⟨fun text header data hp hh hc => ?_, topThree_example, podiumOfCsv_example⟩
  have hcontent : ∀ r ∈ data, hasContent r = true :=
    fun r hr => (hasContent_iff r).mpr (hc r hr)
  obtain ⟨h1, _, h3, h4, h5⟩ := topThree_spec header data hcontent
  refine ⟨?_, h1, h3, h4, h5, rankByTotal_total_cell header data hh hcontent⟩
  unfold podiumOfCsv
  rw [hp]
  rfl

/-- C12 at a drivers text with five data rows, one of them with an unreadable
total: three Records reach the podium. -/
theorem podium_end_to_end_witness :
    parseCsv "Driver Name,Team (registered),Total\na,x,3\nb,y,n/a\nc,z,9\nd,w,9\ne,v,1".toList
        = some (["Driver Name".toList, "Team (registered)".toList, "Total".toList] ::
            [["a".toList, "x".toList, "3".toList], ["b".toList, "y".toList, "n/a".toList],
              ["c".toList, "z".toList, "9".toList], ["d".toList, "w".toList, "9".toList],
              ["e".toList, "v".toList, "1".toList]]) ∧
      (topThree (["Driver Name".toList, "Team (registered)".toList, "Total".toList] ::
            [["a".toList, "x".toList, "3".toList], ["b".toList, "y".toList, "n/a".toList],
              ["c".toList, "z".toList, "9".toList], ["d".toList, "w".toList, "9".toList],
              ["e".toList, "v".toList, "1".toList]])).length = 3 ∧
      (renderPodium (topThree
          (["Driver Name".toList, "Team (registered)".toList, "Total".toList] ::
            [["a".toList, "x".toList, "3".toList], ["b".toList, "y".toList, "n/a".toList],
              ["c".toList, "z".toList, "9".toList], ["d".toList, "w".toList, "9".toList],
              ["e".toList, "v".toList, "1".toList]]))).ranks = [1, 2, 3] :=
  have h := podium_end_to_end.1
    "Driver Name,Team (registered),Total\na,x,3\nb,y,n/a\nc,z,9\nd,w,9\ne,v,1".toList
    ["Driver Name".toList, "Team (registered)".toList, "Total".toList]
    [["a".toList, "x".toList, "3".toList], ["b".toList, "y".toList, "n/a".toList],
      ["c".toList, "z".toList, "9".toList], ["d".toList, "w".toList, "9".toList],
      ["e".toList, "v".toList, "1".toList]] (by decide) (by decide) (by decide)
  ⟨by decide, h.2.1, h.2.2.1⟩

/-! ### C15: where a failed fetch ends -/

/-- A failed fetch of the drivers source is caught: `boot` writes the failure
text and no rejection is left without a handler. -/
theorem boot_drivers_failure (cfg : Config) (net : Str → FetchResult) (now : Str)
    (s : PageState) (e : Rejection) (h : fetchCsvObjects net cfg.driversCsv = .error e) :
    boot cfg net now s = { s with lastUpdated := failureText } := by
  unfold boot loadAll
  rw [h]

/-- A failed fetch of the constructors source is caught in the same way. -/
theorem boot_constructors_failure (cfg : Config) (net : Str → FetchResult) (now : Str)
    (s : PageState) (e : Rejection) (rows : List Record)
    (hd : fetchCsvObjects net cfg.driversCsv = .ok rows)
    (h : fetchCsvObjects net cfg.constructorsCsv = .error e) :
    boot cfg net now s = { s with lastUpdated := failureText } := by
  unfold boot loadAll
  rw [hd, h]

/-- A failed fetch of the race source that `loadAll` starts through
`populateRaceSelect` is not caught: `boot` ends with the time in
`lastUpdated` and the rejection without a handler. -/
theorem boot_race_failure (cfg : Config) (net : Str → FetchResult) (now : Str)
    (s : PageState) (e : Rejection) (d c : List Record) (last race : Str × Str)
    (hd : fetchCsvObjects net cfg.driversCsv = .ok d)
    (hc : fetchCsvObjects net cfg.constructorsCsv = .ok c)
    (hlast : cfg.races.getLast? = some last)
    (hfind : (cfg.races.find? fun r => decide (r.1 = last.1)) = some race)
    (hcache : s.raceCache.lookup last.1 = none)
    (h : fetchCsvObjects net race.2 = .error e) :
    boot cfg net now s = { s with lastUpdated := now, unhandled := s.unhandled ++ [e] } := by
  unfold boot loadAll
  rw [hd, hc]
  simp only
  unfold populateRaceSelect
  rw [hlast]
  simp only
  unfold loadRaceDetached loadRace
  rw [hfind]
  simp only
  rw [hcache]
  simp only
  rw [h]

/-- C15, the code at a failing fetch of a race source.  With the standings
sources loading and the source of the one configured race answering 404,
`boot` ends with the time, not the failure text, in `lastUpdated` and with the
rejection left without a handler; a network error at a change of the race
select ends the same way.  (A failing drivers source is caught and gives the
failure text.) -/
theorem race_fetch_failure_uncaught :
    (boot ⟨"d".toList, "c".toList, [("R1".toList, "r1".toList)]⟩
        (fun url => if url = "r1".toList then .response false 404 []
          else .response true 200 "A\n1".toList)
        "12:00".toList ⟨[], [], none, [], []⟩)
      = ⟨"12:00".toList, [], none, [], [.httpStatus 404]⟩ ∧
      "12:00".toList ≠ failureText ∧
      (onRaceSelectChange ⟨"d".toList, "c".toList, [("R1".toList, "r1".toList)]⟩
        (fun _ => .networkError) "R1".toList ⟨"12:00".toList, [], none, [], []⟩)
      = ⟨"12:00".toList, [], none, [], [.network]⟩ ∧
      (onRaceFilterInput ⟨"d".toList, "c".toList, [("R1".toList, "r1".toList)]⟩
        (fun _ => .networkError) "R1".toList ⟨"12:00".toList, [], none, [], []⟩)
      = ⟨"12:00".toList, [], none, [], [.network]⟩ ∧
      (boot ⟨"d".toList, "c".toList, [("R1".toList, "r1".toList)]⟩
        (fun url => if url = "d".toList then .response false 500 []
          else .response true 200 "A\n1".toList)
        "12:00".toList ⟨[], [], none, [], []⟩)
      = ⟨failureText, [], none, [], []⟩ := by
  decide

end RawF1
